import Mathlib

/-!
Verification of pkg-config `pkg.c`: package resolution and flag aggregation.

A shallow embedding of `src/pkg.c` (registry, dependency closure, flag
aggregation, RPM-style version comparison) together with theorems about it.

Conventions of the embedding

* A C string (`char *`, NUL terminated) is a `CString`, a list of characters;
  a nullable string is an `Option CString`.
* A `GSList` is a Lean `List`; the GLib list and hash-table primitives the
  source calls are library code and are modelled by their documented behaviour.
* A `Package *` is an index into the list of all allocated `Package` records
  (the heap); process-wide mutable state is passed explicitly.
* `exit (1)` is an `Except.error`; a loop or recursion whose termination is not
  structural carries a fuel argument and reports exhaustion explicitly.
-/

namespace PkgConfig

/-! ## C strings and GLib primitives -/

/-- A NUL-terminated C string, as the list of its characters. -/
abbrev CString := List Char

/-- GLib `g_slist_prepend`. -/
def g_slist_prepend {α : Type} (list : List α) (data : α) : List α := data :: list

/-- GLib `g_slist_append`. -/
def g_slist_append {α : Type} (list : List α) (data : α) : List α := list ++ [data]

/-- GLib `g_slist_reverse`. -/
def g_slist_reverse {α : Type} (list : List α) : List α := list.reverse

/-- GLib `g_slist_copy` (a shallow copy: the same elements). -/
def g_slist_copy {α : Type} (list : List α) : List α := list

/-- GLib `g_slist_concat`. -/
def g_slist_concat {α : Type} (list1 list2 : List α) : List α := list1 ++ list2

/-- GLib `g_slist_find`, as the test `g_slist_find (list, data) != NULL`. -/
def g_slist_find {α : Type} [DecidableEq α] (list : List α) (data : α) : Bool :=
  decide (data ∈ list)

/-- GLib `g_slist_remove`: removes the first element equal to `data`, if any. -/
def g_slist_remove {α : Type} [DecidableEq α] (list : List α) (data : α) : List α :=
  list.erase data

/-- A `GHashTable` created with `g_str_hash`/`g_str_equal`: keys are compared by
content.  The table is an association list searched from the front. -/
abbrev GHashTable (V : Type) := List (CString × V)

/-- GLib `g_hash_table_lookup`: the value stored under `key`, or `NULL`. -/
def g_hash_table_lookup {V : Type} : GHashTable V → CString → Option V
  | [], _ => none
  | (k, v) :: rest, key => if k = key then some v else g_hash_table_lookup rest key

/-- GLib `g_hash_table_insert`: a value already stored under `key` is replaced
(the new binding is put in front, where lookup finds it first). -/
def g_hash_table_insert {V : Type} (table : GHashTable V) (key : CString) (value : V) :
    GHashTable V :=
  (key, value) :: table

/-! ## De-duplication of token lists -/

/-- The `while (tmp != NULL)` loop shared by `string_list_strip_duplicates` and
`string_list_strip_duplicates_from_back`: a token not yet in `table` is
prepended to `nodups` and recorded in `table`. -/
def strip_duplicates_loop :
    List CString → GHashTable CString → List CString → List CString
  | [], _, nodups => nodups
  | data :: tmp, table, nodups =>
    if g_hash_table_lookup table data = none then
      strip_duplicates_loop tmp (g_hash_table_insert table data data)
        (g_slist_prepend nodups data)
    else
      strip_duplicates_loop tmp table nodups

/-- The function `string_list_strip_duplicates` (pkg.c 427-457). -/
def string_list_strip_duplicates (list : List CString) : List CString :=
  g_slist_reverse (strip_duplicates_loop list [] [])

/-- The function `string_list_strip_duplicates_from_back` (pkg.c 459-493): the loop runs over
the reversed copy and the result is not reversed again. -/
def string_list_strip_duplicates_from_back (list : List CString) : List CString :=
  strip_duplicates_loop (g_slist_reverse (g_slist_copy list)) [] []

/-- Specification wording, front de-duplication: the tokens standing at a
position before which the same token does not occur, in list order. -/
def first_occurrences (l : List CString) : List CString :=
  (l.enum.filter (fun p => decide (p.2 ∉ l.take p.1))).map Prod.snd

/-- Specification wording, back de-duplication: the tokens standing at a
position after which the same token does not occur, in list order. -/
def last_occurrences (l : List CString) : List CString :=
  (l.enum.filter (fun p => decide (p.2 ∉ l.drop (p.1 + 1)))).map Prod.snd

/-- GLib `g_string_append`. -/
def g_string_append (str val : CString) : CString := str ++ val

/-- GLib `g_string_append_c`. -/
def g_string_append_c (str : CString) (c : Char) : CString := str ++ [c]

/-- The character `s[i]` of a C string; reading at the end yields the
terminating NUL. -/
def char_at (s : CString) (i : Nat) : Char := s.getD i (Char.ofNat 0)

/-- The insertion step of the model of `g_slist_sort`: `x` goes in front of the
first element it does not compare greater than. -/
def g_slist_insert_ordered {α : Type} (compare_func : α → α → Int) (x : α) : List α → List α
  | [] => [x]
  | y :: rest =>
    if compare_func x y ≤ 0 then x :: y :: rest
    else y :: g_slist_insert_ordered compare_func x rest

/-- GLib `g_slist_sort`, documented as a stable sort by `compare_func`
(GLib is not part of the repository; any stable sort returns the same list,
so the model is the stable insertion sort). -/
def g_slist_sort {α : Type} (list : List α) (compare_func : α → α → Int) : List α :=
  list.foldr (g_slist_insert_ordered compare_func) []

/-! ## Data model -/

/-- The enumeration `ComparisonType` of pkg.h, with the constructors `version_test` switches on. -/
inductive ComparisonType where
  | LESS_THAN
  | GREATER_THAN
  | LESS_THAN_EQUAL
  | GREATER_THAN_EQUAL
  | EQUAL
  | NOT_EQUAL
  | ALWAYS_MATCH
  deriving DecidableEq

/-- Modelled from the spec: the `RequiredVersion` record of pkg.h (the header is
not under src/): target name, comparison and nullable operand.  The pointer
`owner` to the declaring package is read by pkg.c only for the text of an error
message and is left out. -/
structure RequiredVersion where
  name : CString
  comparison : ComparisonType
  version : Option CString
  deriving DecidableEq

/-- Modelled from the spec: the `Package` record of pkg.h (the header is not
under src/), with the fields pkg.c reads or writes.  Pointers to other packages
are indices into the heap; a `NULL` string or table is `none`. -/
structure Package where
  key : Option CString
  name : Option CString
  version : Option CString
  description : Option CString
  url : Option CString
  pcfiledir : Option CString
  requires_entries : List RequiredVersion
  requires : List Nat
  requires_private_entries : List RequiredVersion
  requires_private : List Nat
  l_libs : List CString
  L_libs : List CString
  other_libs : List CString
  I_cflags : List CString
  other_cflags : List CString
  vars : Option (GHashTable CString)
  required_versions : Option (GHashTable RequiredVersion)
  conflicts : List RequiredVersion
  uninstalled : Bool
  path_position : Int
  deriving DecidableEq

/-- All `Package` records allocated so far; a `Package *` is an index. -/
abbrev Heap := List Package

/-- Modelled from the spec: the `FlagType` bitmask of pkg.h (not under src/),
one bit per flag category; `flags & CFLAGS_I` is the field `CFLAGS_I`. -/
structure FlagType where
  LIBS_l : Bool
  LIBS_L : Bool
  LIBS_OTHER : Bool
  CFLAGS_I : Bool
  CFLAGS_OTHER : Bool
  deriving DecidableEq

/-- The flag value with only the bit `LIBS_l` set. -/
def LIBS_l : FlagType := ⟨true, false, false, false, false⟩

/-- The flag value with only the bit `LIBS_L` set. -/
def LIBS_L : FlagType := ⟨false, true, false, false, false⟩

/-- The flag value with only the bit `LIBS_OTHER` set. -/
def LIBS_OTHER : FlagType := ⟨false, false, true, false, false⟩

/-- The flag value with only the bit `CFLAGS_I` set. -/
def CFLAGS_I : FlagType := ⟨false, false, false, true, false⟩

/-- The flag value with only the bit `CFLAGS_OTHER` set. -/
def CFLAGS_OTHER : FlagType := ⟨false, false, false, false, true⟩

/-- The process-wide settings pkg.c reads: its four toggles (pkg.c 52-55) and
`pcsysrootdir`, which is defined outside pkg.c. -/
structure Config where
  disable_uninstalled : Bool
  ignore_requires : Bool
  ignore_requires_private : Bool
  ignore_private_libs : Bool
  pcsysrootdir : Option CString

/-! ## Rendering a token list -/

/-- The loop of `string_list_to_string` (pkg.c 502-518); `str` is the `GString`
built so far. -/
def string_list_to_string_loop (pcsysrootdir : Option CString) :
    List CString → CString → CString
  | [], str => str
  | tmpstr :: tmp, str =>
    let str1 :=
      match pcsysrootdir with
      | some sysroot =>
        if char_at tmpstr 0 = '-' ∧ (char_at tmpstr 1 = 'I' ∨ char_at tmpstr 1 = 'L') then
          g_string_append
            (g_string_append
              (g_string_append_c (g_string_append_c str '-') (char_at tmpstr 1)) sysroot)
            (tmpstr.drop 2)
        else g_string_append str tmpstr
      | none => g_string_append str tmpstr
    string_list_to_string_loop pcsysrootdir tmp (g_string_append_c str1 ' ')

/-- The function `string_list_to_string` (pkg.c 495-524). -/
def string_list_to_string (pcsysrootdir : Option CString) (list : List CString) : CString :=
  string_list_to_string_loop pcsysrootdir list []

/-- Specification wording of the sysroot rewrite of one token: `-I` or `-L`
followed by `r` becomes the flag, the sysroot, then `r`; anything else, and
every token when no sysroot is configured, is unchanged. -/
def sysroot_rewrite (sysroot : Option CString) (tok : CString) : CString :=
  match sysroot with
  | none => tok
  | some s =>
    if ['-', 'I'] <+: tok ∨ ['-', 'L'] <+: tok then tok.take 2 ++ s ++ tok.drop 2 else tok

/-- Specification wording of the join (as amended): every token followed by one
space, that is, the tokens separated by single spaces and one more space at the
end when there is a token at all. -/
def join_with_spaces (l : List CString) : CString :=
  if l = [] then [] else [' '].intercalate l ++ [' ']

/-! ## Dependency closure and flag aggregation -/

/-- The getter `get_l_libs` of pkg.c. -/
def get_l_libs (pkg : Package) : List CString := pkg.l_libs

/-- The getter `get_L_libs` of pkg.c. -/
def get_L_libs (pkg : Package) : List CString := pkg.L_libs

/-- The getter `get_other_libs` of pkg.c. -/
def get_other_libs (pkg : Package) : List CString := pkg.other_libs

/-- The getter `get_I_cflags` of pkg.c. -/
def get_I_cflags (pkg : Package) : List CString := pkg.I_cflags

/-- The getter `get_other_cflags` of pkg.c. -/
def get_other_cflags (pkg : Package) : List CString := pkg.other_cflags

/-- The getter `get_conflicts` of pkg.c. -/
def get_conflicts (pkg : Package) : List RequiredVersion := pkg.conflicts

/-- The getter `get_requires` of pkg.c. -/
def get_requires (pkg : Package) : List Nat := pkg.requires

/-- The getter `get_requires_private` of pkg.c. -/
def get_requires_private (pkg : Package) : List Nat := pkg.requires_private

/-- The function `pathposcmp` (pkg.c 576-588). -/
def pathposcmp (pa pb : Package) : Int :=
  if pa.path_position < pb.path_position then -1
  else if pa.path_position > pb.path_position then 1
  else 0

/-- The function `packages_sort_by_path_position` (pkg.c 609-613), on the records behind the
pointers of the list. -/
def packages_sort_by_path_position (list : List Package) : List Package :=
  g_slist_sort list pathposcmp

/-- The function `recursive_fill_list` (pkg.c 615-648).  The state is the pair of the static
`chain` and the output list `*listp`; `func` is `get_requires` or
`get_requires_private` (the `g_assert`).  The C recursion has no counter: the
first argument is fuel, and the result is `none` when it runs out or when a
pointer outside the heap is dereferenced. -/
def recursive_fill_list (heap : Heap) (func : Package → List Nat) :
    Nat → Nat → List Nat × List Nat → Option (List Nat × List Nat)
  | 0, _, _ => none
  | fuel + 1, pkg, (chain, list) =>
    if g_slist_find chain pkg then some (chain, list)
    else
      match heap[pkg]? with
      | none => none
      | some p =>
        match (func p).foldlM
            (fun st tmp => recursive_fill_list heap func fuel tmp st)
            (g_slist_prepend chain pkg, list) with
        | none => none
        | some (chain1, list1) => some (g_slist_remove chain1 pkg, g_slist_prepend list1 pkg)

/-- The function `merge_flag_lists` (pkg.c 650-680): the flags of the packages, copied in
list order; `*listp` is left alone when there is no flag at all. -/
def merge_flag_lists (packages : List Package) (func : Package → List CString)
    (listp : List CString) : List CString :=
  match packages.foldl (fun acc pkg => acc ++ func pkg) [] with
  | [] => listp
  | flags => flags

/-- The closure loop of `fill_list` (pkg.c 689-698): one `recursive_fill_list`
per root, all writing to `expanded`.  The fuel `heap.length + 1` is enough for
every heap whose pointers are valid (`recursive_fill_list_total`). -/
def fill_list_expand (heap : Heap) (packages : List Nat) (include_private : Bool)
    (chain : List Nat) : Option (List Nat × List Nat) :=
  packages.foldlM
    (fun st tmp =>
      recursive_fill_list heap (if include_private then get_requires_private else get_requires)
        (heap.length + 1) tmp st)
    (chain, [])

/-- The records behind a list of pointers. -/
def deref_all (heap : Heap) : List Nat → Option (List Package)
  | [] => some []
  | p :: rest =>
    match heap[p]?, deref_all heap rest with
    | some r, some rs => some (r :: rs)
    | _, _ => none

/-- The function `fill_list` (pkg.c 682-712).  Returns `*listp` (initially `listp`) and the
static chain. -/
def fill_list (heap : Heap) (packages : List Nat) (func : Package → List CString)
    (listp : List CString) (in_path_order include_private : Bool) (chain : List Nat) :
    Option (List CString × List Nat) :=
  match fill_list_expand heap packages include_private chain with
  | none => none
  | some (chain1, expanded) =>
    match deref_all heap expanded with
    | none => none
    | some expanded =>
      let expanded := if in_path_order then packages_sort_by_path_position expanded else expanded
      some (merge_flag_lists expanded func listp, chain1)

/-- The function `get_multi_merged` (pkg.c 978-997). -/
def get_multi_merged (cfg : Config) (heap : Heap) (pkgs : List Nat)
    (func : Package → List CString) (in_path_order include_private : Bool)
    (chain : List Nat) : Option (CString × List Nat) :=
  match fill_list heap pkgs func [] in_path_order include_private chain with
  | none => none
  | some (dups_list, chain1) =>
    some (string_list_to_string cfg.pcsysrootdir (string_list_strip_duplicates dups_list), chain1)

/-- The function `get_multi_merged_from_back` (pkg.c 999-1018). -/
def get_multi_merged_from_back (cfg : Config) (heap : Heap) (pkgs : List Nat)
    (func : Package → List CString) (in_path_order include_private : Bool)
    (chain : List Nat) : Option (CString × List Nat) :=
  match fill_list heap pkgs func [] in_path_order include_private chain with
  | none => none
  | some (dups_list, chain1) =>
    some (string_list_to_string cfg.pcsysrootdir
      (string_list_strip_duplicates_from_back dups_list), chain1)

/-- One `if (flags & CATEGORY)` block of `packages_get_flags`: when the bit is
set, the category string `cur` is appended to `str`. -/
def append_category (bit : Bool) (cur : List Nat → Option (CString × List Nat))
    (st : CString × List Nat) : Option (CString × List Nat) :=
  if bit then
    match cur st.2 with
    | none => none
    | some (s, chain1) => some (g_string_append st.1 s, chain1)
  else some st

/-- The function `packages_get_flags` (pkg.c 1020-1070).  `chain` is the static chain of
`recursive_fill_list` before the call; the result is the flag string and the
chain after it. -/
def packages_get_flags (cfg : Config) (heap : Heap) (pkgs : List Nat) (flags : FlagType)
    (chain : List Nat) : Option (CString × List Nat) := do
  let st ← append_category flags.CFLAGS_OTHER
    (get_multi_merged cfg heap pkgs get_other_cflags true true) ([], chain)
  let st ← append_category flags.CFLAGS_I
    (get_multi_merged cfg heap pkgs get_I_cflags true true) st
  let st ← append_category flags.LIBS_OTHER
    (get_multi_merged cfg heap pkgs get_other_libs true (!cfg.ignore_private_libs)) st
  let st ← append_category flags.LIBS_L
    (get_multi_merged cfg heap pkgs get_L_libs true (!cfg.ignore_private_libs)) st
  append_category flags.LIBS_l
    (get_multi_merged_from_back cfg heap pkgs get_l_libs false (!cfg.ignore_private_libs)) st

/-! ## Version comparison -/

/-- The C library function `isdigit` in the "C" locale. -/
def isdigit (c : Char) : Bool := c.isDigit

/-- The C library function `isalpha` in the "C" locale (ASCII letters only). -/
def isalpha (c : Char) : Bool := c.isAlpha

/-- The C library function `isalnum` in the "C" locale. -/
def isalnum (c : Char) : Bool := c.isAlphanum

/-- The C library function `strcmp`.  The C standard fixes only the sign of a non-zero result; the
model returns the difference of the first two characters that differ, the end
of a string counting as NUL. -/
def strcmp : CString → CString → Int
  | [], [] => 0
  | [], c :: _ => 0 - (c.toNat : Int)
  | c :: _, [] => (c.toNat : Int)
  | c1 :: s1, c2 :: s2 => if c1 = c2 then strcmp s1 s2 else (c1.toNat : Int) - (c2.toNat : Int)

/-- The end of `rpmvercmp` (pkg.c 1244-1247), reached when the `while` loop is
left: equal if both strings are used up, otherwise the one with characters left
is newer. -/
def rpmvercmp_tail (one two : CString) : Int :=
  if one = [] ∧ two = [] then 0
  else if one = [] then -1 else 1

/-- The segment at the start of `s`, digits when `isnum` and letters otherwise:
the string `one` (or `two`) once `*str1` (`*str2`) has been overwritten with
NUL (pkg.c 1190-1205). -/
def segment (isnum : Bool) (s : CString) : CString :=
  if isnum then s.takeWhile isdigit else s.takeWhile isalpha

/-- What follows the segment: the pointer `str1` (or `str2`) after the walk
(pkg.c 1190-1198). -/
def segment_end (isnum : Bool) (s : CString) : CString :=
  if isnum then s.dropWhile isdigit else s.dropWhile isalpha

/-- The comparison of the two segments `one` and `two` of one round
(pkg.c 1207-1232): `some rc` when the round executes `return rc`, `none` when
the segments compare equal and the loop goes on. -/
def compare_segments (isnum : Bool) (one two : CString) : Option Int :=
  if one = [] then some (-1)
  else if two = [] then some (if isnum then 1 else -1)
  else
    let one := if isnum then one.dropWhile (fun c => c == '0') else one
    let two := if isnum then two.dropWhile (fun c => c == '0') else two
    if isnum = true ∧ one.length > two.length then some 1
    else if isnum = true ∧ two.length > one.length then some (-1)
    else
      let rc := strcmp one two
      if rc ≠ 0 then some rc else none

/-- The `while (*one && *two)` loop of `rpmvercmp` (pkg.c 1177-1239) followed by
the end of the function.  `one` and `two` are the rest of the two strings.  Each
round removes at least one character of `one`; the first argument is fuel, and
`none` is returned when it runs out. -/
def rpmvercmp_loop : Nat → CString → CString → Option Int
  | 0, _, _ => none
  | fuel + 1, one, two =>
    if one ≠ [] ∧ two ≠ [] then
      let one := one.dropWhile (fun c => !isalnum c)
      let two := two.dropWhile (fun c => !isalnum c)
      if ¬ (one ≠ [] ∧ two ≠ []) then some (rpmvercmp_tail one two)
      else
        let isnum := isdigit (char_at one 0)
        match compare_segments isnum (segment isnum one) (segment isnum two) with
        | some rc => some rc
        | none => rpmvercmp_loop fuel (segment_end isnum one) (segment_end isnum two)
    else some (rpmvercmp_tail one two)

/-- The function `rpmvercmp` (pkg.c 1157-1248).  The loop gets fuel `strlen (a) + 1`, which
it never uses up (`rpmvercmp_loop_total`). -/
def rpmvercmp (a b : CString) : Int :=
  if a = b then 0
  else (rpmvercmp_loop (a.length + 1) a b).getD 0

/-- The function `compare_versions` (pkg.c 1250-1254). -/
def compare_versions (a b : CString) : Int := rpmvercmp a b

/-- The function `version_test` (pkg.c 1256-1297).  The operands are nullable; `none` is
returned when a comparison would read a `NULL` string. -/
def version_test (comparison : ComparisonType) (a b : Option CString) : Option Bool :=
  match comparison with
  | ComparisonType.ALWAYS_MATCH => some true
  | _ =>
    match a, b with
    | some a, some b =>
      match comparison with
      | ComparisonType.LESS_THAN => some (decide (compare_versions a b < 0))
      | ComparisonType.GREATER_THAN => some (decide (compare_versions a b > 0))
      | ComparisonType.LESS_THAN_EQUAL => some (decide (compare_versions a b ≤ 0))
      | ComparisonType.GREATER_THAN_EQUAL => some (decide (compare_versions a b ≥ 0))
      | ComparisonType.EQUAL => some (decide (compare_versions a b = 0))
      | ComparisonType.NOT_EQUAL => some (decide (compare_versions a b ≠ 0))
      | ComparisonType.ALWAYS_MATCH => some true
    | _, _ => none

/-- The number written by a string of decimal digits. -/
def digits_value (m : CString) : Nat :=
  m.foldl (fun acc c => 10 * acc + (c.toNat - 48)) 0

/-! ## The registry: `internal_get_package` and `verify_package` -/

/-- The ways a resolution ends without returning to its caller.  The first four
are the `exit (1)` paths of pkg.c, named as in the specification; `Stuck` is not
an outcome of the C program but of the model: the fuel ran out, or the C code
would read through a `NULL` or dangling pointer. -/
inductive Fatal where
  | NotFound
  | MissingRequiredField
  | VersionMismatch
  | ConflictDetected
  | Stuck
  deriving DecidableEq

/-- The process-wide state of pkg.c (pkg.c 45-50), the heap of `Package`
records, and the static `chain` of `recursive_fill_list`. -/
structure Registry where
  heap : Heap
  packages : GHashTable Nat
  locations : GHashTable CString
  path_positions : GHashTable Int
  globals : Option (GHashTable CString)
  search_dirs : List CString
  scanned_dir_count : Int
  chain : List Nat
  deriving DecidableEq

/-- What pkg.c takes from outside: the parser `parse_package_file` of parse.c
(a black box from a file name and the three toggles to a raw package, `none`
for `NULL`), the environment (`g_getenv`), and the two compiled-in system path
lists of config.h. -/
structure Env where
  parse_package_file : CString → Bool → Bool → Bool → Option Package
  getenv : CString → Option CString
  PKG_CONFIG_SYSTEM_INCLUDE_PATH : CString
  PKG_CONFIG_SYSTEM_LIBRARY_PATH : CString

/-- GLib `G_DIR_SEPARATOR` (not Win32). -/
def G_DIR_SEPARATOR : Char := '/'

/-- GLib `G_SEARCHPATH_SEPARATOR` (not Win32). -/
def G_SEARCHPATH_SEPARATOR : Char := ':'

/-- The macro `EXT_LEN` (pkg.c 93). -/
def EXT_LEN : Nat := 3

/-- The macro `UNINSTALLED_LEN` (pkg.c 110). -/
def UNINSTALLED_LEN : Nat := 12

/-- The function `ends_in_dotpc` (pkg.c 95-107), with `FOLD` the identity (not
Win32). -/
def ends_in_dotpc (str : CString) : Bool :=
  let len := str.length
  decide (len > EXT_LEN) && char_at str (len - 3) == '.' && char_at str (len - 2) == 'p' &&
    char_at str (len - 1) == 'c'

/-- The function `name_ends_in_uninstalled` (pkg.c 112-122), with `FOLDCMP` the
function `strcmp` (not Win32). -/
def name_ends_in_uninstalled (str : CString) : Bool :=
  let len := str.length
  decide (len > UNINSTALLED_LEN) &&
    decide (str.drop (len - UNINSTALLED_LEN) = "-uninstalled".toList)

/-- The C library function `strstr`, as the test `strstr (haystack, needle) != NULL`. -/
def strstr (haystack needle : CString) : Bool :=
  haystack.tails.any (fun t => needle.isPrefixOf t)

/-- The C library function `strncmp`, as the test `strncmp (a, b, n) == 0`. -/
def strncmp_eq (a b : CString) (n : Nat) : Bool := decide (a.take n = b.take n)

/-- The loop `while (start != name && *start != G_DIR_SEPARATOR) --start;`
(pkg.c 339-340) on the index `start` into `name`. -/
def key_start (name : CString) : Nat → Nat
  | 0 => 0
  | start + 1 =>
    if char_at name (start + 1) ≠ G_DIR_SEPARATOR then key_start name start else start + 1

/-- The key of a package loaded through the literal file name `name`
(pkg.c 334-344): the characters from `start` up to `end`. -/
def key_of_filename (name : CString) : CString :=
  let len := name.length
  let end_ := len - EXT_LEN
  let start := key_start name end_
  (name.drop start).take (end_ - start)

/-- GLib `g_strsplit (string, delimiter, 0)` for a one-character delimiter: the
pieces between the delimiters, empty pieces included; the empty string has no
piece. -/
def g_strsplit_loop (delimiter : Char) : CString → CString → List CString
  | [], piece => [piece.reverse]
  | c :: rest, piece =>
    if c = delimiter then piece.reverse :: g_strsplit_loop delimiter rest []
    else g_strsplit_loop delimiter rest (c :: piece)

/-- GLib `g_strsplit (string, delimiter, 0)`, see `g_strsplit_loop`. -/
def g_strsplit (string : CString) (delimiter : Char) : List CString :=
  if string = [] then [] else g_strsplit_loop delimiter string []

/-- The function `add_env_variable_to_list` (pkg.c 714-728). -/
def add_env_variable_to_list (list : List CString) (env : CString) : List CString :=
  (g_strsplit env G_SEARCHPATH_SEPARATOR).foldl g_slist_append list

/-- The mandatory-field checks of `verify_package` (pkg.c 745-771). -/
def verify_fields (pkg : Package) : Except Fatal Unit :=
  if pkg.key = none then Except.error Fatal.MissingRequiredField
  else if pkg.name = none then Except.error Fatal.MissingRequiredField
  else if pkg.version = none then Except.error Fatal.MissingRequiredField
  else if pkg.description = none then Except.error Fatal.MissingRequiredField
  else Except.ok ()

/-- The version loop of `verify_package` (pkg.c 775-805) over the list `iter`:
for each required package the constraint stored under its key, if there is one,
is tested against its version. -/
def verify_versions (heap : Heap) (pkg : Package) : List Nat → Except Fatal Unit
  | [] => Except.ok ()
  | req :: iter =>
    match heap[req]? with
    | none => Except.error Fatal.Stuck
    | some r =>
      let ver : Except Fatal (Option RequiredVersion) :=
        match pkg.required_versions with
        | none => Except.ok none
        | some table =>
          match r.key with
          | none => Except.error Fatal.Stuck
          | some key => Except.ok (g_hash_table_lookup table key)
      match ver with
      | Except.error e => Except.error e
      | Except.ok none => verify_versions heap pkg iter
      | Except.ok (some v) =>
        match version_test v.comparison r.version v.version with
        | none => Except.error Fatal.Stuck
        | some false => Except.error Fatal.VersionMismatch
        | some true => verify_versions heap pkg iter

/-- The inner loop of the conflict check (pkg.c 820-842): the package `req`
against every entry of `conflicts`. -/
def verify_conflicts_of (req : Package) : List RequiredVersion → Except Fatal Unit
  | [] => Except.ok ()
  | ver :: conflicts_iter =>
    match req.key with
    | none => Except.error Fatal.Stuck
    | some key =>
      if strcmp ver.name key = 0 then
        match version_test ver.comparison req.version ver.version with
        | none => Except.error Fatal.Stuck
        | some true => Except.error Fatal.ConflictDetected
        | some false => verify_conflicts_of req conflicts_iter
      else verify_conflicts_of req conflicts_iter

/-- The outer loop of the conflict check (pkg.c 813-845) over the closure list
`requires`. -/
def verify_conflicts (heap : Heap) (conflicts : List RequiredVersion) :
    List Nat → Except Fatal Unit
  | [] => Except.ok ()
  | req :: requires_iter =>
    match heap[req]? with
    | none => Except.error Fatal.Stuck
    | some r =>
      match verify_conflicts_of r conflicts with
      | Except.error e => Except.error e
      | Except.ok _ => verify_conflicts heap conflicts requires_iter

/-- The list of system include directories (pkg.c 853-872). -/
def system_include_directories (env : Env) : List CString :=
  let search_path :=
    match env.getenv "PKG_CONFIG_SYSTEM_INCLUDE_PATH".toList with
    | none => env.PKG_CONFIG_SYSTEM_INCLUDE_PATH
    | some v => v
  let system_directories := add_env_variable_to_list [] search_path
  let system_directories :=
    match env.getenv "C_INCLUDE_PATH".toList with
    | none => system_directories
    | some v => add_env_variable_to_list system_directories v
  match env.getenv "CPLUS_INCLUDE_PATH".toList with
  | none => system_directories
  | some v => add_env_variable_to_list system_directories v

/-- The list of system library directories (pkg.c 926-933). -/
def system_library_directories (env : Env) : List CString :=
  let search_path :=
    match env.getenv "PKG_CONFIG_SYSTEM_LIBRARY_PATH".toList with
    | none => env.PKG_CONFIG_SYSTEM_LIBRARY_PATH
    | some v => v
  add_env_variable_to_list [] search_path

/-- One round of the `I_cflags` loop (pkg.c 876-913): the value of `iter->data`
after it, `none` when it has been set to `NULL`.  In the condition the test for
`-I` comes first and sets `offset` to 2; the test for `-I ` with `offset` 3 is
only made when the first one fails. -/
def mark_system_include (env : Env) (system_directories : List CString) (data : CString) :
    Option CString :=
  let offset : Nat :=
    if strncmp_eq data "-I".toList 2 then 2
    else if strncmp_eq data "-I ".toList 3 then 3
    else 0
  if offset ≠ 0 ∧ (system_directories.any (fun dir => decide (strcmp dir (data.drop offset) = 0)))
      ∧ env.getenv "PKG_CONFIG_ALLOW_SYSTEM_CFLAGS".toList = none then none
  else some data

/-- One round of the `L_libs` loop (pkg.c 937-968): the value of `iter->data`
after it, `none` when it has been set to `NULL`. -/
def mark_system_library (env : Env) (system_directories : List CString) (linker_arg : CString) :
    Option CString :=
  if (system_directories.any (fun system_libpath =>
        (strncmp_eq linker_arg "-L ".toList 3 &&
          decide (strcmp (linker_arg.drop 3) system_libpath = 0)) ||
        (strncmp_eq linker_arg "-L".toList 2 &&
          decide (strcmp (linker_arg.drop 2) system_libpath = 0))))
      ∧ env.getenv "PKG_CONFIG_ALLOW_SYSTEM_LIBS".toList = none then none
  else some linker_arg

/-- The loops `while (count) { list = g_slist_remove (list, NULL); --count; }`
(pkg.c 915-919 and 971-975) on a list in which `count` entries have been set to
`NULL`, followed by the reading of the list as a list of strings. -/
def remove_marked (list : List (Option CString)) : List CString :=
  let count := list.count none
  (Nat.iterate (fun l => g_slist_remove l none) count list).filterMap id

/-- The function `verify_package` (pkg.c 730-976) on the package at `pkg`.  It
ends in a fatal error or returns with the registry in which the system
directories have been taken out of `I_cflags` and `L_libs` of the package. -/
def verify_package (env : Env) (reg : Registry) (pkg : Nat) : Except Fatal Registry :=
  match reg.heap[pkg]? with
  | none => Except.error Fatal.Stuck
  | some p =>
    match verify_fields p with
    | Except.error e => Except.error e
    | Except.ok _ =>
      match verify_versions reg.heap p p.requires_private with
      | Except.error e => Except.error e
      | Except.ok _ =>
        match recursive_fill_list reg.heap get_requires_private (reg.heap.length + 1) pkg
            (reg.chain, []) with
        | none => Except.error Fatal.Stuck
        | some (chain1, requires) =>
          match verify_conflicts reg.heap (get_conflicts p) requires with
          | Except.error e => Except.error e
          | Except.ok _ =>
            let I_cflags := remove_marked
              (p.I_cflags.map (mark_system_include env (system_include_directories env)))
            let L_libs := remove_marked
              (p.L_libs.map (mark_system_library env (system_library_directories env)))
            Except.ok { reg with
              heap := reg.heap.set pkg { p with I_cflags := I_cflags, L_libs := L_libs },
              chain := chain1 }

/-- The outcome of the first part of `internal_get_package` (pkg.c 276-304):
either the package of the uninstalled variant, which is returned at once, or
the location to read, `none` for `NULL`, with the flag `literal` telling that
`location == name`. -/
inductive Located where
  | found (pkg : Nat) (reg : Registry)
  | location (location : Option CString) (literal : Bool) (reg : Registry)

/-- The first part of `internal_get_package` after the cache miss
(pkg.c 276-304); `recurse` is `internal_get_package` itself. -/
def locate_package (cfg : Config)
    (recurse : CString → Bool → Registry → Except Fatal (Option Nat × Registry))
    (name : CString) (reg : Registry) : Except Fatal Located :=
  if ends_in_dotpc name then Except.ok (Located.location (some name) true reg)
  else
    let probe :=
      if !cfg.disable_uninstalled && !name_ends_in_uninstalled name then
        recurse (name ++ "-uninstalled".toList) false reg
      else Except.ok (none, reg)
    match probe with
    | Except.error e => Except.error e
    | Except.ok (some pkg, reg1) => Except.ok (Located.found pkg reg1)
    | Except.ok (none, reg1) =>
      Except.ok (Located.location (g_hash_table_lookup reg1.locations name) false reg1)

/-- The second part of `internal_get_package` (pkg.c 317-354): the file is
parsed, `uninstalled`, `key` and `path_position` are set, and the new package is
put into the heap and into the table `packages`.  `none` when the parser
returns `NULL`. -/
def load_package (env : Env) (cfg : Config) (name location : CString) (literal : Bool)
    (reg : Registry) : Option (Nat × Registry) :=
  match env.parse_package_file location cfg.ignore_requires cfg.ignore_private_libs
      cfg.ignore_requires_private with
  | none => none
  | some pkg =>
    let pkg := if strstr location "uninstalled.pc".toList then { pkg with uninstalled := true }
      else pkg
    let key := if literal then key_of_filename name else name
    let pkg := { pkg with
      key := some key,
      path_position := (g_hash_table_lookup reg.path_positions key).getD 0 }
    some (reg.heap.length,
      { reg with
        heap := reg.heap ++ [pkg],
        packages := g_hash_table_insert reg.packages key reg.heap.length })

/-- One of the two loops that pull in the required packages (pkg.c 357-377 for
`Requires`, 380-401 for `Requires.private`) for the package at `pkg`. -/
def pull_in_requires
    (recurse : CString → Bool → Registry → Except Fatal (Option Nat × Registry))
    (warn : Bool) (pkg : Nat) (is_private : Bool) (entries : List RequiredVersion)
    (reg : Registry) : Except Fatal Registry :=
  entries.foldlM
    (fun reg ver =>
      match recurse ver.name warn reg with
      | Except.error e => Except.error e
      | Except.ok (none, _) => Except.error Fatal.NotFound
      | Except.ok (some req, reg1) =>
        match reg1.heap[pkg]? with
        | none => Except.error Fatal.Stuck
        | some p =>
          let table := g_hash_table_insert (p.required_versions.getD []) ver.name ver
          let p1 :=
            if is_private then
              { p with
                required_versions := some table,
                requires_private := g_slist_prepend p.requires_private req }
            else
              { p with
                required_versions := some table,
                requires := g_slist_prepend p.requires req }
          Except.ok { reg1 with heap := reg1.heap.set pkg p1 })
    reg

/-- The third part of `internal_get_package` (pkg.c 356-408): both loops, then
the public requirements are copied in front of `requires_private` and both lists
are reversed. -/
def link_package
    (recurse : CString → Bool → Registry → Except Fatal (Option Nat × Registry))
    (warn : Bool) (pkg : Nat) (reg : Registry) : Except Fatal Registry :=
  match reg.heap[pkg]? with
  | none => Except.error Fatal.Stuck
  | some p0 =>
    match pull_in_requires recurse warn pkg false p0.requires_entries reg with
    | Except.error e => Except.error e
    | Except.ok reg1 =>
      match pull_in_requires recurse warn pkg true p0.requires_private_entries reg1 with
      | Except.error e => Except.error e
      | Except.ok reg2 =>
        match reg2.heap[pkg]? with
        | none => Except.error Fatal.Stuck
        | some p =>
          let requires_private := g_slist_concat (g_slist_copy p.requires) p.requires_private
          Except.ok { reg2 with
            heap := reg2.heap.set pkg { p with
              requires := g_slist_reverse p.requires,
              requires_private := g_slist_reverse requires_private } }

/-- The function `internal_get_package` (pkg.c 262-413).  The result is the
package returned (`none` for `NULL`) with the registry after the call, or the
fatal error that ended the process.  The C recursion has no counter: the first
argument is fuel. -/
def internal_get_package (env : Env) (cfg : Config) :
    Nat → CString → Bool → Registry → Except Fatal (Option Nat × Registry)
  | 0, _, _, _ => Except.error Fatal.Stuck
  | fuel + 1, name, warn, reg =>
    match g_hash_table_lookup reg.packages name with
    | some pkg => Except.ok (some pkg, reg)
    | none =>
      match locate_package cfg (internal_get_package env cfg fuel) name reg with
      | Except.error e => Except.error e
      | Except.ok (Located.found pkg reg1) => Except.ok (some pkg, reg1)
      | Except.ok (Located.location none _ reg1) => Except.ok (none, reg1)
      | Except.ok (Located.location (some location) literal reg1) =>
        match load_package env cfg name location literal reg1 with
        | none => Except.ok (none, reg1)
        | some (pkg, reg2) =>
          match link_package (internal_get_package env cfg fuel) warn pkg reg2 with
          | Except.error e => Except.error e
          | Except.ok reg3 =>
            match verify_package env reg3 pkg with
            | Except.error e => Except.error e
            | Except.ok reg4 => Except.ok (some pkg, reg4)

/-- The function `get_package` (pkg.c 415-419). -/
def get_package (env : Env) (cfg : Config) (fuel : Nat) (name : CString) (reg : Registry) :
    Except Fatal (Option Nat × Registry) :=
  internal_get_package env cfg fuel name true reg

/-- The function `get_package_quiet` (pkg.c 421-425). -/
def get_package_quiet (env : Env) (cfg : Config) (fuel : Nat) (name : CString)
    (reg : Registry) : Except Fatal (Option Nat × Registry) :=
  internal_get_package env cfg fuel name false reg

/-! ## Predicates used in the statements -/

/-- Every pointer stored in a `requires` or `requires_private` list of the heap
points into the heap. -/
def ValidHeap (heap : Heap) : Prop :=
  ∀ p ∈ heap, (∀ q ∈ p.requires, q < heap.length) ∧ (∀ q ∈ p.requires_private, q < heap.length)

instance (heap : Heap) : Decidable (ValidHeap heap) := by
  unfold ValidHeap; infer_instance

/-- The package `q` is on the list `func` of the package `p`. -/
def requires_edge (heap : Heap) (func : Package → List Nat) (p q : Nat) : Prop :=
  ∃ r, heap[p]? = some r ∧ q ∈ func r

/-- The package `q` is reachable from `p` by zero or more `func` edges. -/
def Reachable (heap : Heap) (func : Package → List Nat) (p q : Nat) : Prop :=
  Relation.ReflTransGen (requires_edge heap func) p q

/-- The package `q` is reachable from `p` along `func` edges by a path none of
whose packages is in `S`. -/
inductive ReachAvoid (heap : Heap) (func : Package → List Nat) (S : List Nat) : Nat → Nat → Prop
  | refl (p : Nat) : p ∉ S → ReachAvoid heap func S p p
  | step (p c q : Nat) : p ∉ S → requires_edge heap func p c → ReachAvoid heap func S c q →
      ReachAvoid heap func S p q

/-- The number of heap packages not on the chain: the measure that bounds the
depth of `recursive_fill_list`. -/
def unvisited (heap : Heap) (chain : List Nat) : Nat :=
  ((List.range heap.length).filter (fun p => decide (p ∉ chain))).length

/-- What one successful call of the traversal does to the state, given a
description `P` of the packages it may add: the chain is restored, and the
output list grows at the front by packages satisfying `P`. -/
def StepOk (P : Nat → Prop) (st st' : List Nat × List Nat) : Prop :=
  st'.1 = st.1 ∧ ∃ new, st'.2 = new ++ st.2 ∧ ∀ x ∈ new, P x

/-- The constraint the version loop of `verify_package` finds for the package
`req` on the list of `p`: the entry of `p.required_versions` under the key of
`req`, with the record of `req`. -/
def constraint_for (heap : Heap) (p : Package) (req : Nat) :
    Option (Package × RequiredVersion) :=
  match heap[req]?, p.required_versions with
  | some r, some table =>
    match r.key with
    | some key => (g_hash_table_lookup table key).map (fun v => (r, v))
    | none => none
  | _, _ => none

/-- The version of `req` fails the constraint found for it. -/
def constraint_violated (heap : Heap) (p : Package) (req : Nat) : Bool :=
  match constraint_for heap p req with
  | some (r, v) => version_test v.comparison r.version v.version == some false
  | none => false

/-- The round of the version loop for `req` reads no `NULL` or dangling
pointer: `req` is in the heap, has a key if there is a table to look it up in,
and the test of the constraint found, if any, has its operands. -/
def constraint_checkable (heap : Heap) (p : Package) (req : Nat) : Bool :=
  match heap[req]? with
  | none => false
  | some r =>
    match p.required_versions with
    | none => true
    | some table =>
      match r.key with
      | none => false
      | some key =>
        match g_hash_table_lookup table key with
        | none => true
        | some v => (version_test v.comparison r.version v.version).isSome

/-- A copy of the package with `path_position` set to zero: two packages with
equal copies differ at most in `path_position`. -/
def erase_path_position (p : Package) : Package := { p with path_position := 0 }

/-- Statement of the path ordering for one category: the closure list `ptrs`
with its records `closure`, a list `sorted` that is a permutation of `closure`,
non-decreasing in `path_position` and keeps the order of the packages of every
single `path_position`, and whose flags, concatenated, are what
`string_list_strip_duplicates` receives. -/
def PathOrdered (cfg : Config) (heap : Heap) (pkgs : List Nat) (flags : FlagType)
    (func : Package → List CString) (include_private : Bool) : Prop :=
  ∃ (ptrs : List Nat) (closure sorted : List Package),
    fill_list_expand heap pkgs include_private [] = some ([], ptrs) ∧
    deref_all heap ptrs = some closure ∧
    sorted.Perm closure ∧
    sorted.Pairwise (fun a b => a.path_position ≤ b.path_position) ∧
    (∀ k : Int, sorted.filter (fun p => decide (p.path_position = k)) =
      closure.filter (fun p => decide (p.path_position = k))) ∧
    fill_list heap pkgs func [] true include_private [] =
      some ((sorted.map func).flatten, []) ∧
    packages_get_flags cfg heap pkgs flags [] =
      some (string_list_to_string cfg.pcsysrootdir
        (string_list_strip_duplicates (sorted.map func).flatten), [])

/-! ## Concrete data used in examples -/

/-- A `Package` as `g_new0` leaves it: every field zero. -/
def zero_package : Package :=
  { key := none, name := none, version := none, description := none, url := none,
    pcfiledir := none, requires_entries := [], requires := [],
    requires_private_entries := [], requires_private := [], l_libs := [], L_libs := [],
    other_libs := [], I_cflags := [], other_cflags := [], vars := none,
    required_versions := none, conflicts := [], uninstalled := false, path_position := 0 }

/-- The settings as pkg.c initialises them (pkg.c 52-55), no sysroot. -/
def default_config : Config :=
  { disable_uninstalled := false, ignore_requires := false, ignore_requires_private := true,
    ignore_private_libs := true, pcsysrootdir := none }

/-- The default settings after `enable_private_libs ()`. -/
def private_libs_config : Config := { default_config with ignore_private_libs := false }

/-- Package 0 lists package 1 in `requires_private` only (a `Requires.private`
dependency); package 1 carries one flag of every category. -/
def heap_private_dep : Heap :=
  [ { zero_package with
      key := some "a".toList, requires_private := [1], path_position := 2 },
    { zero_package with
      key := some "b".toList, other_cflags := ["-DB".toList], I_cflags := ["-Ib".toList],
      other_libs := ["-pthread".toList], L_libs := ["-Lb".toList], l_libs := ["-lb".toList],
      path_position := 1 } ]

/-- The heap `heap_private_dep` with other values of `path_position`. -/
def heap_private_dep_moved : Heap :=
  [ { zero_package with
      key := some "a".toList, requires_private := [1], path_position := 1 },
    { zero_package with
      key := some "b".toList, other_cflags := ["-DB".toList], I_cflags := ["-Ib".toList],
      other_libs := ["-pthread".toList], L_libs := ["-Lb".toList], l_libs := ["-lb".toList],
      path_position := 5 } ]

/-- One package with the include flags `-Ia` and `-Ib`. -/
def heap_two_includes : Heap :=
  [ { zero_package with key := some "a".toList, I_cflags := ["-Ia".toList, "-Ib".toList] } ]

/-- A parser for the examples.  `/p/app.pc` declares `Requires: foo >= 2.0`;
`/p/foo.pc` and `/p/foo-uninstalled.pc` describe `foo` in version 1.0;
`/p/noname.pc` is `/p/app.pc` without a `Name:` line; no other file exists. -/
def example_parse_file (path : CString) (_ _ _ : Bool) : Option Package :=
  if path = "/p/app.pc".toList then
    some { zero_package with
      name := some "app".toList, version := some "1".toList,
      description := some "an application".toList,
      requires_entries :=
        [⟨"foo".toList, ComparisonType.GREATER_THAN_EQUAL, some "2.0".toList⟩] }
  else if path = "/p/noname.pc".toList then
    some { zero_package with
      version := some "1".toList, description := some "an application".toList,
      requires_entries :=
        [⟨"foo".toList, ComparisonType.GREATER_THAN_EQUAL, some "2.0".toList⟩] }
  else if path = "/p/foo.pc".toList ∨ path = "/p/foo-uninstalled.pc".toList then
    some { zero_package with
      name := some "foo".toList, version := some "1.0".toList,
      description := some "a library".toList }
  else none

/-- The environment of the examples: `example_parse_file`, no variable set, and
`/usr/include` and `/usr/lib` as compiled-in system directories. -/
def example_env : Env :=
  { parse_package_file := example_parse_file, getenv := fun _ => none,
    PKG_CONFIG_SYSTEM_INCLUDE_PATH := "/usr/include".toList,
    PKG_CONFIG_SYSTEM_LIBRARY_PATH := "/usr/lib".toList }

/-- A registry with an empty cache whose location index is `locations`. -/
def registry_of (locations : GHashTable CString) : Registry :=
  { heap := [], packages := [], locations := locations, path_positions := [], globals := none,
    search_dirs := [], scanned_dir_count := 0, chain := [] }

/-- The search path holds `app.pc`, `noname.pc` and `foo.pc`. -/
def registry_installed : Registry :=
  registry_of
    [ ("app".toList, "/p/app.pc".toList), ("noname".toList, "/p/noname.pc".toList),
      ("foo".toList, "/p/foo.pc".toList) ]

/-- The search path holds `app.pc` and `foo-uninstalled.pc`. -/
def registry_uninstalled : Registry :=
  registry_of
    [ ("app".toList, "/p/app.pc".toList),
      ("foo-uninstalled".toList, "/p/foo-uninstalled.pc".toList) ]

/-- The registry `registry_installed` after `app.pc` has been parsed and put
into the cache (pkg.c 317-354). -/
def registry_app_loaded : Registry :=
  match load_package example_env default_config "app".toList "/p/app.pc".toList false
      registry_installed with
  | some (_, reg) => reg
  | none => registry_installed

/-- The registry `registry_app_loaded` after the requirements of `app` have been
pulled in (pkg.c 356-408). -/
def registry_app_linked : Registry :=
  match link_package (internal_get_package example_env default_config 4) true 0
      registry_app_loaded with
  | Except.ok reg => reg
  | Except.error _ => registry_app_loaded

end PkgConfig

namespace PkgConfig

/-! ## Further predicates and example data -/

/-- A list of characters that can be a C string: it holds no NUL. -/
def is_c_string (s : CString) : Prop := Char.ofNat 0 ∉ s

instance (s : CString) : Decidable (is_c_string s) := by
  unfold is_c_string; infer_instance

/-- A registry whose only package carries the include flags
`-I/usr/include`, `-I /usr/include`, `-I/opt/x` and the library flags
`-L/usr/lib`, `-L /usr/lib`, `-L/opt/x`. -/
def registry_system_flags : Registry :=
  { registry_of [] with
    heap :=
      [ { zero_package with
          key := some "sys".toList, name := some "sys".toList,
          version := some "1".toList, description := some "system flags".toList,
          I_cflags := ["-I/usr/include".toList, "-I /usr/include".toList, "-I/opt/x".toList],
          L_libs := ["-L/usr/lib".toList, "-L /usr/lib".toList, "-L/opt/x".toList] } ] }

/-- The registry `registry_system_flags` after `verify_package` on its
package. -/
def registry_system_flags_verified : Registry :=
  match verify_package example_env registry_system_flags 0 with
  | Except.ok reg => reg
  | Except.error _ => registry_system_flags

/-- The environment `example_env` with `PKG_CONFIG_ALLOW_SYSTEM_CFLAGS` set (to
the empty string). -/
def example_env_allow_cflags : Env :=
  { example_env with
    getenv := fun v => if v = "PKG_CONFIG_ALLOW_SYSTEM_CFLAGS".toList then some [] else none }

/-- The conflict loop of `verify_package` reads no `NULL` for the package `r`:
`r` has a key, key and conflict names hold no NUL, and the test of every
conflict entry named like `r` has its operands. -/
def conflicts_checkable (conflicts : List RequiredVersion) (r : Package) : Bool :=
  match r.key with
  | none => false
  | some key =>
    decide (is_c_string key) &&
      conflicts.all (fun c =>
        decide (is_c_string c.name) &&
          (decide (c.name ≠ key) || (version_test c.comparison r.version c.version).isSome))

/-- Package 0 declares `Conflicts: bar < 2.0` and requires package 1 privately,
which requires package 2, `bar` in version 1.0. -/
def registry_conflict : Registry :=
  { registry_of [] with
    heap :=
      [ { zero_package with
          key := some "p".toList, name := some "p".toList, version := some "1".toList,
          description := some "top".toList, requires_private := [1],
          conflicts := [⟨"bar".toList, ComparisonType.LESS_THAN, some "2.0".toList⟩] },
        { zero_package with
          key := some "q".toList, name := some "q".toList, version := some "1".toList,
          description := some "middle".toList, requires_private := [2] },
        { zero_package with
          key := some "bar".toList, name := some "bar".toList, version := some "1.0".toList,
          description := some "bottom".toList } ] }

/-- The table the two loops of `internal_get_package` leave in
`required_versions` when they start from `table` and run over `entries`: every
entry is inserted under its name, one after the other (pkg.c 372-375, 396-399). -/
def record_versions (table : Option (GHashTable RequiredVersion))
    (entries : List RequiredVersion) : Option (GHashTable RequiredVersion) :=
  entries.foldl (fun t ver => some (g_hash_table_insert (t.getD []) ver.name ver)) table

/-- The last entry of `entries` with the name `key`. -/
def last_declared (entries : List RequiredVersion) (key : CString) : Option RequiredVersion :=
  entries.reverse.find? (fun ver => decide (ver.name = key))

/-- The first entry of `entries` with the name `key`. -/
def first_declared (entries : List RequiredVersion) (key : CString) : Option RequiredVersion :=
  entries.find? (fun ver => decide (ver.name = key))

/-- The heap `heap1` continues the heap `heap`: it is at least as long, the
packages of `heap` are unchanged, and every package added has all of its
`requires` on its `requires_private`. -/
def heap_grows (heap heap1 : Heap) : Prop :=
  heap.length ≤ heap1.length ∧ (∀ i, i < heap.length → heap1[i]? = heap[i]?) ∧
    ∀ i q, heap.length ≤ i → heap1[i]? = some q → q.requires ⊆ q.requires_private

/-- Every package stored in the table `packages` is in the heap. -/
def packages_in_heap (reg : Registry) : Prop :=
  ∀ name pkg, g_hash_table_lookup reg.packages name = some pkg → pkg < reg.heap.length

/-- What the loops of `internal_get_package` rely on when they call `recurse`: a
call that returns leaves a heap that continues the one it found, keeps the table
`packages` inside the heap, and returns a package of the heap. -/
def recurse_grows
    (recurse : CString → Bool → Registry → Except Fatal (Option Nat × Registry)) : Prop :=
  ∀ name warn reg r reg1, recurse name warn reg = Except.ok (r, reg1) →
    heap_grows reg.heap reg1.heap ∧
      (packages_in_heap reg → packages_in_heap reg1 ∧ ∀ pkg, r = some pkg → pkg < reg1.heap.length)

/-- The entry in place `i` of `entries` resolves to the package `req` in the
loop `pull_in_requires` started in `reg`: `req` is what the call
`recurse (ver->name, warn)` for this entry returns in the registry the loop has
reached when the `i` entries before it are done. -/
def entry_resolves_to
    (recurse : CString → Bool → Registry → Except Fatal (Option Nat × Registry))
    (warn : Bool) (pkg : Nat) (is_private : Bool) (entries : List RequiredVersion)
    (reg : Registry) (i : Nat) (req : Nat) : Prop :=
  ∃ ver reg_i reg_r, entries[i]? = some ver ∧
    pull_in_requires recurse warn pkg is_private (entries.take i) reg = Except.ok reg_i ∧
    recurse ver.name warn reg_i = Except.ok (some req, reg_r)

/-- The entries `entries` of the loop `pull_in_requires` started in `reg`
resolve to the packages `rs`, in declaration order: `rs` is as long as
`entries`, and the package in place `i` is the one the entry in place `i`
resolves to. -/
def resolves_in_order
    (recurse : CString → Bool → Registry → Except Fatal (Option Nat × Registry))
    (warn : Bool) (pkg : Nat) (is_private : Bool) (entries : List RequiredVersion)
    (reg : Registry) (rs : List Nat) : Prop :=
  rs.length = entries.length ∧
    ∀ i req, rs[i]? = some req →
      entry_resolves_to recurse warn pkg is_private entries reg i req

/-- A second parser for the examples.  `/q/app.pc` declares `Requires: a` and
`Requires.private: b`; `/q/twice.pc` declares `Requires: foo >= 0.5` and
`Requires.private: foo <= 3.0`; `/q/a.pc`, `/q/b.pc` and `/q/foo.pc` describe
`a`, `b` and `foo` in version 1.0; `/q/foo-uninstalled.pc` describes `foo` in
version 1.1; no other file exists. -/
def example_parse_file2 (path : CString) (_ _ _ : Bool) : Option Package :=
  if path = "/q/app.pc".toList then
    some { zero_package with
      name := some "app".toList, version := some "1".toList,
      description := some "an application".toList,
      requires_entries := [⟨"a".toList, ComparisonType.ALWAYS_MATCH, none⟩],
      requires_private_entries := [⟨"b".toList, ComparisonType.ALWAYS_MATCH, none⟩] }
  else if path = "/q/twice.pc".toList then
    some { zero_package with
      name := some "twice".toList, version := some "1".toList,
      description := some "names foo twice".toList,
      requires_entries :=
        [⟨"foo".toList, ComparisonType.GREATER_THAN_EQUAL, some "0.5".toList⟩],
      requires_private_entries :=
        [⟨"foo".toList, ComparisonType.LESS_THAN_EQUAL, some "3.0".toList⟩] }
  else if path = "/q/a.pc".toList then
    some { zero_package with
      name := some "a".toList, version := some "1.0".toList,
      description := some "library a".toList }
  else if path = "/q/b.pc".toList then
    some { zero_package with
      name := some "b".toList, version := some "1.0".toList,
      description := some "library b".toList }
  else if path = "/q/foo.pc".toList then
    some { zero_package with
      name := some "foo".toList, version := some "1.0".toList,
      description := some "a library".toList }
  else if path = "/q/foo-uninstalled.pc".toList then
    some { zero_package with
      name := some "foo".toList, version := some "1.1".toList,
      description := some "a library in its build tree".toList }
  else none

/-- The environment of the second set of examples. -/
def example_env2 : Env := { example_env with parse_package_file := example_parse_file2 }

/-- The search path holds `app.pc`, `twice.pc`, `a.pc`, `b.pc` and `foo.pc`. -/
def registry_libs : Registry :=
  registry_of
    [ ("app".toList, "/q/app.pc".toList), ("twice".toList, "/q/twice.pc".toList),
      ("a".toList, "/q/a.pc".toList), ("b".toList, "/q/b.pc".toList),
      ("foo".toList, "/q/foo.pc".toList) ]

/-- The search path holds `foo.pc` and `foo-uninstalled.pc`. -/
def registry_both : Registry :=
  registry_of
    [ ("foo".toList, "/q/foo.pc".toList),
      ("foo-uninstalled".toList, "/q/foo-uninstalled.pc".toList) ]

/-- The record of the package a call of `internal_get_package` returned, read
from the registry the call left. -/
def returned_package (result : Except Fatal (Option Nat × Registry)) : Option Package :=
  match result with
  | Except.ok (some pkg, reg) => reg.heap[pkg]?
  | _ => none

/-- The registry a call of `internal_get_package` on `reg` left, `reg` itself
when the call ended in a fatal error. -/
def registry_after (result : Except Fatal (Option Nat × Registry)) (reg : Registry) : Registry :=
  match result with
  | Except.ok (_, reg1) => reg1
  | Except.error _ => reg

end PkgConfig


namespace PkgConfig

/-! ## The search path: `add_search_dir`, `scan_dir` and `package_init` -/

/-- What `package_init` takes from outside pkg.c: the directories (`opendir`
with the names `readdir` returns in their order, `none` when the directory
cannot be opened), the test `g_file_test (filename, G_FILE_TEST_IS_REGULAR)`,
the macro `VERSION` of config.h and the variable `pkg_config_pc_path` of
main.c. -/
structure Host where
  opendir : CString → Option (List CString)
  g_file_test_is_regular : CString → Bool
  VERSION : CString
  pkg_config_pc_path : CString

/-- The function `add_search_dir` (pkg.c 57-61). -/
def add_search_dir (reg : Registry) (path : CString) : Registry :=
  { reg with search_dirs := g_slist_append reg.search_dirs path }

/-- The value of `dirnamelen` after the test for a trailing separator
(pkg.c 133-143). -/
def scan_dir_dirnamelen (dirname : CString) : Nat :=
  let dirnamelen := dirname.length
  if dirnamelen > 1 ∧ char_at dirname (dirnamelen - 1) = G_DIR_SEPARATOR then dirnamelen - 1
  else dirnamelen

/-- The body of the `readdir` loop of `scan_dir` (pkg.c 175-214) for the entry
`d_name`. -/
def scan_dir_entry (host : Host) (dirname : CString) (dirnamelen : Nat) (reg : Registry)
    (d_name : CString) : Registry :=
  let len := d_name.length
  if ends_in_dotpc d_name then
    let pkgname := d_name.take (len - EXT_LEN)
    if (g_hash_table_lookup reg.locations pkgname).isSome then reg
    else
      let filename := dirname.take dirnamelen ++ [G_DIR_SEPARATOR] ++ d_name
      if host.g_file_test_is_regular filename then
        { reg with
          locations := g_hash_table_insert reg.locations pkgname filename,
          path_positions :=
            g_hash_table_insert reg.path_positions pkgname reg.scanned_dir_count }
      else reg
  else reg

/-- The function `scan_dir` (pkg.c 128-217), not Win32. -/
def scan_dir (host : Host) (reg : Registry) (dirname : CString) : Registry :=
  let dirnamelen := scan_dir_dirnamelen dirname
  let dirname_copy := dirname.take dirnamelen
  match host.opendir dirname_copy with
  | none => reg
  | some dir =>
    dir.foldl (scan_dir_entry host dirname dirnamelen)
      { reg with scanned_dir_count := reg.scanned_dir_count + 1 }

/-- The function `add_virtual_pkgconfig_package` (pkg.c 219-241): the new
package and the registry with it. -/
def add_virtual_pkgconfig_package (host : Host) (reg : Registry) : Nat × Registry :=
  let pkg : Package :=
    { zero_package with
      key := some "pkg-config".toList,
      version := some host.VERSION,
      name := some "pkg-config".toList,
      description := some
        "pkg-config is a system for managing compile/link flags for libraries".toList,
      url := some "http://pkg-config.freedesktop.org/".toList }
  let pkg : Package :=
    { pkg with
      vars := some
        (g_hash_table_insert (pkg.vars.getD []) "pc_path".toList host.pkg_config_pc_path) }
  (reg.heap.length,
    { reg with
      heap := reg.heap ++ [pkg],
      packages := g_hash_table_insert reg.packages "pkg-config".toList reg.heap.length })

/-- The function `package_init` (pkg.c 243-260); `initted` is its static flag,
returned with the registry. -/
def package_init (host : Host) (initted : Bool) (reg : Registry) : Bool × Registry :=
  if !initted then
    let reg : Registry := { reg with packages := [], locations := [], path_positions := [] }
    let reg := (add_virtual_pkgconfig_package host reg).2
    (true, reg.search_dirs.foldl (scan_dir host) reg)
  else (initted, reg)

/-- The directory `dirname` can be opened by `scan_dir`. -/
def dir_readable (host : Host) (dirname : CString) : Bool :=
  (host.opendir (dirname.take (scan_dir_dirnamelen dirname))).isSome

/-- The file `scan_dir` considers for the key `k` in the directory `dirname`. -/
def dir_file (dirname k : CString) : CString :=
  dirname.take (scan_dir_dirnamelen dirname) ++ [G_DIR_SEPARATOR] ++ (k ++ ".pc".toList)

/-- The directory `dirname` can be opened, lists `k.pc`, and that file is a
regular file. -/
def dir_provides (host : Host) (dirname k : CString) : Bool :=
  match host.opendir (dirname.take (scan_dir_dirnamelen dirname)) with
  | none => false
  | some dir =>
    decide (k ++ ".pc".toList ∈ dir) && host.g_file_test_is_regular (dir_file dirname k)

/-- The number of directories of `dirs` that can be opened. -/
def readable_count (host : Host) (dirs : List CString) : Nat :=
  (dirs.filter (dir_readable host)).length

/-! ## Predicates and data for the closure claims -/

/-- No package reaches itself by one or more `func` edges. -/
def Acyclic (heap : Heap) (func : Package → List Nat) : Prop :=
  ∀ p, ¬ Relation.TransGen (requires_edge heap func) p p

/-- The list `recursive_fill_list` produces for the root `root` alone, from an
empty chain and an empty list, with the fuel `fill_list` gives it. -/
def closure_list (heap : Heap) (func : Package → List Nat) (root : Nat) : List Nat :=
  ((recursive_fill_list heap func (heap.length + 1) root ([], [])).map Prod.snd).getD []

/-- In the list `list`, every occurrence of a package is followed, further
back in the list, by an occurrence of each package it requires. -/
def dependents_first (heap : Heap) (func : Package → List Nat) (list : List Nat) : Prop :=
  ∀ pre post P r Q, list = pre ++ P :: post → heap[P]? = some r → Q ∈ func r → Q ∈ post

/-- In the list `list`, every occurrence of a package is preceded by an
occurrence of each package it requires. -/
def dependencies_first (heap : Heap) (func : Package → List Nat) (list : List Nat) : Prop :=
  ∀ pre post P r Q, list = pre ++ P :: post → heap[P]? = some r → Q ∈ func r → Q ∈ pre

/-- Package 0 requires package 1, which requires nothing. -/
def heap_chain : Heap :=
  [ { zero_package with key := some "a".toList, requires := [1], requires_private := [1] },
    { zero_package with key := some "b".toList } ]

/-- The diamond: package 0 (`A`) requires 1 (`B`) and 2 (`C`), which both
require 3 (`D`). -/
def heap_diamond : Heap :=
  [ { zero_package with
      key := some "A".toList, requires := [1, 2], requires_private := [1, 2] },
    { zero_package with key := some "B".toList, requires := [3], requires_private := [3] },
    { zero_package with key := some "C".toList, requires := [3], requires_private := [3] },
    { zero_package with key := some "D".toList } ]

/-- Two cycles: packages 0 and 1 require each other, package 2 requires itself
and package 0; every package carries an include flag and a library. -/
def heap_cycle : Heap :=
  [ { zero_package with
      key := some "a".toList, requires := [1], requires_private := [1],
      I_cflags := ["-Ia".toList], l_libs := ["-la".toList] },
    { zero_package with
      key := some "b".toList, requires := [0], requires_private := [0],
      I_cflags := ["-Ib".toList], l_libs := ["-lb".toList] },
    { zero_package with
      key := some "c".toList, requires := [2, 0], requires_private := [2, 0],
      I_cflags := ["-Ic".toList], l_libs := ["-lc".toList] } ]

/-- A registry whose heap is `heap_cycle`. -/
def registry_cycle : Registry := { registry_of [] with heap := heap_cycle }

/-- The flag word with every category set. -/
def all_flags : FlagType :=
  { LIBS_l := true, LIBS_L := true, LIBS_OTHER := true, CFLAGS_I := true, CFLAGS_OTHER := true }

/-- A file system for the examples: `/a` lists `bar.pc`, `/b/` lists `foo.pc`
and `bar.pc`, `/c` lists `foo.pc` and the directory `sub.pc`; `/missing` cannot
be opened. -/
def example_host : Host :=
  { opendir := fun d =>
      if d = "/a".toList then some ["bar.pc".toList, "README".toList]
      else if d = "/b".toList then some ["foo.pc".toList, "bar.pc".toList]
      else if d = "/c".toList then some ["sub.pc".toList, "foo.pc".toList]
      else none,
    g_file_test_is_regular := fun f =>
      decide (f ∈ ["/a/bar.pc".toList, "/b/foo.pc".toList, "/b/bar.pc".toList,
        "/c/foo.pc".toList]),
    VERSION := "0.26".toList,
    pkg_config_pc_path := "/usr/lib/pkgconfig".toList }

/-- The registry after `add_search_dir` for `/a`, `/missing`, `/b/` and `/c`. -/
def registry_search_path : Registry :=
  ["/a".toList, "/missing".toList, "/b/".toList, "/c".toList].foldl add_search_dir
    (registry_of [])

/-- A parser that knows the one file `/usr/lib/pkgconfig/foo.pc`. -/
def example_parse_file3 (path : CString) (_ _ _ : Bool) : Option Package :=
  if path = "/usr/lib/pkgconfig/foo.pc".toList then
    some { zero_package with
      name := some "foo".toList, version := some "1.0".toList,
      description := some "a library".toList }
  else none

/-- The environment of the third set of examples. -/
def example_env3 : Env := { example_env with parse_package_file := example_parse_file3 }

/-- The entry `ver` of the package at `pkg` resolves to the package `req`:
`ver` is entry `i` of `Requires`, resolved in the first loop, which starts
from `reg`, or entry `i` of `Requires.private`, resolved in the second loop,
which starts from the registry the first loop left.  `p0` is the record of
`pkg` as parsed. -/
def requirement_resolves_to
    (recurse : CString → Bool → Registry → Except Fatal (Option Nat × Registry))
    (warn : Bool) (pkg : Nat) (p0 : Package) (reg : Registry) (ver : RequiredVersion)
    (req : Nat) : Prop :=
  (∃ i, p0.requires_entries[i]? = some ver ∧
    entry_resolves_to recurse warn pkg false p0.requires_entries reg i req) ∨
  (∃ i reg_pub, p0.requires_private_entries[i]? = some ver ∧
    pull_in_requires recurse warn pkg false p0.requires_entries reg = Except.ok reg_pub ∧
    entry_resolves_to recurse warn pkg true p0.requires_private_entries reg_pub i req)

/-- A fourth parser for the examples.  `/r/shadow.pc` declares
`Requires: foo >= 2.0` and `Requires.private: foo <= 3.0`; `/r/partial.pc`
declares `Requires: foo >= 2.0, bar`, and no file describes `bar`; `/r/foo.pc`,
`/s/foo.pc` and `/t/foo.pc` describe `foo` in version 1.0;
`/s/foo-uninstalled.pc` has no `Name:` line; `/t/foo-uninstalled.pc` is not
accepted, as no other file is. -/
def example_parse_file4 (path : CString) (_ _ _ : Bool) : Option Package :=
  if path = "/r/shadow.pc".toList then
    some { zero_package with
      name := some "shadow".toList, version := some "1".toList,
      description := some "names foo twice".toList,
      requires_entries :=
        [⟨"foo".toList, ComparisonType.GREATER_THAN_EQUAL, some "2.0".toList⟩],
      requires_private_entries :=
        [⟨"foo".toList, ComparisonType.LESS_THAN_EQUAL, some "3.0".toList⟩] }
  else if path = "/r/partial.pc".toList then
    some { zero_package with
      name := some "partial".toList, version := some "1".toList,
      description := some "requires a missing package".toList,
      requires_entries :=
        [⟨"foo".toList, ComparisonType.GREATER_THAN_EQUAL, some "2.0".toList⟩,
         ⟨"bar".toList, ComparisonType.ALWAYS_MATCH, none⟩] }
  else if path = "/r/foo.pc".toList ∨ path = "/s/foo.pc".toList ∨
      path = "/t/foo.pc".toList then
    some { zero_package with
      name := some "foo".toList, version := some "1.0".toList,
      description := some "a library".toList }
  else if path = "/s/foo-uninstalled.pc".toList then
    some { zero_package with
      version := some "1.1".toList,
      description := some "a library in its build tree".toList }
  else none

/-- The environment of the fourth set of examples. -/
def example_env4 : Env := { example_env with parse_package_file := example_parse_file4 }

/-- The search path holds `shadow.pc`, `partial.pc` and `foo.pc`. -/
def registry_shadow : Registry :=
  registry_of
    [ ("shadow".toList, "/r/shadow.pc".toList), ("partial".toList, "/r/partial.pc".toList),
      ("foo".toList, "/r/foo.pc".toList) ]

/-- The search path holds `foo.pc` and a `foo-uninstalled.pc` without a `Name:`
line. -/
def registry_variant_noname : Registry :=
  registry_of
    [ ("foo".toList, "/s/foo.pc".toList),
      ("foo-uninstalled".toList, "/s/foo-uninstalled.pc".toList) ]

/-- The search path holds `foo.pc` and a `foo-uninstalled.pc` that the parser
does not accept. -/
def registry_variant_rejected : Registry :=
  registry_of
    [ ("foo".toList, "/t/foo.pc".toList),
      ("foo-uninstalled".toList, "/t/foo-uninstalled.pc".toList) ]

/-- The registry `load_package` left, `reg` itself when the parser returned
`NULL`. -/
def registry_loaded (result : Option (Nat × Registry)) (reg : Registry) : Registry :=
  match result with
  | some (_, reg1) => reg1
  | none => reg

/-- The registry a step of `internal_get_package` left, `reg` itself when the
step ended in a fatal error. -/
def registry_step (result : Except Fatal Registry) (reg : Registry) : Registry :=
  match result with
  | Except.ok reg1 => reg1
  | Except.error _ => reg

end PkgConfig


namespace PkgConfig

theorem g_hash_table_lookup_eq_none {V : Type} (table : GHashTable V) (key : CString) :
    g_hash_table_lookup table key = none ↔ key ∉ table.map Prod.fst := by
  induction table with
  | nil => simp [g_hash_table_lookup]
  | cons e rest ih =>
    obtain ⟨k, v⟩ := e
    by_cases h : k = key
    · subst h
      rw [g_hash_table_lookup, if_pos rfl]
      simp only [List.map_cons, List.mem_cons, true_or, not_true_eq_false, iff_false]
      exact fun h => Option.noConfusion h
    · have h2 : ¬ key = k := fun e => h e.symm
      rw [g_hash_table_lookup, if_neg h, ih]
      simp only [List.map_cons, List.mem_cons, h2, false_or]

/-- Loop invariant in index form: started after the prefix `pre` with a table
holding exactly the tokens of `pre`, the loop prepends the tokens of `l` that do
not occur earlier in `pre ++ l`. -/
theorem strip_duplicates_loop_index (l : List CString) :
    ∀ (pre : List CString) (table : GHashTable CString) (nodups : List CString),
      (∀ d, d ∈ table.map Prod.fst ↔ d ∈ pre) →
      strip_duplicates_loop l table nodups =
        (((l.enumFrom pre.length).filter
            (fun p => decide (p.2 ∉ (pre ++ l).take p.1))).map Prod.snd).reverse ++ nodups := by
  induction l with
  | nil => intro pre table nodups _; simp [strip_duplicates_loop]
  | cons x l ih =>
    intro pre table nodups hkeys
    have hpre : pre ++ x :: l = (pre ++ [x]) ++ l := by simp
    have hlen : pre.length + 1 = (pre ++ [x]).length := by simp
    by_cases hx : x ∈ pre
    · have hl : ¬ g_hash_table_lookup table x = none := by
        rw [g_hash_table_lookup_eq_none, hkeys]; simpa using hx
      have hk2 : ∀ d, d ∈ table.map Prod.fst ↔ d ∈ pre ++ [x] := by
        intro d; rw [hkeys]; simp; rintro rfl; exact hx
      rw [strip_duplicates_loop, if_neg hl, ih (pre ++ [x]) table nodups hk2]
      rw [List.enumFrom_cons, List.filter_cons, hpre, hlen]
      simp [hx]
    · have hl : g_hash_table_lookup table x = none := by
        rw [g_hash_table_lookup_eq_none, hkeys]; exact hx
      have hk2 : ∀ d, d ∈ (g_hash_table_insert table x x).map Prod.fst ↔ d ∈ pre ++ [x] := by
        intro d
        have := hkeys d
        simp only [List.map_cons, List.mem_cons, g_hash_table_insert, List.mem_append,
          List.mem_singleton, this]
        tauto
      rw [strip_duplicates_loop, if_pos hl, ih (pre ++ [x]) _ _ hk2]
      rw [List.enumFrom_cons, List.filter_cons, hpre, hlen]
      simp [hx, g_slist_prepend]

theorem strip_duplicates_loop_snoc (l : List CString) (x : CString) :
    ∀ (pre : List CString) (table : GHashTable CString) (nodups : List CString),
      (∀ d, d ∈ table.map Prod.fst ↔ d ∈ pre) →
      strip_duplicates_loop (l ++ [x]) table nodups =
        if x ∈ pre ++ l then strip_duplicates_loop l table nodups
        else x :: strip_duplicates_loop l table nodups := by
  induction l with
  | nil =>
    intro pre table nodups hkeys
    by_cases hx : x ∈ pre
    · have hl : ¬ g_hash_table_lookup table x = none := by
        rw [g_hash_table_lookup_eq_none, hkeys]; simpa using hx
      simp [strip_duplicates_loop, hl, hx]
    · have hl : g_hash_table_lookup table x = none := by
        rw [g_hash_table_lookup_eq_none, hkeys]; exact hx
      simp [strip_duplicates_loop, hl, hx, g_slist_prepend]
  | cons y l ih =>
    intro pre table nodups hkeys
    by_cases hy : y ∈ pre
    · have hl : ¬ g_hash_table_lookup table y = none := by
        rw [g_hash_table_lookup_eq_none, hkeys]; simpa using hy
      have hiff : x ∈ pre ++ y :: l ↔ x ∈ pre ++ l := by
        simp only [List.mem_append, List.mem_cons]
        constructor
        · rintro (h | rfl | h)
          · exact Or.inl h
          · exact Or.inl hy
          · exact Or.inr h
        · rintro (h | h)
          · exact Or.inl h
          · exact Or.inr (Or.inr h)
      show strip_duplicates_loop (y :: (l ++ [x])) table nodups = _
      have e : strip_duplicates_loop (y :: l) table nodups =
          strip_duplicates_loop l table nodups := by
        rw [strip_duplicates_loop, if_neg hl]
      rw [strip_duplicates_loop, if_neg hl, ih pre table nodups hkeys, e]
      simp only [hiff]
    · have hl : g_hash_table_lookup table y = none := by
        rw [g_hash_table_lookup_eq_none, hkeys]; exact hy
      have hk2 : ∀ d, d ∈ (g_hash_table_insert table y y).map Prod.fst ↔ d ∈ y :: pre := by
        intro d
        have := hkeys d
        simp only [List.map_cons, List.mem_cons, g_hash_table_insert, this]
      have hiff : x ∈ pre ++ y :: l ↔ x ∈ (y :: pre) ++ l := by
        simp only [List.mem_append, List.mem_cons]; tauto
      show strip_duplicates_loop (y :: (l ++ [x])) table nodups = _
      have e : strip_duplicates_loop (y :: l) table nodups =
          strip_duplicates_loop l (g_hash_table_insert table y y) (g_slist_prepend nodups y) := by
        rw [strip_duplicates_loop, if_pos hl]
      rw [strip_duplicates_loop, if_pos hl, ih (y :: pre) _ _ hk2, e]
      simp only [hiff]

theorem strip_duplicates_from_back_cons (x : CString) (xs : List CString) :
    string_list_strip_duplicates_from_back (x :: xs) =
      if x ∈ xs then string_list_strip_duplicates_from_back xs
      else x :: string_list_strip_duplicates_from_back xs := by
  unfold string_list_strip_duplicates_from_back g_slist_reverse g_slist_copy
  rw [List.reverse_cons, strip_duplicates_loop_snoc xs.reverse x [] [] [] (by simp)]
  simp

theorem strip_duplicates_from_back_eq_dedup (l : List CString) :
    string_list_strip_duplicates_from_back l = l.dedup := by
  induction l with
  | nil => rfl
  | cons x xs ih =>
    rw [strip_duplicates_from_back_cons, ih]
    by_cases h : x ∈ xs
    · rw [if_pos h, List.dedup_cons_of_mem h]
    · rw [if_neg h, List.dedup_cons_of_not_mem h]

theorem strip_duplicates_eq_reverse_dedup (l : List CString) :
    string_list_strip_duplicates l = l.reverse.dedup.reverse := by
  rw [← strip_duplicates_from_back_eq_dedup]
  simp [string_list_strip_duplicates, string_list_strip_duplicates_from_back, g_slist_reverse,
    g_slist_copy]

theorem last_occurrences_index (l : List CString) :
    ∀ (pre : List CString),
      ((l.enumFrom pre.length).filter
          (fun p => decide (p.2 ∉ (pre ++ l).drop (p.1 + 1)))).map Prod.snd = l.dedup := by
  induction l with
  | nil => intro pre; simp
  | cons x l ih =>
    intro pre
    have hpre : pre ++ x :: l = (pre ++ [x]) ++ l := by simp
    have hlen : pre.length + 1 = (pre ++ [x]).length := by simp
    have hdrop : (pre ++ x :: l).drop (pre.length + 1) = l := by
      rw [hpre, hlen, List.drop_left]
    rw [List.enumFrom_cons, List.filter_cons]
    simp only [hdrop]
    rw [hpre, hlen, ← hpre]
    by_cases h : x ∈ l
    · simp only [h, not_true_eq_false, decide_False, Bool.false_eq_true, if_false]
      rw [hpre, ih (pre ++ [x]), List.dedup_cons_of_mem h]
    · simp only [h, not_false_eq_true, decide_True, if_true, List.map_cons]
      rw [hpre, ih (pre ++ [x]), List.dedup_cons_of_not_mem h]

theorem sysroot_condition (tok : CString) :
    (char_at tok 0 = '-' ∧ (char_at tok 1 = 'I' ∨ char_at tok 1 = 'L')) ↔
      (['-', 'I'] <+: tok ∨ ['-', 'L'] <+: tok) := by
  match tok with
  | [] => simp [char_at]
  | [c] => simp [char_at]
  | c0 :: c1 :: r =>
    simp only [char_at, List.getD_cons_zero, List.getD_cons_succ, List.cons_prefix_cons,
      List.nil_prefix, and_true]
    constructor
    · rintro ⟨h0, h1 | h1⟩
      · exact Or.inl ⟨h0.symm, h1.symm⟩
      · exact Or.inr ⟨h0.symm, h1.symm⟩
    · rintro (⟨h0, h1⟩ | ⟨h0, h1⟩)
      · exact ⟨h0.symm, Or.inl h1.symm⟩
      · exact ⟨h0.symm, Or.inr h1.symm⟩

theorem sysroot_take_two (tok : CString)
    (h : char_at tok 0 = '-' ∧ (char_at tok 1 = 'I' ∨ char_at tok 1 = 'L')) :
    tok.take 2 = ['-', char_at tok 1] := by
  match tok, h with
  | [], h => simp [char_at] at h
  | [c], h => simp [char_at] at h
  | c0 :: c1 :: r, h =>
    simp only [char_at, List.getD_cons_zero, List.getD_cons_succ] at h ⊢
    simp [h.1]

theorem sysroot_rewrite_pos (s tok : CString)
    (h : char_at tok 0 = '-' ∧ (char_at tok 1 = 'I' ∨ char_at tok 1 = 'L')) :
    sysroot_rewrite (some s) tok = '-' :: char_at tok 1 :: (s ++ tok.drop 2) := by
  have h2 := (sysroot_condition tok).1 h
  unfold sysroot_rewrite
  simp only [if_pos h2, sysroot_take_two tok h]
  simp

theorem sysroot_rewrite_neg (s tok : CString)
    (h : ¬ (char_at tok 0 = '-' ∧ (char_at tok 1 = 'I' ∨ char_at tok 1 = 'L'))) :
    sysroot_rewrite (some s) tok = tok := by
  have h2 : ¬ (['-', 'I'] <+: tok ∨ ['-', 'L'] <+: tok) :=
    fun h3 => h ((sysroot_condition tok).2 h3)
  unfold sysroot_rewrite
  simp only [if_neg h2]

theorem string_list_to_string_loop_eq (pcsysrootdir : Option CString) (list : List CString) :
    ∀ str : CString, string_list_to_string_loop pcsysrootdir list str =
      str ++ (list.map (fun tok => sysroot_rewrite pcsysrootdir tok ++ [' '])).flatten := by
  induction list with
  | nil => intro str; simp [string_list_to_string_loop]
  | cons tok rest ih =>
    intro str
    cases pcsysrootdir with
    | none =>
      simp only [string_list_to_string_loop]
      rw [ih]
      simp [sysroot_rewrite, g_string_append, g_string_append_c]
    | some s =>
      simp only [string_list_to_string_loop]
      rw [ih, List.map_cons, List.flatten_cons]
      by_cases h : char_at tok 0 = '-' ∧ (char_at tok 1 = 'I' ∨ char_at tok 1 = 'L')
      · rw [if_pos h, sysroot_rewrite_pos s tok h]
        simp [g_string_append, g_string_append_c]
      · rw [if_neg h, sysroot_rewrite_neg s tok h]
        simp [g_string_append, g_string_append_c]

theorem join_with_spaces_cons (tok : CString) (rest : List CString) :
    join_with_spaces (tok :: rest) = tok ++ [' '] ++ join_with_spaces rest := by
  cases rest with
  | nil => simp [join_with_spaces, List.intercalate]
  | cons t2 r => simp [join_with_spaces, List.intercalate, List.intersperse]

theorem string_list_to_string_none (list : List CString) :
    string_list_to_string none list = join_with_spaces list := by
  unfold string_list_to_string
  rw [string_list_to_string_loop_eq]
  induction list with
  | nil => simp [join_with_spaces]
  | cons tok rest ih =>
    rw [join_with_spaces_cons, ← ih]
    simp [sysroot_rewrite]

end PkgConfig

namespace PkgConfig

/-! ## The closure traversal -/

theorem recursive_fill_list_succ (heap : Heap) (func : Package → List Nat) (fuel pkg : Nat)
    (chain list : List Nat) :
    recursive_fill_list heap func (fuel + 1) pkg (chain, list) =
      if g_slist_find chain pkg then some (chain, list)
      else
        match heap[pkg]? with
        | none => none
        | some p =>
          match (func p).foldlM
              (fun st tmp => recursive_fill_list heap func fuel tmp st)
              (g_slist_prepend chain pkg, list) with
          | none => none
          | some (chain1, list1) =>
            some (g_slist_remove chain1 pkg, g_slist_prepend list1 pkg) := by
  rfl

theorem StepOk.refl (P : Nat → Prop) (st : List Nat × List Nat) : StepOk P st st :=
  ⟨rfl, [], rfl, by simp⟩

theorem StepOk.trans {P : Nat → Prop} {a b c : List Nat × List Nat}
    (h1 : StepOk P a b) (h2 : StepOk P b c) : StepOk P a c := by
  obtain ⟨e1, n1, l1, p1⟩ := h1
  obtain ⟨e2, n2, l2, p2⟩ := h2
  refine ⟨e2.trans e1, n2 ++ n1, by rw [l2, l1, List.append_assoc], ?_⟩
  intro x hx
  rcases List.mem_append.1 hx with h | h
  · exact p2 x h
  · exact p1 x h

theorem StepOk.mono {P Q : Nat → Prop} (hPQ : ∀ x, P x → Q x) {a b : List Nat × List Nat}
    (h : StepOk P a b) : StepOk Q a b := by
  obtain ⟨e, n, l, p⟩ := h
  exact ⟨e, n, l, fun x hx => hPQ x (p x hx)⟩

theorem foldlM_stepOk {f : List Nat × List Nat → Nat → Option (List Nat × List Nat)}
    {P : Nat → Prop} (cs : List Nat) :
    (∀ c ∈ cs, ∀ st st', f st c = some st' → StepOk P st st') →
    ∀ st st', cs.foldlM f st = some st' → StepOk P st st' := by
  induction cs with
  | nil =>
    intro _ st st' h
    simp only [List.foldlM_nil, Option.pure_def, Option.some.injEq] at h
    subst h; exact StepOk.refl P st
  | cons c cs ih =>
    intro hf st st' h
    simp only [List.foldlM_cons, Option.bind_eq_bind] at h
    cases h1 : f st c with
    | none => rw [h1] at h; simp at h
    | some s1 =>
      rw [h1] at h
      simp only [Option.some_bind] at h
      exact (hf c (List.mem_cons_self _ _) st s1 h1).trans
        (ih (fun c' hc' => hf c' (List.mem_cons_of_mem _ hc')) s1 st' h)

/-- Soundness of the traversal: a successful call restores the chain and adds
only packages that are in the heap and reachable from `pkg`. -/
theorem recursive_fill_list_sound (heap : Heap) (func : Package → List Nat) :
    ∀ (fuel pkg : Nat) (st st' : List Nat × List Nat),
      recursive_fill_list heap func fuel pkg st = some st' →
      StepOk (fun x => x < heap.length ∧ Reachable heap func pkg x) st st' := by
  intro fuel
  induction fuel with
  | zero => intro pkg st st' h; simp [recursive_fill_list] at h
  | succ fuel ih =>
    intro pkg st st' h
    obtain ⟨chain, list⟩ := st
    rw [recursive_fill_list_succ] at h
    by_cases hc : g_slist_find chain pkg = true
    · rw [if_pos hc] at h
      simp only [Option.some.injEq] at h
      subst h; exact StepOk.refl _ _
    · rw [if_neg hc] at h
      cases hp : heap[pkg]? with
      | none => rw [hp] at h; simp at h
      | some p =>
        rw [hp] at h
        simp only at h
        cases hf : (func p).foldlM (fun st tmp => recursive_fill_list heap func fuel tmp st)
            (g_slist_prepend chain pkg, list) with
        | none => rw [hf] at h; simp at h
        | some s1 =>
          rw [hf] at h
          obtain ⟨chain1, list1⟩ := s1
          simp only [Option.some.injEq] at h
          subst h
          have hlt : pkg < heap.length := by
            rcases Nat.lt_or_ge pkg heap.length with h1 | h1
            · exact h1
            · rw [List.getElem?_eq_none h1] at hp; cases hp
          have hfold : StepOk (fun x => x < heap.length ∧ Reachable heap func pkg x)
              (g_slist_prepend chain pkg, list) (chain1, list1) := by
            refine foldlM_stepOk (func p) ?_ _ _ hf
            intro c hcp st st' hst
            refine (ih c st st' hst).mono ?_
            rintro x ⟨hx1, hx2⟩
            exact ⟨hx1, Relation.ReflTransGen.head ⟨p, hp, hcp⟩ hx2⟩
          obtain ⟨e, new, hl, hP⟩ := hfold
          simp only [g_slist_prepend] at e hl
          subst e
          refine ⟨by simp [g_slist_remove], pkg :: new, by simp [g_slist_prepend, hl], ?_⟩
          intro x hx
          rcases List.mem_cons.1 hx with rfl | hx
          · exact ⟨hlt, Relation.ReflTransGen.refl⟩
          · exact hP x hx

end PkgConfig

namespace PkgConfig

theorem ReachAvoid.start_not_mem {heap : Heap} {func : Package → List Nat} {S : List Nat}
    {p q : Nat} (h : ReachAvoid heap func S p q) : p ∉ S := by
  cases h with
  | refl _ h => exact h
  | step _ _ _ h _ _ => exact h

/-- A path from `x` to `q` ends in `p`, or avoids `p` altogether, or leaves `p`
for the last time through an edge to some `c` and avoids `p` from then on. -/
theorem ReachAvoid.split {heap : Heap} {func : Package → List Nat} {S : List Nat}
    (p : Nat) {x q : Nat} (h : ReachAvoid heap func S x q) :
    q = p ∨ ReachAvoid heap func (p :: S) x q ∨
      ∃ c, requires_edge heap func p c ∧ ReachAvoid heap func (p :: S) c q := by
  induction h with
  | refl x hx =>
    by_cases hxp : x = p
    · exact Or.inl hxp
    · exact Or.inr (Or.inl (ReachAvoid.refl x (by simp [hxp, hx])))
  | step x c q hx hedge _ ih =>
    rcases ih with h | h | h
    · exact Or.inl h
    · by_cases hxp : x = p
      · subst hxp; exact Or.inr (Or.inr ⟨c, hedge, h⟩)
      · exact Or.inr (Or.inl (ReachAvoid.step x c q (by simp [hxp, hx]) hedge h))
    · exact Or.inr (Or.inr h)

theorem ReachAvoid.of_reachable {heap : Heap} {func : Package → List Nat} {p q : Nat}
    (h : Reachable heap func p q) : ReachAvoid heap func [] p q := by
  induction h using Relation.ReflTransGen.head_induction_on with
  | refl => exact ReachAvoid.refl _ (by simp)
  | head hedge _ ih => exact ReachAvoid.step _ _ _ (by simp) hedge ih

theorem foldlM_complete {heap : Heap} {func : Package → List Nat} {fuel : Nat} {C : List Nat}
    (ih : ∀ (pkg : Nat) (st st' : List Nat × List Nat),
      recursive_fill_list heap func fuel pkg st = some st' →
      ∀ q, ReachAvoid heap func st.1 pkg q → q ∈ st'.2)
    (cs : List Nat) :
    ∀ (l : List Nat) (st' : List Nat × List Nat),
      cs.foldlM (fun st tmp => recursive_fill_list heap func fuel tmp st) (C, l) = some st' →
      ∀ c ∈ cs, ∀ q, ReachAvoid heap func C c q → q ∈ st'.2 := by
  induction cs with
  | nil => intro l st' _ c hc; simp at hc
  | cons c0 cs ihcs =>
    intro l st' h c hc q hq
    simp only [List.foldlM_cons, Option.bind_eq_bind] at h
    cases h1 : recursive_fill_list heap func fuel c0 (C, l) with
    | none => rw [h1] at h; simp at h
    | some s1 =>
      rw [h1] at h
      simp only [Option.some_bind] at h
      obtain ⟨e1, new1, hl1, -⟩ := recursive_fill_list_sound heap func fuel c0 _ _ h1
      obtain ⟨C1, l1⟩ := s1
      simp only at e1 hl1
      subst e1
      rcases List.mem_cons.1 hc with rfl | hc
      · have hin : q ∈ l1 := ih c _ _ h1 q hq
        obtain ⟨-, new2, hl2, -⟩ :=
          foldlM_stepOk (P := fun x => x < heap.length ∧ True) cs
            (fun c' _ st st' hst =>
              (recursive_fill_list_sound heap func fuel c' st st' hst).mono
                (fun x hx => ⟨hx.1, trivial⟩)) _ _ h
        rw [hl2]
        exact List.mem_append_right _ hin
      · exact ihcs l1 st' h c hc q hq

/-- Completeness of the traversal: a successful call emits every package that
is reachable from `pkg` by a path avoiding the chain. -/
theorem recursive_fill_list_complete (heap : Heap) (func : Package → List Nat) :
    ∀ (fuel pkg : Nat) (st st' : List Nat × List Nat),
      recursive_fill_list heap func fuel pkg st = some st' →
      ∀ q, ReachAvoid heap func st.1 pkg q → q ∈ st'.2 := by
  intro fuel
  induction fuel with
  | zero => intro pkg st st' h; simp [recursive_fill_list] at h
  | succ fuel ih =>
    intro pkg st st' h q hq
    obtain ⟨chain, list⟩ := st
    have hnot : pkg ∉ chain := hq.start_not_mem
    rw [recursive_fill_list_succ] at h
    have hc : ¬ g_slist_find chain pkg = true := by simpa [g_slist_find] using hnot
    rw [if_neg hc] at h
    cases hp : heap[pkg]? with
    | none => rw [hp] at h; simp at h
    | some p =>
      rw [hp] at h
      simp only at h
      cases hf : (func p).foldlM (fun st tmp => recursive_fill_list heap func fuel tmp st)
          (g_slist_prepend chain pkg, list) with
      | none => rw [hf] at h; simp at h
      | some s1 =>
        rw [hf] at h
        obtain ⟨chain1, list1⟩ := s1
        simp only [Option.some.injEq] at h
        subst h
        simp only [g_slist_prepend]
        rcases hq.split pkg with h1 | h1 | ⟨c, ⟨r, hr, hcr⟩, hcq⟩
        · exact h1 ▸ List.mem_cons_self _ _
        · exact absurd (List.mem_cons_self _ _) h1.start_not_mem
        · rw [hp] at hr
          cases hr
          exact List.mem_cons_of_mem _ (foldlM_complete ih (func p) list _ hf c hcr q hcq)

end PkgConfig

namespace PkgConfig

theorem unvisited_le (heap : Heap) (chain : List Nat) : unvisited heap chain ≤ heap.length := by
  unfold unvisited
  exact (List.length_filter_le _ _).trans (by simp)

theorem unvisited_cons_lt (heap : Heap) (chain : List Nat) (pkg : Nat)
    (hlt : pkg < heap.length) (hnot : pkg ∉ chain) :
    unvisited heap (pkg :: chain) < unvisited heap chain := by
  unfold unvisited
  have hnd : ((List.range heap.length).filter (fun p => decide (p ∉ chain))).Nodup :=
    (List.nodup_range _).filter _
  have hmem : pkg ∈ (List.range heap.length).filter (fun p => decide (p ∉ chain)) := by
    simp [List.mem_filter, hlt, hnot]
  have heq : (List.range heap.length).filter (fun p => decide (p ∉ pkg :: chain)) =
      ((List.range heap.length).filter (fun p => decide (p ∉ chain))).erase pkg := by
    rw [hnd.erase_eq_filter, List.filter_filter]
    congr 1
    funext p
    simp only [List.mem_cons, not_or, Bool.decide_and, bne_iff_ne, ne_eq, decide_not,
      Bool.and_comm]
    by_cases h1 : p = pkg <;> by_cases h2 : p ∈ chain <;> simp [h1, h2]
  rw [heq, List.length_erase_of_mem hmem]
  have : 0 < ((List.range heap.length).filter (fun p => decide (p ∉ chain))).length :=
    List.length_pos_of_mem hmem
  omega

theorem foldlM_total {f : List Nat × List Nat → Nat → Option (List Nat × List Nat)}
    {C : List Nat} (cs : List Nat)
    (hf : ∀ c ∈ cs, ∀ l, ∃ l', f (C, l) c = some (C, l')) :
    ∀ l, ∃ l', cs.foldlM f (C, l) = some (C, l') := by
  induction cs with
  | nil => intro l; exact ⟨l, rfl⟩
  | cons c cs ih =>
    intro l
    obtain ⟨l1, h1⟩ := hf c (List.mem_cons_self _ _) l
    obtain ⟨l2, h2⟩ := ih (fun c' hc' => hf c' (List.mem_cons_of_mem _ hc')) l1
    exact ⟨l2, by simp only [List.foldlM_cons, Option.bind_eq_bind, h1, Option.some_bind, h2]⟩

/-- Termination of the traversal: on a heap whose `func` pointers are valid, fuel
above the number of packages not yet on the chain is never used up, and the
call returns with the chain restored. -/
theorem recursive_fill_list_total (heap : Heap) (func : Package → List Nat)
    (hv : ∀ p ∈ heap, ∀ q ∈ func p, q < heap.length) :
    ∀ (fuel pkg : Nat) (chain list : List Nat), pkg < heap.length →
      unvisited heap chain < fuel →
      ∃ list', recursive_fill_list heap func fuel pkg (chain, list) = some (chain, list') := by
  intro fuel
  induction fuel with
  | zero => intro pkg chain list _ h; omega
  | succ fuel ih =>
    intro pkg chain list hlt hfuel
    rw [recursive_fill_list_succ]
    by_cases hc : g_slist_find chain pkg = true
    · exact ⟨list, by rw [if_pos hc]⟩
    · rw [if_neg hc]
      have hnot : pkg ∉ chain := by simpa [g_slist_find] using hc
      have hp : heap[pkg]? = some heap[pkg] := List.getElem?_eq_getElem hlt
      have hlt2 := unvisited_cons_lt heap chain pkg hlt hnot
      obtain ⟨l1, h1⟩ := foldlM_total (f := fun st tmp => recursive_fill_list heap func fuel tmp st)
        (C := g_slist_prepend chain pkg) (func heap[pkg])
        (fun c hcm l => ih c _ l (hv _ (List.getElem_mem hlt) c hcm)
          (by simp only [g_slist_prepend]; omega)) list
      rw [hp]
      simp only [h1]
      exact ⟨g_slist_prepend l1 pkg, by simp [g_slist_remove, g_slist_prepend]⟩

theorem ValidHeap.requires {heap : Heap} (hv : ValidHeap heap) :
    ∀ p ∈ heap, ∀ q ∈ get_requires p, q < heap.length :=
  fun p hp => (hv p hp).1

theorem ValidHeap.requires_private {heap : Heap} (hv : ValidHeap heap) :
    ∀ p ∈ heap, ∀ q ∈ get_requires_private p, q < heap.length :=
  fun p hp => (hv p hp).2

theorem ValidHeap.edges {heap : Heap} (hv : ValidHeap heap) (include_private : Bool) :
    ∀ p ∈ heap, ∀ q ∈ (if include_private then get_requires_private else get_requires) p,
      q < heap.length := by
  cases include_private
  · exact hv.requires
  · exact hv.requires_private

/-- The closure loop of `fill_list` on a valid heap and valid roots: it returns,
the chain is unchanged, and the list holds exactly the packages reachable from
a root. -/
theorem fill_list_expand_spec (heap : Heap) (packages : List Nat) (include_private : Bool)
    (chain : List Nat) (hv : ValidHeap heap) (hr : ∀ p ∈ packages, p < heap.length) :
    ∃ expanded, fill_list_expand heap packages include_private chain = some (chain, expanded) ∧
      (∀ x ∈ expanded, x < heap.length ∧ ∃ root ∈ packages,
        Reachable heap (if include_private then get_requires_private else get_requires) root x) ∧
      (chain = [] → ∀ root ∈ packages, ∀ x,
        Reachable heap (if include_private then get_requires_private else get_requires) root x →
        x ∈ expanded) := by
  obtain ⟨expanded, he⟩ := foldlM_total
    (f := fun st tmp => recursive_fill_list heap
      (if include_private then get_requires_private else get_requires) (heap.length + 1) tmp st)
    (C := chain) packages
    (fun c hc l => recursive_fill_list_total heap _ (hv.edges include_private) _ c chain l
      (hr c hc) (Nat.lt_succ_of_le (unvisited_le heap chain))) []
  refine ⟨expanded, he, ?_, ?_⟩
  · obtain ⟨-, new, hl, hP⟩ := foldlM_stepOk
      (P := fun x => x < heap.length ∧ ∃ root ∈ packages,
        Reachable heap (if include_private then get_requires_private else get_requires) root x)
      packages
      (fun c hc st st' hst =>
        (recursive_fill_list_sound heap _ _ c st st' hst).mono
          (fun x hx => ⟨hx.1, c, hc, hx.2⟩)) _ _ he
    simp only [List.append_nil] at hl
    subst hl
    exact hP
  · intro hnil root hroot x hx
    subst hnil
    exact foldlM_complete (recursive_fill_list_complete heap _ (heap.length + 1)) packages [] _ he
      root hroot x (ReachAvoid.of_reachable hx)

end PkgConfig

namespace PkgConfig

/-! ## Sorting by path position -/

theorem g_slist_insert_ordered_perm {α : Type} (cmp : α → α → Int) (x : α) (l : List α) :
    (g_slist_insert_ordered cmp x l).Perm (x :: l) := by
  induction l with
  | nil => exact List.Perm.refl _
  | cons y rest ih =>
    unfold g_slist_insert_ordered
    by_cases h : cmp x y ≤ 0
    · rw [if_pos h]
    · rw [if_neg h]
      exact (List.Perm.cons y ih).trans (List.Perm.swap x y rest)

theorem g_slist_sort_perm {α : Type} (cmp : α → α → Int) (l : List α) :
    (g_slist_sort l cmp).Perm l := by
  induction l with
  | nil => exact List.Perm.refl _
  | cons x rest ih =>
    exact (g_slist_insert_ordered_perm cmp x _).trans (List.Perm.cons x ih)

theorem pathposcmp_le (pa pb : Package) :
    pathposcmp pa pb ≤ 0 ↔ pa.path_position ≤ pb.path_position := by
  unfold pathposcmp
  by_cases h1 : pa.path_position < pb.path_position
  · rw [if_pos h1]; constructor
    · intro _; omega
    · intro _; decide
  · rw [if_neg h1]
    by_cases h2 : pa.path_position > pb.path_position
    · rw [if_pos h2]; constructor
      · intro h; exact absurd h (by decide)
      · intro _; omega
    · rw [if_neg h2]; constructor
      · intro _; omega
      · intro _; decide

theorem insert_ordered_sorted (x : Package) (l : List Package)
    (hs : l.Pairwise (fun a b => a.path_position ≤ b.path_position)) :
    (g_slist_insert_ordered pathposcmp x l).Pairwise
      (fun a b => a.path_position ≤ b.path_position) := by
  induction l with
  | nil => simp [g_slist_insert_ordered]
  | cons y rest ih =>
    unfold g_slist_insert_ordered
    rw [List.pairwise_cons] at hs
    by_cases h : pathposcmp x y ≤ 0
    · rw [if_pos h]
      have hxy := (pathposcmp_le x y).1 h
      refine List.pairwise_cons.2 ⟨?_, List.pairwise_cons.2 hs⟩
      intro z hz
      rcases List.mem_cons.1 hz with rfl | hz
      · exact hxy
      · exact le_trans hxy (hs.1 z hz)
    · rw [if_neg h]
      have hyx : y.path_position ≤ x.path_position := by
        have := (pathposcmp_le x y).not.1 h
        omega
      refine List.pairwise_cons.2 ⟨?_, ih hs.2⟩
      intro z hz
      rcases List.mem_cons.1 ((g_slist_insert_ordered_perm pathposcmp x rest).subset hz) with
        rfl | hz
      · exact hyx
      · exact hs.1 z hz

theorem packages_sort_sorted (l : List Package) :
    (packages_sort_by_path_position l).Pairwise
      (fun a b => a.path_position ≤ b.path_position) := by
  unfold packages_sort_by_path_position g_slist_sort
  induction l with
  | nil => simp
  | cons x rest ih => exact insert_ordered_sorted x _ ih

theorem insert_ordered_filter (k : Int) (x : Package) (l : List Package) :
    (g_slist_insert_ordered pathposcmp x l).filter (fun p => decide (p.path_position = k)) =
      (x :: l).filter (fun p => decide (p.path_position = k)) := by
  induction l with
  | nil => simp [g_slist_insert_ordered]
  | cons y rest ih =>
    unfold g_slist_insert_ordered
    by_cases h : pathposcmp x y ≤ 0
    · rw [if_pos h]
    · rw [if_neg h]
      have hyx : y.path_position < x.path_position := by
        have := (pathposcmp_le x y).not.1 h
        omega
      rw [List.filter_cons, ih]
      by_cases hx : x.path_position = k
      · have hy : ¬ y.path_position = k := by omega
        simp [List.filter_cons, hx, hy]
      · simp [List.filter_cons, hx]

theorem packages_sort_stable (k : Int) (l : List Package) :
    (packages_sort_by_path_position l).filter (fun p => decide (p.path_position = k)) =
      l.filter (fun p => decide (p.path_position = k)) := by
  unfold packages_sort_by_path_position g_slist_sort
  induction l with
  | nil => simp
  | cons x rest ih =>
    rw [List.foldr_cons, insert_ordered_filter, List.filter_cons, List.filter_cons, ih]

/-! ## Merging the flags -/

theorem merge_flag_lists_foldl (packages : List Package) (func : Package → List CString) :
    ∀ acc, packages.foldl (fun acc pkg => acc ++ func pkg) acc =
      acc ++ (packages.map func).flatten := by
  induction packages with
  | nil => intro acc; simp
  | cons p rest ih => intro acc; simp [ih]

theorem merge_flag_lists_nil (packages : List Package) (func : Package → List CString) :
    merge_flag_lists packages func [] = (packages.map func).flatten := by
  unfold merge_flag_lists
  rw [merge_flag_lists_foldl, List.nil_append]
  cases h : (packages.map func).flatten <;> rfl

theorem deref_all_spec (heap : Heap) (l : List Nat) (hl : ∀ x ∈ l, x < heap.length) :
    ∃ recs, deref_all heap l = some recs ∧
      List.Forall₂ (fun x r => heap[x]? = some r) l recs := by
  induction l with
  | nil => exact ⟨[], rfl, List.Forall₂.nil⟩
  | cons x rest ih =>
    obtain ⟨recs, h1, h2⟩ := ih (fun y hy => hl y (List.mem_cons_of_mem _ hy))
    have hlt : x < heap.length := hl x (List.mem_cons_self _ _)
    have hx : heap[x]? = some heap[x] := List.getElem?_eq_getElem hlt
    refine ⟨heap[x] :: recs, ?_, List.Forall₂.cons hx h2⟩
    simp only [deref_all, hx, h1]

theorem forall₂_mem_right {α β : Type} {R : α → β → Prop} {l : List α} {m : List β}
    (h : List.Forall₂ R l m) : ∀ b ∈ m, ∃ a ∈ l, R a b := by
  induction h with
  | nil => intro b hb; simp at hb
  | cons hab _ ih =>
    intro b hb
    rcases List.mem_cons.1 hb with rfl | hb
    · exact ⟨_, List.mem_cons_self _ _, hab⟩
    · obtain ⟨a, ha, hr⟩ := ih b hb
      exact ⟨a, List.mem_cons_of_mem _ ha, hr⟩

theorem forall₂_mem_left {α β : Type} {R : α → β → Prop} {l : List α} {m : List β}
    (h : List.Forall₂ R l m) : ∀ a ∈ l, ∃ b ∈ m, R a b := by
  induction h with
  | nil => intro a ha; simp at ha
  | cons hab _ ih =>
    intro a ha
    rcases List.mem_cons.1 ha with rfl | ha
    · exact ⟨_, List.mem_cons_self _ _, hab⟩
    · obtain ⟨b, hb, hr⟩ := ih a ha
      exact ⟨b, List.mem_cons_of_mem _ hb, hr⟩

end PkgConfig

namespace PkgConfig

/-! ## `fill_list` and `packages_get_flags` -/

/-- The result of `fill_list` on a valid heap with valid roots, started with an
empty chain and an empty `*listp`: the closure list `ptrs`, the records
`closure` behind it, and the flags of those records, sorted first when
`in_path_order` is set; a flag is in the result exactly when it belongs to a
package reachable from a root. -/
theorem fill_list_spec (heap : Heap) (pkgs : List Nat) (func : Package → List CString)
    (in_path_order include_private : Bool)
    (hv : ValidHeap heap) (hr : ∀ p ∈ pkgs, p < heap.length) :
    ∃ ptrs closure,
      fill_list_expand heap pkgs include_private [] = some ([], ptrs) ∧
      deref_all heap ptrs = some closure ∧
      fill_list heap pkgs func [] in_path_order include_private [] =
        some (((if in_path_order then packages_sort_by_path_position closure
                else closure).map func).flatten, []) ∧
      ∀ t, t ∈ ((if in_path_order then packages_sort_by_path_position closure
                else closure).map func).flatten ↔
        ∃ root ∈ pkgs, ∃ q r,
          Reachable heap (if include_private then get_requires_private else get_requires)
            root q ∧ heap[q]? = some r ∧ t ∈ func r := by
  obtain ⟨ptrs, he, hsound, hcomplete⟩ :=
    fill_list_expand_spec heap pkgs include_private [] hv hr
  obtain ⟨closure, hd, hf2⟩ := deref_all_spec heap ptrs (fun x hx => (hsound x hx).1)
  refine ⟨ptrs, closure, he, hd, ?_, ?_⟩
  · simp only [fill_list, he, hd, merge_flag_lists_nil]
  · intro t
    have hmem : ∀ r, r ∈ (if in_path_order then packages_sort_by_path_position closure
        else closure) ↔ r ∈ closure := by
      intro r
      cases in_path_order
      · simp
      · simp only [if_true]
        exact (g_slist_sort_perm pathposcmp closure).mem_iff
    simp only [List.mem_flatten, List.mem_map]
    constructor
    · rintro ⟨toks, ⟨r, hr1, rfl⟩, ht⟩
      obtain ⟨x, hx, hxr⟩ := forall₂_mem_right hf2 r ((hmem r).1 hr1)
      obtain ⟨-, root, hroot, hreach⟩ := hsound x hx
      exact ⟨root, hroot, x, r, hreach, hxr, ht⟩
    · rintro ⟨root, hroot, q, r, hreach, hq, ht⟩
      obtain ⟨r', hr', hqr'⟩ := forall₂_mem_left hf2 q (hcomplete rfl root hroot q hreach)
      rw [hq] at hqr'
      cases hqr'
      exact ⟨func r, ⟨r, (hmem r).2 hr', rfl⟩, ht⟩

theorem append_category_false (cur : List Nat → Option (CString × List Nat))
    (st : CString × List Nat) : append_category false cur st = some st := rfl

theorem append_category_true_nil (cur : List Nat → Option (CString × List Nat))
    (chain : List Nat) : append_category true cur ([], chain) = cur chain := by
  unfold append_category
  cases h : cur chain with
  | none => simp [h]
  | some r => obtain ⟨s, c⟩ := r; simp [h, g_string_append]

theorem packages_get_flags_CFLAGS_OTHER (cfg : Config) (heap : Heap) (pkgs chain : List Nat) :
    packages_get_flags cfg heap pkgs CFLAGS_OTHER chain =
      get_multi_merged cfg heap pkgs get_other_cflags true true chain := by
  simp only [packages_get_flags, CFLAGS_OTHER, append_category_true_nil]
  cases get_multi_merged cfg heap pkgs get_other_cflags true true chain <;>
    simp [append_category_false]

theorem packages_get_flags_CFLAGS_I (cfg : Config) (heap : Heap) (pkgs chain : List Nat) :
    packages_get_flags cfg heap pkgs CFLAGS_I chain =
      get_multi_merged cfg heap pkgs get_I_cflags true true chain := by
  simp [packages_get_flags, CFLAGS_I, append_category_true_nil, append_category_false]

theorem packages_get_flags_LIBS_OTHER (cfg : Config) (heap : Heap) (pkgs chain : List Nat) :
    packages_get_flags cfg heap pkgs LIBS_OTHER chain =
      get_multi_merged cfg heap pkgs get_other_libs true (!cfg.ignore_private_libs) chain := by
  simp only [packages_get_flags, LIBS_OTHER, append_category_true_nil, append_category_false,
    Option.bind_eq_bind, Option.some_bind]
  cases get_multi_merged cfg heap pkgs get_other_libs true (!cfg.ignore_private_libs) chain <;>
    simp [append_category_false]

theorem packages_get_flags_LIBS_L (cfg : Config) (heap : Heap) (pkgs chain : List Nat) :
    packages_get_flags cfg heap pkgs LIBS_L chain =
      get_multi_merged cfg heap pkgs get_L_libs true (!cfg.ignore_private_libs) chain := by
  simp only [packages_get_flags, LIBS_L, append_category_true_nil, append_category_false,
    Option.bind_eq_bind, Option.some_bind]
  cases get_multi_merged cfg heap pkgs get_L_libs true (!cfg.ignore_private_libs) chain <;>
    simp [append_category_false]

theorem packages_get_flags_LIBS_l (cfg : Config) (heap : Heap) (pkgs chain : List Nat) :
    packages_get_flags cfg heap pkgs LIBS_l chain =
      get_multi_merged_from_back cfg heap pkgs get_l_libs false (!cfg.ignore_private_libs)
        chain := by
  simp only [packages_get_flags, LIBS_l, append_category_true_nil, append_category_false,
    Option.bind_eq_bind, Option.some_bind]

theorem mem_strip_duplicates (l : List CString) (t : CString) :
    t ∈ string_list_strip_duplicates l ↔ t ∈ l := by
  rw [strip_duplicates_eq_reverse_dedup]; simp

theorem mem_strip_duplicates_from_back (l : List CString) (t : CString) :
    t ∈ string_list_strip_duplicates_from_back l ↔ t ∈ l := by
  rw [strip_duplicates_from_back_eq_dedup]; simp

end PkgConfig

namespace PkgConfig

/-! ## De-duplication, rendering and joining (C2, C3, C8, C9) -/

/-- C2: `string_list_strip_duplicates l` is the list of the distinct tokens of
`l` in order of first occurrence: it consists of the tokens that do not occur at
an earlier position, has no repeats, has the same members as `l` and is a
sublist of `l`; `["-Ia", "-Ib", "-Ia"]` gives `["-Ia", "-Ib"]`. -/
theorem string_list_strip_duplicates_first_occurrence (l : List CString) :
    string_list_strip_duplicates l = first_occurrences l ∧
    (string_list_strip_duplicates l).Nodup ∧
    (∀ t, t ∈ string_list_strip_duplicates l ↔ t ∈ l) ∧
    (string_list_strip_duplicates l).Sublist l ∧
    string_list_strip_duplicates ["-Ia".toList, "-Ib".toList, "-Ia".toList] =
      ["-Ia".toList, "-Ib".toList] := by
  refine ⟨?_, ?_, mem_strip_duplicates l, ?_, by decide⟩
  · have h := strip_duplicates_loop_index l [] [] [] (by simp)
    unfold string_list_strip_duplicates g_slist_reverse first_occurrences
    rw [h]
    simp [List.enum]
  · rw [strip_duplicates_eq_reverse_dedup]
    exact List.nodup_reverse.2 (List.nodup_dedup _)
  · rw [strip_duplicates_eq_reverse_dedup]
    have h := (List.dedup_sublist l.reverse).reverse
    rwa [List.reverse_reverse] at h

/-- C3: `string_list_strip_duplicates_from_back l` keeps of every distinct token
exactly its last occurrence, in the original relative order: it consists of the
tokens that do not occur at a later position, has no repeats, has the same
members as `l` and is a sublist of `l`; `["-lc", "-lm", "-lc"]` gives
`["-lm", "-lc"]`. -/
theorem string_list_strip_duplicates_from_back_last_occurrence (l : List CString) :
    string_list_strip_duplicates_from_back l = last_occurrences l ∧
    (string_list_strip_duplicates_from_back l).Nodup ∧
    (∀ t, t ∈ string_list_strip_duplicates_from_back l ↔ t ∈ l) ∧
    (string_list_strip_duplicates_from_back l).Sublist l ∧
    string_list_strip_duplicates_from_back ["-lc".toList, "-lm".toList, "-lc".toList] =
      ["-lm".toList, "-lc".toList] := by
  refine ⟨?_, ?_, mem_strip_duplicates_from_back l, ?_, by decide⟩
  · have h := last_occurrences_index l []
    simp only [List.length_nil, List.nil_append] at h
    rw [strip_duplicates_from_back_eq_dedup, last_occurrences, List.enum, h]
  · rw [strip_duplicates_from_back_eq_dedup]
    exact List.nodup_dedup _
  · rw [strip_duplicates_from_back_eq_dedup]
    exact List.dedup_sublist l

/-- C8: `string_list_to_string` renders every token through the sysroot rewrite
and puts a space after it.  With a sysroot `s` a token `-I r` or `-L r` is
rendered as the flag, then `s`, then `r`, and every other token unchanged;
without a sysroot every token is rendered unchanged. -/
theorem string_list_to_string_sysroot_rewrite (pcsysrootdir : Option CString)
    (list : List CString) :
    string_list_to_string pcsysrootdir list =
      (list.map (fun tok => sysroot_rewrite pcsysrootdir tok ++ [' '])).flatten ∧
    (∀ s r : CString, sysroot_rewrite (some s) ("-I".toList ++ r) = "-I".toList ++ s ++ r) ∧
    (∀ s r : CString, sysroot_rewrite (some s) ("-L".toList ++ r) = "-L".toList ++ s ++ r) ∧
    (∀ s tok : CString, sysroot_rewrite (some s) tok =
      if "-I".toList <+: tok ∨ "-L".toList <+: tok then tok.take 2 ++ s ++ tok.drop 2
      else tok) ∧
    (∀ tok : CString, sysroot_rewrite none tok = tok) ∧
    string_list_to_string (some "/sys".toList) ["-I/usr/include".toList, "-lfoo".toList] =
      "-I/sys/usr/include -lfoo ".toList := by
  refine ⟨?_, ?_, ?_, fun _ _ => rfl, fun _ => rfl, by decide⟩
  · unfold string_list_to_string
    rw [string_list_to_string_loop_eq, List.nil_append]
  · intro s r
    show sysroot_rewrite (some s) ('-' :: 'I' :: r) = '-' :: 'I' :: (s ++ r)
    simp [sysroot_rewrite]
  · intro s r
    show sysroot_rewrite (some s) ('-' :: 'L' :: r) = '-' :: 'L' :: (s ++ r)
    simp [sysroot_rewrite]

/-- C9, the claim as stated fails: for one package with the include flags `-Ia`
and `-Ib` the aggregator returns `"-Ia -Ib "`, with a space after the last
token, which is not the tokens joined by single spaces, `"-Ia -Ib"`. -/
theorem packages_get_flags_trailing_space :
    packages_get_flags default_config heap_two_includes [0] CFLAGS_I [] =
      some ("-Ia -Ib ".toList, []) ∧
    [' '].intercalate ["-Ia".toList, "-Ib".toList] = "-Ia -Ib".toList ∧
    "-Ia -Ib ".toList ≠ [' '].intercalate ["-Ia".toList, "-Ib".toList] := by
  decide

/-- C9 as amended: without a sysroot, `string_list_to_string` returns every
token followed by one space (the tokens joined by single spaces, and one more
space at the end unless there is no token), and that is the string
`get_multi_merged` and `get_multi_merged_from_back` return for the tokens that
survive de-duplication; `["-Ia", "-Ib"]` yields `"-Ia -Ib "`. -/
theorem string_list_to_string_join (du ir irp ipl : Bool) (heap : Heap) (pkgs : List Nat)
    (func : Package → List CString) (in_path_order include_private : Bool)
    (chain : List Nat) (list : List CString) :
    string_list_to_string none list = join_with_spaces list ∧
    string_list_to_string none list = (list.map (fun tok => tok ++ [' '])).flatten ∧
    get_multi_merged ⟨du, ir, irp, ipl, none⟩ heap pkgs func in_path_order include_private
        chain =
      (fill_list heap pkgs func [] in_path_order include_private chain).map
        (fun r => (join_with_spaces (string_list_strip_duplicates r.1), r.2)) ∧
    get_multi_merged_from_back ⟨du, ir, irp, ipl, none⟩ heap pkgs func in_path_order
        include_private chain =
      (fill_list heap pkgs func [] in_path_order include_private chain).map
        (fun r => (join_with_spaces (string_list_strip_duplicates_from_back r.1), r.2)) ∧
    join_with_spaces ["-Ia".toList, "-Ib".toList] = "-Ia -Ib ".toList := by
  refine ⟨string_list_to_string_none list, ?_, ?_, ?_, by decide⟩
  · unfold string_list_to_string
    rw [string_list_to_string_loop_eq, List.nil_append]
    rfl
  · unfold get_multi_merged
    cases fill_list heap pkgs func [] in_path_order include_private chain with
    | none => rfl
    | some r => obtain ⟨a, b⟩ := r; simp [string_list_to_string_none]
  · unfold get_multi_merged_from_back
    cases fill_list heap pkgs func [] in_path_order include_private chain with
    | none => rfl
    | some r => obtain ⟨a, b⟩ := r; simp [string_list_to_string_none]

end PkgConfig

namespace PkgConfig

/-! ## Edge sets and path ordering (C4, C5, C6, C7) -/

theorem get_multi_merged_tokens (cfg : Config) (heap : Heap) (pkgs : List Nat)
    (func : Package → List CString) (in_path_order include_private : Bool)
    (hv : ValidHeap heap) (hr : ∀ p ∈ pkgs, p < heap.length) :
    ∃ toks, get_multi_merged cfg heap pkgs func in_path_order include_private [] =
        some (string_list_to_string cfg.pcsysrootdir toks, []) ∧
      ∀ t, t ∈ toks ↔ ∃ root ∈ pkgs, ∃ q r,
        Reachable heap (if include_private then get_requires_private else get_requires)
          root q ∧ heap[q]? = some r ∧ t ∈ func r := by
  obtain ⟨ptrs, closure, -, -, hfill, hmem⟩ :=
    fill_list_spec heap pkgs func in_path_order include_private hv hr
  refine ⟨string_list_strip_duplicates
    ((if in_path_order then packages_sort_by_path_position closure
      else closure).map func).flatten, ?_, ?_⟩
  · simp only [get_multi_merged, hfill]
  · intro t
    rw [mem_strip_duplicates, hmem]

theorem get_multi_merged_from_back_tokens (cfg : Config) (heap : Heap) (pkgs : List Nat)
    (func : Package → List CString) (in_path_order include_private : Bool)
    (hv : ValidHeap heap) (hr : ∀ p ∈ pkgs, p < heap.length) :
    ∃ toks, get_multi_merged_from_back cfg heap pkgs func in_path_order include_private [] =
        some (string_list_to_string cfg.pcsysrootdir toks, []) ∧
      ∀ t, t ∈ toks ↔ ∃ root ∈ pkgs, ∃ q r,
        Reachable heap (if include_private then get_requires_private else get_requires)
          root q ∧ heap[q]? = some r ∧ t ∈ func r := by
  obtain ⟨ptrs, closure, -, -, hfill, hmem⟩ :=
    fill_list_spec heap pkgs func in_path_order include_private hv hr
  refine ⟨string_list_strip_duplicates_from_back
    ((if in_path_order then packages_sort_by_path_position closure
      else closure).map func).flatten, ?_, ?_⟩
  · simp only [get_multi_merged_from_back, hfill]
  · intro t
    rw [mem_strip_duplicates_from_back, hmem]

theorem libs_edge_func (b : Bool) :
    (if (!b) = true then get_requires_private else get_requires) =
      (if b = true then get_requires else get_requires_private) := by
  cases b <;> rfl

/-- C4, the claim as stated fails: package 0 has no `requires` edge at all and
lists package 1 in `requires_private` only, yet the `CFLAGS_OTHER` and
`CFLAGS_I` results for the root 0 hold the flags `-DB` and `-Ib` of package 1,
which belong to no package reachable from 0 over `requires` edges. -/
theorem cflags_walk_private_edges :
    packages_get_flags default_config heap_private_dep [0] CFLAGS_OTHER [] =
      some (string_list_to_string none ["-DB".toList], []) ∧
    packages_get_flags default_config heap_private_dep [0] CFLAGS_I [] =
      some (string_list_to_string none ["-Ib".toList], []) ∧
    (∀ q, Reachable heap_private_dep get_requires 0 q → q = 0) ∧
    heap_private_dep[0]?.map get_other_cflags = some [] ∧
    heap_private_dep[0]?.map get_I_cflags = some [] := by
  refine ⟨by decide, by decide, ?_, by decide, by decide⟩
  intro q hq
  rcases Relation.ReflTransGen.cases_head hq with h | ⟨c, ⟨r, hr, hc⟩, -⟩
  · exact h.symm
  · have h0 : heap_private_dep[0]? = some (heap_private_dep.get ⟨0, by decide⟩) := rfl
    rw [h0] at hr
    cases hr
    simp [get_requires, heap_private_dep, zero_package] at hc

/-- C4 as amended: for `CFLAGS_OTHER` and `CFLAGS_I`, `packages_get_flags` walks
the closure over the `requires_private` edges, whatever the setting of
`ignore_private_libs`: on a valid heap the call returns, and a token is in the
rendered token list exactly when it is an `other_cflags` (resp. `I_cflags`)
token of a package reachable from a root over `requires_private` edges. -/
theorem cflags_edge_set (cfg : Config) (heap : Heap) (pkgs : List Nat)
    (hv : ValidHeap heap) (hr : ∀ p ∈ pkgs, p < heap.length) :
    (∃ toks, packages_get_flags cfg heap pkgs CFLAGS_OTHER [] =
        some (string_list_to_string cfg.pcsysrootdir toks, []) ∧
      ∀ t, t ∈ toks ↔ ∃ root ∈ pkgs, ∃ q r,
        Reachable heap get_requires_private root q ∧ heap[q]? = some r ∧
          t ∈ r.other_cflags) ∧
    (∃ toks, packages_get_flags cfg heap pkgs CFLAGS_I [] =
        some (string_list_to_string cfg.pcsysrootdir toks, []) ∧
      ∀ t, t ∈ toks ↔ ∃ root ∈ pkgs, ∃ q r,
        Reachable heap get_requires_private root q ∧ heap[q]? = some r ∧
          t ∈ r.I_cflags) := by
  constructor
  · rw [packages_get_flags_CFLAGS_OTHER]
    exact get_multi_merged_tokens cfg heap pkgs get_other_cflags true true hv hr
  · rw [packages_get_flags_CFLAGS_I]
    exact get_multi_merged_tokens cfg heap pkgs get_I_cflags true true hv hr

/-- Witness for C4 as amended, on the heap `heap_private_dep` with root 0. -/
theorem cflags_edge_set_witness :
    ValidHeap heap_private_dep ∧ (∀ p ∈ [0], p < heap_private_dep.length) ∧
    (∃ toks, packages_get_flags default_config heap_private_dep [0] CFLAGS_OTHER [] =
        some (string_list_to_string default_config.pcsysrootdir toks, []) ∧
      ∀ t, t ∈ toks ↔ ∃ root ∈ [0], ∃ q r,
        Reachable heap_private_dep get_requires_private root q ∧
          heap_private_dep[q]? = some r ∧ t ∈ r.other_cflags) :=
  ⟨by decide, by decide,
    (cflags_edge_set default_config heap_private_dep [0] (by decide) (by decide)).1⟩

/-- C5: for `LIBS_OTHER`, `LIBS_L` and `LIBS_l`, `packages_get_flags` walks the
closure over `requires` when `ignore_private_libs` is set and over
`requires_private` when it is cleared: on a valid heap the call returns, and a
token is in the rendered token list exactly when it is a token of that category
of a package reachable from a root over the edges of that set.  So a package
reachable only through a `Requires.private` edge contributes nothing when the
toggle is set, and all its tokens when it is cleared. -/
theorem libs_edge_set (cfg : Config) (heap : Heap) (pkgs : List Nat)
    (hv : ValidHeap heap) (hr : ∀ p ∈ pkgs, p < heap.length) :
    (∃ toks, packages_get_flags cfg heap pkgs LIBS_OTHER [] =
        some (string_list_to_string cfg.pcsysrootdir toks, []) ∧
      ∀ t, t ∈ toks ↔ ∃ root ∈ pkgs, ∃ q r,
        Reachable heap
          (if cfg.ignore_private_libs then get_requires else get_requires_private) root q ∧
          heap[q]? = some r ∧ t ∈ r.other_libs) ∧
    (∃ toks, packages_get_flags cfg heap pkgs LIBS_L [] =
        some (string_list_to_string cfg.pcsysrootdir toks, []) ∧
      ∀ t, t ∈ toks ↔ ∃ root ∈ pkgs, ∃ q r,
        Reachable heap
          (if cfg.ignore_private_libs then get_requires else get_requires_private) root q ∧
          heap[q]? = some r ∧ t ∈ r.L_libs) ∧
    (∃ toks, packages_get_flags cfg heap pkgs LIBS_l [] =
        some (string_list_to_string cfg.pcsysrootdir toks, []) ∧
      ∀ t, t ∈ toks ↔ ∃ root ∈ pkgs, ∃ q r,
        Reachable heap
          (if cfg.ignore_private_libs then get_requires else get_requires_private) root q ∧
          heap[q]? = some r ∧ t ∈ r.l_libs) := by
  refine ⟨?_, ?_, ?_⟩
  · rw [packages_get_flags_LIBS_OTHER, ← libs_edge_func]
    exact get_multi_merged_tokens cfg heap pkgs get_other_libs true _ hv hr
  · rw [packages_get_flags_LIBS_L, ← libs_edge_func]
    exact get_multi_merged_tokens cfg heap pkgs get_L_libs true _ hv hr
  · rw [packages_get_flags_LIBS_l, ← libs_edge_func]
    exact get_multi_merged_from_back_tokens cfg heap pkgs get_l_libs false _ hv hr

/-- Witness for C5, on the heap `heap_private_dep` with root 0, for
both settings of `ignore_private_libs`, together with the values returned:
nothing when it is set, the flags of package 1 when it is cleared. -/
theorem libs_edge_set_witness :
    ValidHeap heap_private_dep ∧ (∀ p ∈ [0], p < heap_private_dep.length) ∧
    (∃ toks, packages_get_flags default_config heap_private_dep [0] LIBS_l [] =
        some (string_list_to_string default_config.pcsysrootdir toks, []) ∧
      ∀ t, t ∈ toks ↔ ∃ root ∈ [0], ∃ q r,
        Reachable heap_private_dep
          (if default_config.ignore_private_libs then get_requires else get_requires_private)
          root q ∧ heap_private_dep[q]? = some r ∧ t ∈ r.l_libs) ∧
    (∃ toks, packages_get_flags private_libs_config heap_private_dep [0] LIBS_l [] =
        some (string_list_to_string private_libs_config.pcsysrootdir toks, []) ∧
      ∀ t, t ∈ toks ↔ ∃ root ∈ [0], ∃ q r,
        Reachable heap_private_dep
          (if private_libs_config.ignore_private_libs then get_requires
            else get_requires_private)
          root q ∧ heap_private_dep[q]? = some r ∧ t ∈ r.l_libs) ∧
    packages_get_flags default_config heap_private_dep [0] LIBS_l [] = some ([], []) ∧
    packages_get_flags private_libs_config heap_private_dep [0] LIBS_l [] =
      some ("-lb ".toList, []) :=
  ⟨by decide, by decide,
    (libs_edge_set default_config heap_private_dep [0] (by decide) (by decide)).2.2,
    (libs_edge_set private_libs_config heap_private_dep [0] (by decide) (by decide)).2.2,
    by decide, by decide⟩

end PkgConfig

namespace PkgConfig

theorem path_ordered_of (cfg : Config) (heap : Heap) (pkgs : List Nat) (flags : FlagType)
    (func : Package → List CString) (include_private : Bool)
    (hflag : packages_get_flags cfg heap pkgs flags [] =
      get_multi_merged cfg heap pkgs func true include_private [])
    (hv : ValidHeap heap) (hr : ∀ p ∈ pkgs, p < heap.length) :
    PathOrdered cfg heap pkgs flags func include_private := by
  obtain ⟨ptrs, closure, he, hd, hfill, -⟩ :=
    fill_list_spec heap pkgs func true include_private hv hr
  simp only [if_true] at hfill
  refine ⟨ptrs, closure, packages_sort_by_path_position closure, he, hd,
    g_slist_sort_perm pathposcmp closure, packages_sort_sorted closure,
    fun k => packages_sort_stable k closure, hfill, ?_⟩
  rw [hflag]
  simp only [get_multi_merged, hfill]

/-- C6: for each of the four categories other than `LIBS_l`, on a valid heap the
token list handed to `string_list_strip_duplicates` is the concatenation of the
per-package token lists over the closure list stably sorted by ascending
`path_position`: the sorted list is a permutation of the closure list,
`path_position` is non-decreasing along it, and the packages of any one
`path_position` keep their closure-list order. -/
theorem path_ordering (cfg : Config) (heap : Heap) (pkgs : List Nat)
    (hv : ValidHeap heap) (hr : ∀ p ∈ pkgs, p < heap.length) :
    PathOrdered cfg heap pkgs CFLAGS_OTHER get_other_cflags true ∧
    PathOrdered cfg heap pkgs CFLAGS_I get_I_cflags true ∧
    PathOrdered cfg heap pkgs LIBS_OTHER get_other_libs (!cfg.ignore_private_libs) ∧
    PathOrdered cfg heap pkgs LIBS_L get_L_libs (!cfg.ignore_private_libs) :=
  ⟨path_ordered_of cfg heap pkgs _ _ _ (packages_get_flags_CFLAGS_OTHER cfg heap pkgs []) hv hr,
   path_ordered_of cfg heap pkgs _ _ _ (packages_get_flags_CFLAGS_I cfg heap pkgs []) hv hr,
   path_ordered_of cfg heap pkgs _ _ _ (packages_get_flags_LIBS_OTHER cfg heap pkgs []) hv hr,
   path_ordered_of cfg heap pkgs _ _ _ (packages_get_flags_LIBS_L cfg heap pkgs []) hv hr⟩

/-- Witness for C6, on the heap `heap_private_dep` with root 0: the
closure list is package 0 (position 2) then package 1 (position 1), and the
`CFLAGS_I` result takes them in the order 1, 0. -/
theorem path_ordering_witness :
    ValidHeap heap_private_dep ∧ (∀ p ∈ [0], p < heap_private_dep.length) ∧
    PathOrdered default_config heap_private_dep [0] CFLAGS_I get_I_cflags true ∧
    fill_list_expand heap_private_dep [0] true [] = some ([], [0, 1]) ∧
    (deref_all heap_private_dep [0, 1]).map packages_sort_by_path_position =
      deref_all heap_private_dep [1, 0] :=
  ⟨by decide, by decide,
    (path_ordering default_config heap_private_dep [0] (by decide) (by decide)).2.1,
    by decide, by decide⟩

/-! ### `LIBS_l` does not read `path_position` -/

theorem recursive_fill_list_congr (heap heap' : Heap) (func : Package → List Nat)
    (h : ∀ x : Nat, heap[x]?.map func = heap'[x]?.map func) :
    ∀ (fuel pkg : Nat) (st : List Nat × List Nat),
      recursive_fill_list heap func fuel pkg st = recursive_fill_list heap' func fuel pkg st := by
  intro fuel
  induction fuel with
  | zero => intro pkg st; rfl
  | succ fuel ih =>
    intro pkg st
    obtain ⟨chain, list⟩ := st
    rw [recursive_fill_list_succ, recursive_fill_list_succ]
    have hfun : (fun st tmp => recursive_fill_list heap func fuel tmp st) =
        (fun st tmp => recursive_fill_list heap' func fuel tmp st) := by
      funext st tmp; exact ih tmp st
    have hx := h pkg
    cases h1 : heap[pkg]? with
    | none =>
      cases h2 : heap'[pkg]? with
      | none => rfl
      | some p' => rw [h1, h2] at hx; simp at hx
    | some p =>
      cases h2 : heap'[pkg]? with
      | none => rw [h1, h2] at hx; simp at hx
      | some p' =>
        rw [h1, h2] at hx
        simp only [Option.map_some', Option.some.injEq] at hx
        simp only [hx, hfun]

theorem erase_path_position_lookup (heap heap' : Heap)
    (hsame : heap.map erase_path_position = heap'.map erase_path_position) (x : Nat) :
    heap[x]?.map erase_path_position = heap'[x]?.map erase_path_position := by
  rw [← List.getElem?_map, ← List.getElem?_map, hsame]

theorem erase_path_position_func (heap heap' : Heap)
    (hsame : heap.map erase_path_position = heap'.map erase_path_position)
    {β : Type} (func : Package → β) (hfunc : ∀ p, func (erase_path_position p) = func p)
    (x : Nat) : heap[x]?.map func = heap'[x]?.map func := by
  have h := congrArg (Option.map func) (erase_path_position_lookup heap heap' hsame x)
  simp only [Option.map_map] at h
  have hcomp : func ∘ erase_path_position = func := funext hfunc
  rwa [hcomp] at h

theorem deref_all_congr (heap heap' : Heap)
    (hsame : heap.map erase_path_position = heap'.map erase_path_position) (l : List Nat) :
    (deref_all heap l).map (List.map erase_path_position) =
      (deref_all heap' l).map (List.map erase_path_position) := by
  induction l with
  | nil => rfl
  | cons x rest ih =>
    have hx := erase_path_position_lookup heap heap' hsame x
    cases h1 : heap[x]? with
    | none =>
      cases h2 : heap'[x]? with
      | none => simp [deref_all, h1, h2]
      | some p' => rw [h1, h2] at hx; simp at hx
    | some p =>
      cases h2 : heap'[x]? with
      | none => rw [h1, h2] at hx; simp at hx
      | some p' =>
        rw [h1, h2] at hx
        simp only [Option.map_some', Option.some.injEq] at hx
        cases h3 : deref_all heap rest <;> cases h4 : deref_all heap' rest <;>
          rw [h3, h4] at ih <;> simp [deref_all, h1, h2, h3, h4] at ih ⊢
        exact ⟨hx, ih⟩

theorem fill_list_l_libs_congr (heap heap' : Heap)
    (hsame : heap.map erase_path_position = heap'.map erase_path_position)
    (pkgs : List Nat) (include_private : Bool) (chain : List Nat) :
    fill_list heap pkgs get_l_libs [] false include_private chain =
      fill_list heap' pkgs get_l_libs [] false include_private chain := by
  have hlen : heap.length = heap'.length := by
    have := congrArg List.length hsame
    simpa using this
  have hexp : fill_list_expand heap pkgs include_private chain =
      fill_list_expand heap' pkgs include_private chain := by
    unfold fill_list_expand
    rw [hlen]
    congr 1
    funext st tmp
    apply recursive_fill_list_congr
    intro x
    cases include_private
    · exact erase_path_position_func heap heap' hsame get_requires (fun _ => rfl) x
    · exact erase_path_position_func heap heap' hsame get_requires_private (fun _ => rfl) x
  unfold fill_list
  rw [hexp]
  cases fill_list_expand heap' pkgs include_private chain with
  | none => rfl
  | some r =>
    obtain ⟨chain1, expanded⟩ := r
    have hd := deref_all_congr heap heap' hsame expanded
    have hflags : ∀ c : List Package,
        (c.map get_l_libs).flatten = ((c.map erase_path_position).map get_l_libs).flatten := by
      intro c
      rw [List.map_map]
      rfl
    cases h1 : deref_all heap expanded with
    | none =>
      cases h2 : deref_all heap' expanded with
      | none => simp [h1, h2]
      | some c' => rw [h1, h2] at hd; simp at hd
    | some c =>
      cases h2 : deref_all heap' expanded with
      | none => rw [h1, h2] at hd; simp at hd
      | some c' =>
        rw [h1, h2] at hd
        simp only [Option.map_some', Option.some.injEq] at hd
        simp only [h1, h2, Bool.false_eq_true, if_false, merge_flag_lists_nil,
          Option.some.injEq, Prod.mk.injEq, and_true]
        rw [hflags c, hflags c', hd]

/-- C7: `LIBS_l` is never path-sorted: for two heaps that differ at most in the
`path_position` values of their packages (the first one valid, the roots in
it), `packages_get_flags` for `LIBS_l` returns, and returns the same string. -/
theorem libs_l_independent_of_path_position (cfg : Config) (heap heap' : Heap)
    (pkgs : List Nat)
    (hsame : heap.map erase_path_position = heap'.map erase_path_position)
    (hv : ValidHeap heap) (hr : ∀ p ∈ pkgs, p < heap.length) :
    ∃ s, packages_get_flags cfg heap pkgs LIBS_l [] = some (s, []) ∧
      packages_get_flags cfg heap' pkgs LIBS_l [] = some (s, []) := by
  obtain ⟨toks, h1, -⟩ := get_multi_merged_from_back_tokens cfg heap pkgs get_l_libs false
    (!cfg.ignore_private_libs) hv hr
  refine ⟨_, by rw [packages_get_flags_LIBS_l]; exact h1, ?_⟩
  rw [packages_get_flags_LIBS_l, ← h1]
  unfold get_multi_merged_from_back
  rw [fill_list_l_libs_congr heap heap' hsame]

/-- Witness for C7: `heap_private_dep` and
`heap_private_dep_moved` differ in `path_position` only (2, 1 against 1, 5). -/
theorem libs_l_independent_of_path_position_witness :
    heap_private_dep.map erase_path_position =
      heap_private_dep_moved.map erase_path_position ∧
    heap_private_dep ≠ heap_private_dep_moved ∧
    ValidHeap heap_private_dep ∧ (∀ p ∈ [0], p < heap_private_dep.length) ∧
    ∃ s, packages_get_flags private_libs_config heap_private_dep [0] LIBS_l [] =
        some (s, []) ∧
      packages_get_flags private_libs_config heap_private_dep_moved [0] LIBS_l [] =
        some (s, []) :=
  ⟨by decide, by decide, by decide, by decide,
    libs_l_independent_of_path_position private_libs_config heap_private_dep
      heap_private_dep_moved [0] (by decide) (by decide) (by decide)⟩

end PkgConfig

namespace PkgConfig

/-! ## Version comparison (C10) -/

theorem isdigit_range (c : Char) (h : isdigit c = true) : 48 ≤ c.toNat ∧ c.toNat ≤ 57 := by
  unfold isdigit Char.isDigit at h
  simp only [ge_iff_le, Bool.and_eq_true, decide_eq_true_eq] at h
  exact ⟨h.1, h.2⟩

theorem isdigit_isalnum (c : Char) (h : isdigit c = true) : isalnum c = true := by
  unfold isalnum Char.isAlphanum
  unfold isdigit at h
  simp [h]

theorem toNat_eq_zero_char (c : Char) (h : c.toNat = 48) : c = '0' := by
  have h2 : Char.ofNat c.toNat = c := Char.ofNat_toNat c
  rw [h] at h2
  exact h2.symm

theorem digits_value_foldl (l : CString) :
    ∀ acc : Nat, l.foldl (fun acc c => 10 * acc + (c.toNat - 48)) acc =
      acc * 10 ^ l.length + digits_value l := by
  induction l with
  | nil => intro acc; simp [digits_value]
  | cons c rest ih =>
    intro acc
    unfold digits_value
    simp only [List.foldl_cons, List.length_cons]
    rw [ih, ih (10 * 0 + (c.toNat - 48))]
    ring

theorem digits_value_cons (c : Char) (l : CString) :
    digits_value (c :: l) = (c.toNat - 48) * 10 ^ l.length + digits_value l := by
  show List.foldl (fun acc c => 10 * acc + (c.toNat - 48)) 0 (c :: l) = _
  simp only [List.foldl_cons]
  rw [digits_value_foldl]
  simp

theorem digits_value_lt (l : CString) (hd : ∀ c ∈ l, isdigit c = true) :
    digits_value l < 10 ^ l.length := by
  induction l with
  | nil => simp [digits_value]
  | cons c rest ih =>
    have hc := isdigit_range c (hd c (List.mem_cons_self _ _))
    have hr := ih (fun x hx => hd x (List.mem_cons_of_mem _ hx))
    rw [digits_value_cons, List.length_cons, pow_succ]
    have h9 : c.toNat - 48 ≤ 9 := by omega
    nlinarith [Nat.mul_le_mul_right (10 ^ rest.length) h9]

theorem digits_value_dropWhile_zero (l : CString) :
    digits_value (l.dropWhile (fun c => c == '0')) = digits_value l := by
  induction l with
  | nil => rfl
  | cons c rest ih =>
    by_cases h : c = '0'
    · subst h
      rw [List.dropWhile_cons_of_pos (by simp), ih, digits_value_cons]
      simp
    · rw [List.dropWhile_cons_of_neg (by simpa using h)]

theorem dropWhile_zero_head (l : CString) (c : Char) (rest : CString)
    (h : l.dropWhile (fun c => c == '0') = c :: rest) : c ≠ '0' := by
  induction l with
  | nil => simp at h
  | cons d l ih =>
    by_cases hd : d = '0'
    · subst hd
      rw [List.dropWhile_cons_of_pos (by simp)] at h
      exact ih h
    · rw [List.dropWhile_cons_of_neg (by simpa using hd)] at h
      cases h
      exact hd

theorem digits_value_ge (c : Char) (rest : CString) (hc : isdigit c = true) (h0 : c ≠ '0') :
    10 ^ rest.length ≤ digits_value (c :: rest) := by
  have hr := isdigit_range c hc
  have hne : c.toNat ≠ 48 := fun h => h0 (toNat_eq_zero_char c h)
  rw [digits_value_cons]
  have h1 : 1 ≤ c.toNat - 48 := by omega
  calc 10 ^ rest.length = 1 * 10 ^ rest.length := by ring
    _ ≤ (c.toNat - 48) * 10 ^ rest.length := Nat.mul_le_mul_right _ h1
    _ ≤ _ := Nat.le_add_right _ _

/-- Of two digit strings without leading zeros the longer one is the larger number. -/
theorem digits_value_lt_of_length_lt (l1 l2 : CString)
    (hd1 : ∀ c ∈ l1, isdigit c = true) (hd2 : ∀ c ∈ l2, isdigit c = true)
    (h2 : ∀ c rest, l2 = c :: rest → c ≠ '0') (hlen : l1.length < l2.length) :
    digits_value l1 < digits_value l2 := by
  cases l2 with
  | nil => simp at hlen
  | cons c rest =>
    have hge := digits_value_ge c rest (hd2 c (List.mem_cons_self _ _)) (h2 c rest rfl)
    have hlt := digits_value_lt l1 hd1
    have hpow : 10 ^ l1.length ≤ 10 ^ rest.length :=
      Nat.pow_le_pow_right (by decide) (by simp at hlen; omega)
    omega

/-- On digit strings of equal length `strcmp` orders like the numbers. -/
theorem strcmp_digits (l1 : CString) :
    ∀ l2 : CString, l1.length = l2.length →
      (∀ c ∈ l1, isdigit c = true) → (∀ c ∈ l2, isdigit c = true) →
      (0 < strcmp l1 l2 ↔ digits_value l2 < digits_value l1) ∧
      (strcmp l1 l2 < 0 ↔ digits_value l1 < digits_value l2) := by
  induction l1 with
  | nil =>
    intro l2 hlen _ _
    cases l2 with
    | nil => simp [strcmp]
    | cons _ _ => simp at hlen
  | cons c1 r1 ih =>
    intro l2 hlen hd1 hd2
    cases l2 with
    | nil => simp at hlen
    | cons c2 r2 =>
      have hlen' : r1.length = r2.length := by simpa using hlen
      have hr1 : ∀ c ∈ r1, isdigit c = true := fun x hx => hd1 x (List.mem_cons_of_mem _ hx)
      have hr2 : ∀ c ∈ r2, isdigit c = true := fun x hx => hd2 x (List.mem_cons_of_mem _ hx)
      rw [digits_value_cons, digits_value_cons, hlen']
      by_cases hc : c1 = c2
      · subst hc
        have := ih r2 hlen' hr1 hr2
        simp only [strcmp, if_true]
        constructor
        · rw [this.1]; omega
        · rw [this.2]; omega
      · have h1 := isdigit_range c1 (hd1 c1 (List.mem_cons_self _ _))
        have h2 := isdigit_range c2 (hd2 c2 (List.mem_cons_self _ _))
        have hv1 := digits_value_lt r1 hr1
        have hv2 := digits_value_lt r2 hr2
        rw [hlen'] at hv1
        have hne : c1.toNat ≠ c2.toNat := by
          intro h
          apply hc
          rw [← Char.ofNat_toNat c1, ← Char.ofNat_toNat c2, h]
        simp only [strcmp, if_neg hc]
        rcases Nat.lt_or_gt_of_ne hne with hlt | hgt
        · have hmul : (c1.toNat - 48 + 1) * 10 ^ r2.length ≤ (c2.toNat - 48) * 10 ^ r2.length :=
            Nat.mul_le_mul_right _ (by omega)
          rw [Nat.add_mul, Nat.one_mul] at hmul
          constructor
          · constructor
            · intro h; omega
            · intro h; omega
          · constructor
            · intro _; omega
            · intro _; omega
        · have hmul : (c2.toNat - 48 + 1) * 10 ^ r2.length ≤ (c1.toNat - 48) * 10 ^ r2.length :=
            Nat.mul_le_mul_right _ (by omega)
          rw [Nat.add_mul, Nat.one_mul] at hmul
          constructor
          · constructor
            · intro _; omega
            · intro _; omega
          · constructor
            · intro h; omega
            · intro h; omega

theorem takeWhile_append_stop {p : Char → Bool} (m s : CString) (hm : ∀ c ∈ m, p c = true)
    (hs : ∀ c r, s = c :: r → p c = false) : (m ++ s).takeWhile p = m := by
  induction m with
  | nil =>
    cases s with
    | nil => rfl
    | cons c r => simp [List.takeWhile_cons, hs c r rfl]
  | cons c m ih =>
    simp only [List.cons_append, List.takeWhile_cons, hm c (List.mem_cons_self _ _), if_true]
    rw [ih (fun x hx => hm x (List.mem_cons_of_mem _ hx))]

theorem dropWhile_append_stop {p : Char → Bool} (m s : CString) (hm : ∀ c ∈ m, p c = true)
    (hs : ∀ c r, s = c :: r → p c = false) : (m ++ s).dropWhile p = s := by
  induction m with
  | nil =>
    cases s with
    | nil => rfl
    | cons c r => simp [List.dropWhile_cons, hs c r rfl]
  | cons c m ih =>
    simp only [List.cons_append, List.dropWhile_cons, hm c (List.mem_cons_self _ _), if_true]
    rw [ih (fun x hx => hm x (List.mem_cons_of_mem _ hx))]

theorem dropWhile_length_lt {p : Char → Bool} (l : CString) (h : l.takeWhile p ≠ []) :
    (l.dropWhile p).length < l.length := by
  have h1 : (l.takeWhile p).length + (l.dropWhile p).length = l.length := by
    rw [← List.length_append, List.takeWhile_append_dropWhile]
  have h2 : 0 < (l.takeWhile p).length := List.length_pos.2 h
  omega

theorem dropWhile_length_le {p : Char → Bool} (l : CString) :
    (l.dropWhile p).length ≤ l.length := by
  have h1 : (l.takeWhile p).length + (l.dropWhile p).length = l.length := by
    rw [← List.length_append, List.takeWhile_append_dropWhile]
  omega

theorem rpmvercmp_loop_succ (fuel : Nat) (one two : CString) :
    rpmvercmp_loop (fuel + 1) one two =
      if one ≠ [] ∧ two ≠ [] then
        if ¬ (one.dropWhile (fun c => !isalnum c) ≠ [] ∧
            two.dropWhile (fun c => !isalnum c) ≠ []) then
          some (rpmvercmp_tail (one.dropWhile (fun c => !isalnum c))
            (two.dropWhile (fun c => !isalnum c)))
        else
          match compare_segments (isdigit (char_at (one.dropWhile (fun c => !isalnum c)) 0))
              (segment (isdigit (char_at (one.dropWhile (fun c => !isalnum c)) 0))
                (one.dropWhile (fun c => !isalnum c)))
              (segment (isdigit (char_at (one.dropWhile (fun c => !isalnum c)) 0))
                (two.dropWhile (fun c => !isalnum c))) with
          | some rc => some rc
          | none =>
            rpmvercmp_loop fuel
              (segment_end (isdigit (char_at (one.dropWhile (fun c => !isalnum c)) 0))
                (one.dropWhile (fun c => !isalnum c)))
              (segment_end (isdigit (char_at (one.dropWhile (fun c => !isalnum c)) 0))
                (two.dropWhile (fun c => !isalnum c)))
      else some (rpmvercmp_tail one two) := by
  rfl

theorem compare_segments_none (isnum : Bool) (one two : CString)
    (h : compare_segments isnum one two = none) : one ≠ [] := by
  intro h1
  subst h1
  simp [compare_segments] at h

theorem segment_end_length_lt (isnum : Bool) (s : CString) (h : segment isnum s ≠ []) :
    (segment_end isnum s).length < s.length := by
  cases isnum
  · exact dropWhile_length_lt s h
  · exact dropWhile_length_lt s h

/-- The loop of `rpmvercmp` always returns when its fuel exceeds the length of
`one`. -/
theorem rpmvercmp_loop_total :
    ∀ (fuel : Nat) (one two : CString), one.length < fuel →
      ∃ r, rpmvercmp_loop fuel one two = some r := by
  intro fuel
  induction fuel with
  | zero => intro one two h; omega
  | succ fuel ih =>
    intro one two h
    rw [rpmvercmp_loop_succ]
    by_cases h1 : one ≠ [] ∧ two ≠ []
    · rw [if_pos h1]
      by_cases h2 : ¬ (one.dropWhile (fun c => !isalnum c) ≠ [] ∧
          two.dropWhile (fun c => !isalnum c) ≠ [])
      · rw [if_pos h2]; exact ⟨_, rfl⟩
      · rw [if_neg h2]
        cases hc : compare_segments (isdigit (char_at (one.dropWhile (fun c => !isalnum c)) 0))
            (segment (isdigit (char_at (one.dropWhile (fun c => !isalnum c)) 0))
              (one.dropWhile (fun c => !isalnum c)))
            (segment (isdigit (char_at (one.dropWhile (fun c => !isalnum c)) 0))
              (two.dropWhile (fun c => !isalnum c))) with
        | some rc => exact ⟨rc, rfl⟩
        | none =>
          apply ih
          have h3 := segment_end_length_lt _ _ (compare_segments_none _ _ _ hc)
          have h4 := dropWhile_length_le (p := fun c => !isalnum c) one
          omega
    · rw [if_neg h1]; exact ⟨_, rfl⟩

theorem compare_segments_digits (m n : CString) (hm : m ≠ []) (hn : n ≠ []) :
    compare_segments true m n =
      if (m.dropWhile (fun c => c == '0')).length > (n.dropWhile (fun c => c == '0')).length
      then some 1
      else if (n.dropWhile (fun c => c == '0')).length >
          (m.dropWhile (fun c => c == '0')).length then some (-1)
      else if strcmp (m.dropWhile (fun c => c == '0')) (n.dropWhile (fun c => c == '0')) ≠ 0
      then some (strcmp (m.dropWhile (fun c => c == '0')) (n.dropWhile (fun c => c == '0')))
      else none := by
  unfold compare_segments
  rw [if_neg hm, if_neg hn]
  simp only [if_true, true_and]

theorem dot_not_digit (s : CString) (hs : s = [] ∨ ∃ r, s = '.' :: r) :
    ∀ c r, s = c :: r → isdigit c = false := by
  intro c r h
  rcases hs with h0 | ⟨r0, h0⟩
  · rw [h0] at h; cases h
  · rw [h0] at h; cases h; decide

/-- The first round of the loop on two strings that start with the digit runs
`m` and `n`. -/
theorem rpmvercmp_loop_digit_runs (fuel : Nat) (m n s t : CString)
    (hm : m ≠ []) (hmd : ∀ c ∈ m, isdigit c = true)
    (hn : n ≠ []) (hnd : ∀ c ∈ n, isdigit c = true)
    (hs : ∀ c r, s = c :: r → isdigit c = false)
    (ht : ∀ c r, t = c :: r → isdigit c = false) :
    rpmvercmp_loop (fuel + 1) (m ++ s) (n ++ t) =
      match compare_segments true m n with
      | some rc => some rc
      | none => rpmvercmp_loop fuel s t := by
  have skip : ∀ (m s : CString), m ≠ [] → (∀ c ∈ m, isdigit c = true) →
      (m ++ s).dropWhile (fun c => !isalnum c) = m ++ s ∧ m ++ s ≠ [] ∧
      isdigit (char_at (m ++ s) 0) = true := by
    intro m s hm hmd
    cases m with
    | nil => exact absurd rfl hm
    | cons c m0 =>
      have hc := hmd c (List.mem_cons_self _ _)
      refine ⟨?_, by simp, ?_⟩
      · rw [List.cons_append, List.dropWhile_cons_of_neg]
        simp [isdigit_isalnum c hc]
      · simpa [char_at] using hc
  obtain ⟨e1, ne1, d1⟩ := skip m s hm hmd
  obtain ⟨e2, ne2, -⟩ := skip n t hn hnd
  rw [rpmvercmp_loop_succ, if_pos ⟨ne1, ne2⟩, e1, e2, if_neg (not_not.2 ⟨ne1, ne2⟩), d1]
  simp only [segment, segment_end, if_true, takeWhile_append_stop m s hmd hs,
    takeWhile_append_stop n t hnd ht, dropWhile_append_stop m s hmd hs,
    dropWhile_append_stop n t hnd ht]

/-- C10: numeric runs compare by magnitude and the first unequal run decides:
for non-empty digit strings `m` and `n` (leading zeros allowed) with different
values and suffixes `s`, `t` that are empty or start with `.`,
`compare_versions (m ++ s) (n ++ t)` is positive if `m` is the larger number and
negative if it is the smaller one. -/
theorem compare_versions_numeric_run (m n s t : CString)
    (hm : m ≠ []) (hmd : ∀ c ∈ m, isdigit c = true)
    (hn : n ≠ []) (hnd : ∀ c ∈ n, isdigit c = true)
    (hs : s = [] ∨ ∃ r, s = '.' :: r) (ht : t = [] ∨ ∃ r, t = '.' :: r)
    (hne : digits_value m ≠ digits_value n) :
    (digits_value n < digits_value m → 0 < compare_versions (m ++ s) (n ++ t)) ∧
    (digits_value m < digits_value n → compare_versions (m ++ s) (n ++ t) < 0) := by
  have hs' := dot_not_digit s hs
  have ht' := dot_not_digit t ht
  have hab : m ++ s ≠ n ++ t := by
    intro h
    have h1 := congrArg (List.takeWhile isdigit) h
    rw [takeWhile_append_stop m s hmd hs', takeWhile_append_stop n t hnd ht'] at h1
    exact hne (by rw [h1])
  have hm' : ∀ c ∈ m.dropWhile (fun c => c == '0'), isdigit c = true :=
    fun c hc => hmd c ((List.dropWhile_suffix _).subset hc)
  have hn' : ∀ c ∈ n.dropWhile (fun c => c == '0'), isdigit c = true :=
    fun c hc => hnd c ((List.dropWhile_suffix _).subset hc)
  have vm := digits_value_dropWhile_zero m
  have vn := digits_value_dropWhile_zero n
  unfold compare_versions rpmvercmp
  rw [if_neg hab, rpmvercmp_loop_digit_runs _ m n s t hm hmd hn hnd hs' ht',
    compare_segments_digits m n hm hn]
  by_cases h1 : (m.dropWhile (fun c => c == '0')).length >
      (n.dropWhile (fun c => c == '0')).length
  · rw [if_pos h1]
    have hlt := digits_value_lt_of_length_lt _ _ hn' hm'
      (fun c r h => dropWhile_zero_head m c r h) h1
    simp only [Option.getD_some]
    exact ⟨fun _ => by decide, fun h => by omega⟩
  · rw [if_neg h1]
    by_cases h2 : (n.dropWhile (fun c => c == '0')).length >
        (m.dropWhile (fun c => c == '0')).length
    · rw [if_pos h2]
      have hlt := digits_value_lt_of_length_lt _ _ hm' hn'
        (fun c r h => dropWhile_zero_head n c r h) h2
      simp only [Option.getD_some]
      exact ⟨fun h => by omega, fun _ => by decide⟩
    · rw [if_neg h2]
      have hlen : (m.dropWhile (fun c => c == '0')).length =
          (n.dropWhile (fun c => c == '0')).length := by omega
      obtain ⟨hpos, hneg⟩ := strcmp_digits _ _ hlen hm' hn'
      rw [vm, vn] at hpos hneg
      have hrc : strcmp (m.dropWhile (fun c => c == '0'))
          (n.dropWhile (fun c => c == '0')) ≠ 0 := by
        intro h0
        rcases Nat.lt_or_gt_of_ne hne with h | h
        · have := hneg.2 h; omega
        · have := hpos.2 h; omega
      rw [if_pos hrc]
      simp only [Option.getD_some]
      exact ⟨hpos.2, hneg.2⟩

/-- Witness for C10: `2.0` against `1.99`. -/
theorem compare_versions_numeric_run_witness :
    0 < compare_versions ("2".toList ++ ".0".toList) ("1".toList ++ ".99".toList) ∧
    compare_versions "2.0".toList "1.99".toList = 1 :=
  ⟨(compare_versions_numeric_run "2".toList "1".toList ".0".toList ".99".toList
      (by decide) (by decide) (by decide) (by decide)
      (Or.inr ⟨"0".toList, rfl⟩) (Or.inr ⟨"99".toList, rfl⟩) (by decide)).1 (by decide),
    by decide⟩

end PkgConfig

namespace PkgConfig

/-! ## Version constraints in `verify_package` (C1) -/

theorem verify_versions_round (heap : Heap) (p : Package) (req : Nat) (iter : List Nat)
    (hc : constraint_checkable heap p req = true) :
    verify_versions heap p (req :: iter) =
      if constraint_violated heap p req = true then Except.error Fatal.VersionMismatch
      else verify_versions heap p iter := by
  unfold constraint_checkable at hc
  unfold constraint_violated constraint_for
  rw [verify_versions]
  rcases Option.eq_none_or_eq_some (heap[req]?) with h1 | ⟨r, h1⟩
  · rw [h1] at hc; cases hc
  rw [h1] at hc
  simp only [h1] at hc ⊢
  rcases Option.eq_none_or_eq_some p.required_versions with h2 | ⟨table, h2⟩
  · simp [h2]
  simp only [h2] at hc ⊢
  rcases Option.eq_none_or_eq_some r.key with h3 | ⟨key, h3⟩
  · rw [h3] at hc; cases hc
  simp only [h3] at hc ⊢
  rcases Option.eq_none_or_eq_some (g_hash_table_lookup table key) with h4 | ⟨v, h4⟩
  · simp [h4]
  simp only [h4, Option.map_some'] at hc ⊢
  rcases Option.eq_none_or_eq_some (version_test v.comparison r.version v.version) with
    h5 | ⟨b, h5⟩
  · rw [h5] at hc; cases hc
  cases b <;> simp [h5]

/-- The version loop ends in `VersionMismatch` as soon as one package of the
list fails the constraint found for it, provided no round gets stuck. -/
theorem verify_versions_mismatch (heap : Heap) (p : Package) (iter : List Nat)
    (hcheck : ∀ req ∈ iter, constraint_checkable heap p req = true)
    (hviol : ∃ req ∈ iter, constraint_violated heap p req = true) :
    verify_versions heap p iter = Except.error Fatal.VersionMismatch := by
  induction iter with
  | nil => obtain ⟨req, hreq, -⟩ := hviol; simp at hreq
  | cons req iter ih =>
    rw [verify_versions_round heap p req iter (hcheck req (List.mem_cons_self _ _))]
    by_cases hv : constraint_violated heap p req = true
    · rw [if_pos hv]
    · rw [if_neg hv]
      apply ih (fun r hr => hcheck r (List.mem_cons_of_mem _ hr))
      obtain ⟨r, hr, hrv⟩ := hviol
      rcases List.mem_cons.1 hr with rfl | hr
      · exact absurd hrv hv
      · exact ⟨r, hr, hrv⟩

end PkgConfig

namespace PkgConfig

/-! ## Leftover characters and the comparison operators (C11, C12, C13) -/

theorem strcmp_self (l : CString) : strcmp l l = 0 := by
  induction l with
  | nil => rfl
  | cons c l ih => simp [strcmp, ih]

theorem compare_segments_self (isnum : Bool) (seg : CString) (h : seg ≠ []) :
    compare_segments isnum seg seg = none := by
  unfold compare_segments
  rw [if_neg h, if_neg h]
  simp [strcmp_self]

theorem takeWhile_append_of_head {p : Char → Bool} (l x : CString)
    (hx : ∀ c r, x = c :: r → p c = false) : (l ++ x).takeWhile p = l.takeWhile p := by
  induction l with
  | nil =>
    cases x with
    | nil => rfl
    | cons c r => simp [List.takeWhile_cons, hx c r rfl]
  | cons c l ih =>
    simp only [List.cons_append, List.takeWhile_cons, ih]

theorem takeWhile_append_of_mem {p : Char → Bool} (l x : CString)
    (hl : ∃ c ∈ l, p c = false) : (l ++ x).takeWhile p = l.takeWhile p := by
  induction l with
  | nil => obtain ⟨c, hc, -⟩ := hl; simp at hc
  | cons c l ih =>
    simp only [List.cons_append, List.takeWhile_cons]
    by_cases hc : p c = true
    · simp only [hc, if_true]
      obtain ⟨d, hd, hpd⟩ := hl
      rcases List.mem_cons.1 hd with rfl | hd
      · rw [hc] at hpd; cases hpd
      · rw [ih ⟨d, hd, hpd⟩]
    · simp [hc]

theorem dropWhile_append_of_takeWhile {p : Char → Bool} (l x : CString)
    (h : (l ++ x).takeWhile p = l.takeWhile p) :
    (l ++ x).dropWhile p = l.dropWhile p ++ x := by
  have h1 : (l ++ x).takeWhile p ++ (l ++ x).dropWhile p = l ++ x :=
    List.takeWhile_append_dropWhile p (l ++ x)
  have h2 : l.takeWhile p ++ l.dropWhile p = l := List.takeWhile_append_dropWhile p l
  rw [h] at h1
  conv at h1 => rhs; rw [← h2]
  rw [List.append_assoc] at h1
  exact List.append_cancel_left h1

theorem dropWhile_append_of_ne_nil {p : Char → Bool} (l x : CString)
    (h : l.dropWhile p ≠ []) : (l ++ x).dropWhile p = l.dropWhile p ++ x := by
  induction l with
  | nil => simp at h
  | cons c l ih =>
    by_cases hc : p c = true
    · rw [List.dropWhile_cons_of_pos hc] at h
      rw [List.cons_append, List.dropWhile_cons_of_pos hc, List.dropWhile_cons_of_pos hc, ih h]
    · rw [List.cons_append, List.dropWhile_cons_of_neg hc, List.dropWhile_cons_of_neg hc]
      rfl

theorem dropWhile_append_of_eq_nil {p : Char → Bool} (l x : CString)
    (h : l.dropWhile p = []) : (l ++ x).dropWhile p = x.dropWhile p := by
  induction l with
  | nil => rfl
  | cons c l ih =>
    by_cases hc : p c = true
    · rw [List.dropWhile_cons_of_pos hc] at h
      rw [List.cons_append, List.dropWhile_cons_of_pos hc, ih h]
    · rw [List.dropWhile_cons_of_neg hc] at h
      cases h

theorem dropWhile_head {p : Char → Bool} (l : CString) (c : Char) (t : CString)
    (h : l.dropWhile p = c :: t) : p c = false := by
  induction l with
  | nil => simp at h
  | cons d l ih =>
    by_cases hd : p d = true
    · rw [List.dropWhile_cons_of_pos hd] at h
      exact ih h
    · rw [List.dropWhile_cons_of_neg hd] at h
      cases h
      simpa using hd

theorem isalnum_cases (c : Char) (h : isalnum c = true) : isdigit c = true ∨ isalpha c = true := by
  unfold isalnum Char.isAlphanum at h
  unfold isdigit isalpha
  rw [Bool.or_eq_true] at h
  rcases h with h1 | h1
  · exact Or.inr h1
  · exact Or.inl h1

theorem segment_cons_ne_nil (c : Char) (t : CString) (h : isalnum c = true) :
    segment (isdigit c) (c :: t) ≠ [] := by
  unfold segment
  cases hd : isdigit c with
  | true => simp [List.takeWhile_cons, hd]
  | false =>
    have ha : isalpha c = true := by
      rcases isalnum_cases c h with h1 | h1
      · rw [hd] at h1; cases h1
      · exact h1
    simp [List.takeWhile_cons, ha]

theorem segment_append (isnum : Bool) (l x : CString)
    (h : (l ++ x).takeWhile isdigit = l.takeWhile isdigit ∧
      (l ++ x).takeWhile isalpha = l.takeWhile isalpha) :
    segment isnum (l ++ x) = segment isnum l ∧
    segment_end isnum (l ++ x) = segment_end isnum l ++ x := by
  unfold segment segment_end
  cases isnum
  · exact ⟨h.2, dropWhile_append_of_takeWhile l x h.2⟩
  · exact ⟨h.1, dropWhile_append_of_takeWhile l x h.1⟩

theorem segment_end_suffix (isnum : Bool) (l : CString) : segment_end isnum l <:+ l := by
  unfold segment_end
  cases isnum
  · exact List.dropWhile_suffix _
  · exact List.dropWhile_suffix _

/-- When the two strings are `s ++ x` and `s`, where `x` holds a letter or digit
and no segment of `s` runs on into `x`, every round finds equal segments, and at
the end the string with `x` left over is the newer one. -/
theorem rpmvercmp_loop_leftover (x : CString)
    (hx : x.dropWhile (fun c => !isalnum c) ≠ []) :
    ∀ (fuel : Nat) (s : CString),
      (∀ s', s' <:+ s → s' ≠ [] →
        (s' ++ x).takeWhile isdigit = s'.takeWhile isdigit ∧
        (s' ++ x).takeWhile isalpha = s'.takeWhile isalpha) →
      ((s ++ x).length < fuel → rpmvercmp_loop fuel (s ++ x) s = some 1) ∧
      (s.length < fuel → rpmvercmp_loop fuel s (s ++ x) = some (-1)) := by
  have hxne : x ≠ [] := by
    intro h; rw [h] at hx; exact hx rfl
  intro fuel
  induction fuel with
  | zero => intro s _; exact ⟨fun h => by omega, fun h => by omega⟩
  | succ fuel ih =>
    intro s H
    by_cases hs : s = []
    · subst hs
      constructor
      · intro _
        rw [rpmvercmp_loop_succ, if_neg (by simp)]
        simp [rpmvercmp_tail, hxne]
      · intro _
        rw [rpmvercmp_loop_succ, if_neg (by simp)]
        simp [rpmvercmp_tail, hxne]
    · have hsx : s ++ x ≠ [] := by simp [hs]
      rcases hd : s.dropWhile (fun c => !isalnum c) with _ | ⟨c, t⟩
      · have h1 := dropWhile_append_of_eq_nil s x hd
        constructor
        · intro _
          rw [rpmvercmp_loop_succ, if_pos ⟨hsx, hs⟩, h1, hd, if_pos (by simp)]
          simp [rpmvercmp_tail, hx]
        · intro _
          rw [rpmvercmp_loop_succ, if_pos ⟨hs, hsx⟩, h1, hd, if_pos (by simp)]
          simp [rpmvercmp_tail, hx]
      · have hne : s.dropWhile (fun c => !isalnum c) ≠ [] := by rw [hd]; simp
        have h1 := dropWhile_append_of_ne_nil s x hne
        rw [hd] at h1
        have hsuf : (c :: t) <:+ s := hd ▸ List.dropWhile_suffix _
        have hc : isalnum c = true := by
          have := dropWhile_head s c t hd
          simpa using this
        have hH := H (c :: t) hsuf (by simp)
        obtain ⟨hseg, hend⟩ := segment_append (isdigit c) (c :: t) x hH
        have hsegne := segment_cons_ne_nil c t hc
        have hcmp := compare_segments_self (isdigit c) _ hsegne
        have hlen1 : (segment_end (isdigit c) (c :: t)).length < (c :: t).length :=
          segment_end_length_lt _ _ hsegne
        have hlen2 : (c :: t).length ≤ s.length := hsuf.length_le
        have hH' : ∀ s', s' <:+ segment_end (isdigit c) (c :: t) → s' ≠ [] →
            (s' ++ x).takeWhile isdigit = s'.takeWhile isdigit ∧
            (s' ++ x).takeWhile isalpha = s'.takeWhile isalpha :=
          fun s' hs' hne' => H s' ((hs'.trans (segment_end_suffix _ _)).trans hsuf) hne'
        obtain ⟨ih1, ih2⟩ := ih (segment_end (isdigit c) (c :: t)) hH'
        have hch1 : char_at (c :: t ++ x) 0 = c := rfl
        have hch2 : char_at (c :: t) 0 = c := rfl
        have hnn : ¬ ¬ (c :: t ++ x ≠ [] ∧ c :: t ≠ []) := by simp
        have hnn2 : ¬ ¬ (c :: t ≠ [] ∧ c :: t ++ x ≠ []) := by simp
        constructor
        · intro hf
          rw [rpmvercmp_loop_succ, if_pos ⟨hsx, hs⟩, h1, hd, if_neg hnn, hch1, hseg, hend, hcmp]
          apply ih1
          simp only [List.length_append, List.length_cons] at hf hlen1 hlen2 ⊢
          omega
        · intro hf
          rw [rpmvercmp_loop_succ, if_pos ⟨hs, hsx⟩, h1, hd, if_neg hnn2, hch2, hseg, hend, hcmp]
          apply ih2
          simp only [List.length_cons] at hlen1 hlen2 ⊢
          omega

theorem isalpha_not_isdigit (c : Char) (h : isalpha c = true) : isdigit c = false := by
  unfold isalpha Char.isAlpha Char.isUpper Char.isLower at h
  unfold isdigit Char.isDigit
  simp only [ge_iff_le, Bool.or_eq_true, Bool.and_eq_true, decide_eq_true_eq] at h
  simp only [ge_iff_le, Bool.and_eq_false_imp, decide_eq_true_eq, decide_eq_false_iff_not]
  intro h1 h2
  have e1 : (48 : UInt32).toNat = 48 := rfl
  have a1 : c.val.toNat ≤ 57 := h2
  rcases h with h | h
  · have a2 : 65 ≤ c.val.toNat := h.1
    omega
  · have a2 : 97 ≤ c.val.toNat := h.1
    omega

theorem isdigit_not_isalpha (c : Char) (h : isdigit c = true) : isalpha c = false := by
  cases ha : isalpha c with
  | false => rfl
  | true => rw [isalpha_not_isdigit c ha] at h; cases h

theorem mem_of_suffix_snoc (a0 s' : CString) (d : Char) (hs : s' <:+ a0 ++ [d])
    (hne : s' ≠ []) : d ∈ s' := by
  have h1 : s'.reverse <+: (a0 ++ [d]).reverse := List.reverse_prefix.2 hs
  rw [List.reverse_append, List.reverse_singleton, List.singleton_append,
    List.prefix_cons_iff] at h1
  rcases h1 with h1 | ⟨t, h1, -⟩
  · exact absurd (List.reverse_eq_nil_iff.1 h1) hne
  · have : d ∈ s'.reverse := by rw [h1]; exact List.mem_cons_self _ _
    exact List.mem_reverse.1 this

theorem compare_versions_of_loop (a b : CString) (r : Int) (hab : a ≠ b)
    (h : rpmvercmp_loop (a.length + 1) a b = some r) : compare_versions a b = r := by
  unfold compare_versions rpmvercmp
  rw [if_neg hab, h]
  rfl

/-- C11, the claim as stated fails: `compare_versions` of `1.0a` and `1.0` is 1,
not negative. -/
theorem compare_versions_trailing_alpha_not_below :
    compare_versions "1.0a".toList "1.0".toList = 1 ∧
    ¬ (compare_versions "1.0a".toList "1.0".toList < 0) := by
  decide

/-- C11 as amended: a version that continues with a trailing alphabetic run `r`
after a version `a0 ++ [d]` ending in a digit, all shared runs comparing equal,
ranks above the shorter, exhausted version; in particular `compare_versions` of
`1.0a` and `1.0` is positive. -/
theorem compare_versions_trailing_alpha (a0 : CString) (d : Char) (r : CString)
    (hd : isdigit d = true) (hr : r ≠ []) (hra : ∀ c ∈ r, isalpha c = true) :
    0 < compare_versions (a0 ++ [d] ++ r) (a0 ++ [d]) ∧
    compare_versions (a0 ++ [d]) (a0 ++ [d] ++ r) < 0 ∧
    0 < compare_versions "1.0a".toList "1.0".toList := by
  obtain ⟨c0, r0, rfl⟩ := List.exists_cons_of_ne_nil hr
  have hc0 : isalpha c0 = true := hra c0 (List.mem_cons_self _ _)
  have hc0n : isalnum c0 = true := by
    unfold isalnum Char.isAlphanum
    unfold isalpha at hc0
    simp [hc0]
  have hx : (c0 :: r0).dropWhile (fun c => !isalnum c) ≠ [] := by
    rw [List.dropWhile_cons_of_neg (by simp [hc0n])]; simp
  have hH : ∀ s', s' <:+ a0 ++ [d] → s' ≠ [] →
      (s' ++ c0 :: r0).takeWhile isdigit = s'.takeWhile isdigit ∧
      (s' ++ c0 :: r0).takeWhile isalpha = s'.takeWhile isalpha := by
    intro s' hs' hne
    refine ⟨takeWhile_append_of_head s' _ ?_, takeWhile_append_of_mem s' _ ?_⟩
    · intro c r h; cases h; exact isalpha_not_isdigit _ hc0
    · exact ⟨d, mem_of_suffix_snoc a0 s' d hs' hne, isdigit_not_isalpha d hd⟩
  have hne1 : a0 ++ [d] ++ c0 :: r0 ≠ a0 ++ [d] := by
    intro h
    have := congrArg List.length h
    simp at this
  obtain ⟨h1, h2⟩ := rpmvercmp_loop_leftover (c0 :: r0) hx
    ((a0 ++ [d] ++ c0 :: r0).length + 1) (a0 ++ [d]) hH
  obtain ⟨-, h3⟩ := rpmvercmp_loop_leftover (c0 :: r0) hx ((a0 ++ [d]).length + 1) (a0 ++ [d]) hH
  refine ⟨?_, ?_, by decide⟩
  · rw [compare_versions_of_loop _ _ 1 hne1 (h1 (Nat.lt_succ_self _))]
    decide
  · rw [compare_versions_of_loop _ _ (-1) (fun h => hne1 h.symm) (h3 (Nat.lt_succ_self _))]
    decide

/-- Witness for C11 as amended: `1.0a` is `1.` followed by the digit `0` and the
alphabetic run `a`. -/
theorem compare_versions_trailing_alpha_witness :
    0 < compare_versions ("1.".toList ++ ['0'] ++ "a".toList) ("1.".toList ++ ['0']) ∧
    "1.".toList ++ ['0'] ++ "a".toList = "1.0a".toList :=
  ⟨(compare_versions_trailing_alpha "1.".toList '0' "a".toList (by decide) (by decide)
      (by decide)).1, by decide⟩

/-- C12: leftover wins: for every version string `a` and every non-empty run `r`
of letters or digits, `compare_versions` of `a ++ "." ++ r` and `a` is positive
and that of `a` and `a ++ "." ++ r` is negative. -/
theorem compare_versions_leftover_wins (a r : CString) (hr : r ≠ [])
    (hrd : ∀ c ∈ r, isalnum c = true) :
    0 < compare_versions (a ++ ".".toList ++ r) a ∧
    compare_versions a (a ++ ".".toList ++ r) < 0 := by
  obtain ⟨c0, r0, rfl⟩ := List.exists_cons_of_ne_nil hr
  have hc0 : isalnum c0 = true := hrd c0 (List.mem_cons_self _ _)
  have hx : ('.' :: c0 :: r0).dropWhile (fun c => !isalnum c) ≠ [] := by
    rw [List.dropWhile_cons_of_pos (by decide), List.dropWhile_cons_of_neg (by simp [hc0])]
    simp
  have hH : ∀ s', s' <:+ a → s' ≠ [] →
      (s' ++ '.' :: c0 :: r0).takeWhile isdigit = s'.takeWhile isdigit ∧
      (s' ++ '.' :: c0 :: r0).takeWhile isalpha = s'.takeWhile isalpha := by
    intro s' _ _
    refine ⟨takeWhile_append_of_head s' _ ?_, takeWhile_append_of_head s' _ ?_⟩
    · intro c r h; cases h; decide
    · intro c r h; cases h; decide
  have hne1 : a ++ '.' :: c0 :: r0 ≠ a := by
    intro h
    have := congrArg List.length h
    simp at this
  have hshape : a ++ ".".toList ++ c0 :: r0 = a ++ '.' :: c0 :: r0 := by
    show a ++ ['.'] ++ c0 :: r0 = a ++ '.' :: c0 :: r0
    simp
  rw [hshape]
  obtain ⟨h1, -⟩ := rpmvercmp_loop_leftover ('.' :: c0 :: r0) hx
    ((a ++ '.' :: c0 :: r0).length + 1) a hH
  obtain ⟨-, h3⟩ := rpmvercmp_loop_leftover ('.' :: c0 :: r0) hx (a.length + 1) a hH
  constructor
  · rw [compare_versions_of_loop _ _ 1 hne1 (h1 (Nat.lt_succ_self _))]
    decide
  · rw [compare_versions_of_loop _ _ (-1) (fun h => hne1 h.symm) (h3 (Nat.lt_succ_self _))]
    decide

/-- Witness for C12: `1.0.1` against `1.0`. -/
theorem compare_versions_leftover_wins_witness :
    0 < compare_versions ("1.0".toList ++ ".".toList ++ "1".toList) "1.0".toList ∧
    "1.0".toList ++ ".".toList ++ "1".toList = "1.0.1".toList :=
  ⟨(compare_versions_leftover_wins "1.0".toList "1".toList (by decide) (by decide)).1,
    by decide⟩

/-- C13: `version_test` agrees with `compare_versions` for every operator:
`ALWAYS_MATCH` holds whatever the operands, and each of the six comparisons
holds exactly when `compare_versions a b` stands in that relation to 0. -/
theorem version_test_agrees (a b : CString) :
    (∀ x y : Option CString, version_test ComparisonType.ALWAYS_MATCH x y = some true) ∧
    (version_test ComparisonType.LESS_THAN (some a) (some b) = some true ↔
      compare_versions a b < 0) ∧
    (version_test ComparisonType.GREATER_THAN (some a) (some b) = some true ↔
      compare_versions a b > 0) ∧
    (version_test ComparisonType.LESS_THAN_EQUAL (some a) (some b) = some true ↔
      compare_versions a b ≤ 0) ∧
    (version_test ComparisonType.GREATER_THAN_EQUAL (some a) (some b) = some true ↔
      compare_versions a b ≥ 0) ∧
    (version_test ComparisonType.EQUAL (some a) (some b) = some true ↔
      compare_versions a b = 0) ∧
    (version_test ComparisonType.NOT_EQUAL (some a) (some b) = some true ↔
      compare_versions a b ≠ 0) ∧
    (∀ op, ∃ v, version_test op (some a) (some b) = some v) := by
  refine ⟨fun _ _ => rfl, ?_, ?_, ?_, ?_, ?_, ?_, ?_⟩
  · simp [version_test]
  · simp [version_test]
  · simp [version_test]
  · simp [version_test]
  · simp [version_test]
  · simp [version_test]
  · intro op
    cases op <;> exact ⟨_, rfl⟩

end PkgConfig

namespace PkgConfig

/-! ## System directories in `verify_package` (C16, C17) -/

theorem toNat_eq_zero (c : Char) (h : c.toNat = 0) : c = Char.ofNat 0 := by
  have h2 : Char.ofNat c.toNat = c := Char.ofNat_toNat c
  rw [h] at h2
  exact h2.symm

theorem toNat_injective (c1 c2 : Char) (h : c1.toNat = c2.toNat) : c1 = c2 := by
  rw [← Char.ofNat_toNat c1, ← Char.ofNat_toNat c2, h]

/-- On strings without NUL `strcmp` returns 0 exactly for equal strings. -/
theorem strcmp_eq_zero_iff (a : CString) :
    ∀ b : CString, is_c_string a → is_c_string b → (strcmp a b = 0 ↔ a = b) := by
  induction a with
  | nil =>
    intro b _ hb
    cases b with
    | nil => simp [strcmp]
    | cons c r =>
      simp only [strcmp, zero_sub, neg_eq_zero, Nat.cast_eq_zero]
      constructor
      · intro h
        exact absurd (toNat_eq_zero c h ▸ List.mem_cons_self _ _) hb
      · intro h; cases h
  | cons c1 r1 ih =>
    intro b ha hb
    cases b with
    | nil =>
      simp only [strcmp, Nat.cast_eq_zero]
      constructor
      · intro h
        exact absurd (toNat_eq_zero c1 h ▸ List.mem_cons_self _ _) ha
      · intro h; cases h
    | cons c2 r2 =>
      have ha' : is_c_string r1 := fun h => ha (List.mem_cons_of_mem _ h)
      have hb' : is_c_string r2 := fun h => hb (List.mem_cons_of_mem _ h)
      by_cases hc : c1 = c2
      · subst hc
        simp only [strcmp, if_true, ih r2 ha' hb', List.cons.injEq, true_and]
      · simp only [strcmp, if_neg hc, List.cons.injEq, hc, false_and, iff_false]
        intro h
        apply hc
        apply toNat_injective
        exact_mod_cast sub_eq_zero.1 h

theorem filterMap_erase_none (l : List (Option CString)) :
    (g_slist_remove l none).filterMap id = l.filterMap id := by
  induction l with
  | nil => rfl
  | cons x rest ih =>
    cases x with
    | none =>
      have h : g_slist_remove (none :: rest) (none : Option CString) = rest := rfl
      rw [h]
      rfl
    | some v =>
      have h : g_slist_remove (some v :: rest) (none : Option CString) =
          some v :: g_slist_remove rest none := rfl
      rw [h]
      simp only [List.filterMap_cons, id_eq]
      rw [ih]

theorem filterMap_iterate_erase (n : Nat) :
    ∀ l : List (Option CString),
      (Nat.iterate (fun l => g_slist_remove l none) n l).filterMap id = l.filterMap id := by
  induction n with
  | zero => intro l; rfl
  | succ n ih =>
    intro l
    rw [Function.iterate_succ_apply, ih, filterMap_erase_none]

/-- The two removal loops leave the entries that have not been set to `NULL`,
in their order. -/
theorem remove_marked_eq (l : List (Option CString)) : remove_marked l = l.filterMap id := by
  unfold remove_marked
  exact filterMap_iterate_erase _ l

theorem remove_marked_map (mark : CString → Option CString) (toks : List CString)
    (hmark : ∀ t, mark t = none ∨ mark t = some t) :
    remove_marked (toks.map mark) = toks.filter (fun t => (mark t).isSome) := by
  rw [remove_marked_eq]
  induction toks with
  | nil => rfl
  | cons t rest ih =>
    rcases hmark t with h | h
    · simp [List.filter_cons, h, ih]
    · simp [List.filter_cons, h, ih]

theorem include_offset (t : CString) :
    (if strncmp_eq t "-I".toList 2 = true then 2
      else if strncmp_eq t "-I ".toList 3 = true then 3 else 0) =
    (if t.take 2 = ['-', 'I'] then 2 else 0) := by
  have h2 : "-I".toList.take 2 = ['-', 'I'] := rfl
  have h3 : "-I ".toList.take 3 = ['-', 'I', ' '] := rfl
  unfold strncmp_eq
  simp only [h2, h3, decide_eq_true_eq]
  by_cases hp : t.take 2 = ['-', 'I']
  · rw [if_pos hp, if_pos hp]
  · have hp3 : ¬ t.take 3 = ['-', 'I', ' '] := by
      intro h
      apply hp
      match t, h with
      | [], h => simp at h
      | [_], h => simp at h
      | [_, _], h => simp at h
      | a :: b :: c :: r, h =>
        simp only [List.take_succ_cons, List.take_zero, List.cons.injEq, and_true] at h ⊢
        exact ⟨h.1, h.2.1⟩
    rw [if_neg hp, if_neg hp3, if_neg hp]

theorem mark_system_include_eq (env : Env) (dirs : List CString) (t : CString) :
    mark_system_include env dirs t =
      if t.take 2 = ['-', 'I'] ∧
          (dirs.any (fun dir => decide (strcmp dir (t.drop 2) = 0))) = true ∧
          env.getenv "PKG_CONFIG_ALLOW_SYSTEM_CFLAGS".toList = none then none
      else some t := by
  unfold mark_system_include
  simp only [include_offset]
  by_cases hp : t.take 2 = ['-', 'I']
  · simp [hp]
  · simp [hp]

theorem mark_system_include_cases (env : Env) (dirs : List CString) (t : CString) :
    mark_system_include env dirs t = none ∨ mark_system_include env dirs t = some t := by
  rw [mark_system_include_eq]
  split_ifs
  · exact Or.inl rfl
  · exact Or.inr rfl

/-- The include flag `t` is set to `NULL` exactly when it is `-I` directly
followed by a system directory and the override variable is not set. -/
theorem mark_system_include_none (env : Env) (dirs : List CString) (t : CString)
    (ht : is_c_string t) (hd : ∀ d ∈ dirs, is_c_string d) :
    mark_system_include env dirs t = none ↔
      t ∈ dirs.map (fun d => "-I".toList ++ d) ∧
      env.getenv "PKG_CONFIG_ALLOW_SYSTEM_CFLAGS".toList = none := by
  have hI : "-I".toList = ['-', 'I'] := rfl
  have hdrop : is_c_string (t.drop 2) := fun h => ht (List.mem_of_mem_drop h)
  rw [mark_system_include_eq, hI]
  simp only [List.any_eq_true, decide_eq_true_eq, List.mem_map]
  constructor
  · intro h
    split_ifs at h with hc
    obtain ⟨hp, ⟨d, hdm, hcmp⟩, hallow⟩ := hc
    refine ⟨⟨d, hdm, ?_⟩, hallow⟩
    have := (strcmp_eq_zero_iff d (t.drop 2) (hd d hdm) hdrop).1 hcmp
    rw [this, ← hp, List.take_append_drop]
  · rintro ⟨⟨d, hdm, rfl⟩, hallow⟩
    rw [if_pos]
    refine ⟨by simp, ⟨d, hdm, ?_⟩, hallow⟩
    exact (strcmp_eq_zero_iff d _ (hd d hdm) hdrop).2 (by simp)

/-- What a successful `verify_package` has checked and what it returns. -/
theorem verify_package_ok (env : Env) (reg reg' : Registry) (pkg : Nat)
    (h : verify_package env reg pkg = Except.ok reg') :
    ∃ p chain1 requires,
      reg.heap[pkg]? = some p ∧
      verify_fields p = Except.ok () ∧
      verify_versions reg.heap p p.requires_private = Except.ok () ∧
      recursive_fill_list reg.heap get_requires_private (reg.heap.length + 1) pkg
        (reg.chain, []) = some (chain1, requires) ∧
      verify_conflicts reg.heap (get_conflicts p) requires = Except.ok () ∧
      reg' = { reg with
        heap := reg.heap.set pkg { p with
          I_cflags := remove_marked
            (p.I_cflags.map (mark_system_include env (system_include_directories env))),
          L_libs := remove_marked
            (p.L_libs.map (mark_system_library env (system_library_directories env))) },
        chain := chain1 } := by
  unfold verify_package at h
  rcases Option.eq_none_or_eq_some (reg.heap[pkg]?) with h1 | ⟨p, h1⟩
  · rw [h1] at h; cases h
  rw [h1] at h
  simp only at h
  rcases hf : verify_fields p with e | u
  · rw [hf] at h; cases h
  rw [hf] at h
  simp only at h
  rcases hv : verify_versions reg.heap p p.requires_private with e | u2
  · rw [hv] at h; cases h
  rw [hv] at h
  simp only at h
  rcases Option.eq_none_or_eq_some (recursive_fill_list reg.heap get_requires_private
    (reg.heap.length + 1) pkg (reg.chain, [])) with hr | ⟨⟨chain1, requires⟩, hr⟩
  · rw [hr] at h; cases h
  rw [hr] at h
  simp only at h
  rcases hc : verify_conflicts reg.heap (get_conflicts p) requires with e | u3
  · rw [hc] at h; cases h
  rw [hc] at h
  simp only [Except.ok.injEq] at h
  exact ⟨p, chain1, requires, h1, hf, hv, hr, hc, h.symm⟩

theorem getElem?_pos_of_some {α : Type} (l : List α) (i : Nat) (x : α) (h : l[i]? = some x) :
    i < l.length := by
  rcases Nat.lt_or_ge i l.length with h1 | h1
  · exact h1
  · rw [List.getElem?_eq_none h1] at h; cases h

/-- C16: when `PKG_CONFIG_ALLOW_SYSTEM_CFLAGS` is not set, after a successful
`verify_package` the `I_cflags` of the package are the original ones without
the tokens that are `-I` directly followed by a directory of the include
allowlist, all other tokens kept in their order; when the variable is set,
`I_cflags` is unchanged. -/
theorem system_include_stripping (env : Env) (reg reg' : Registry) (pkg : Nat) (p : Package)
    (hp : reg.heap[pkg]? = some p)
    (hok : verify_package env reg pkg = Except.ok reg')
    (htok : ∀ t ∈ p.I_cflags, is_c_string t)
    (hdirs : ∀ d ∈ system_include_directories env, is_c_string d) :
    ∃ p', reg'.heap[pkg]? = some p' ∧
      p'.I_cflags =
        if env.getenv "PKG_CONFIG_ALLOW_SYSTEM_CFLAGS".toList = none then
          p.I_cflags.filter (fun t =>
            decide (t ∉ (system_include_directories env).map (fun d => "-I".toList ++ d)))
        else p.I_cflags := by
  obtain ⟨p1, chain1, requires, h1, -, -, -, -, hreg⟩ := verify_package_ok env reg reg' pkg hok
  rw [hp] at h1
  cases h1
  have hlt := getElem?_pos_of_some _ _ _ hp
  have hheap : reg'.heap[pkg]? = some { p with
      I_cflags := remove_marked
        (p.I_cflags.map (mark_system_include env (system_include_directories env))),
      L_libs := remove_marked
        (p.L_libs.map (mark_system_library env (system_library_directories env))) } := by
    rw [hreg]; simp [List.getElem?_set, hlt]
  refine ⟨_, hheap, ?_⟩
  simp only
  rw [remove_marked_map _ _ (mark_system_include_cases env _)]
  by_cases hallow : env.getenv "PKG_CONFIG_ALLOW_SYSTEM_CFLAGS".toList = none
  · rw [if_pos hallow]
    apply List.filter_congr
    intro t ht
    have hiff := mark_system_include_none env (system_include_directories env) t
      (htok t ht) hdirs
    by_cases hm : t ∈ (system_include_directories env).map (fun d => "-I".toList ++ d)
    · have : mark_system_include env (system_include_directories env) t = none :=
        hiff.2 ⟨hm, hallow⟩
      rw [this]
      exact (decide_eq_false (not_not_intro hm)).symm
    · have hne : mark_system_include env (system_include_directories env) t ≠ none :=
        fun h => hm (hiff.1 h).1
      rcases mark_system_include_cases env (system_include_directories env) t with h | h
      · exact absurd h hne
      · rw [h]
        exact (decide_eq_true hm).symm
  · rw [if_neg hallow]
    apply List.filter_eq_self.2
    intro t ht
    have hiff := mark_system_include_none env (system_include_directories env) t
      (htok t ht) hdirs
    rcases mark_system_include_cases env (system_include_directories env) t with h | h
    · exact absurd (hiff.1 h).2 hallow
    · rw [h]; rfl

/-- Witness for C16: with `/usr/include` as the only system include directory
and the variable not set, `-I/usr/include` is taken out of the flags
`-I/usr/include`, `-I /usr/include`, `-I/opt/x`; with the variable set, nothing
is. -/
theorem system_include_stripping_witness :
    (∃ p', registry_system_flags_verified.heap[0]? = some p' ∧
      p'.I_cflags =
        if example_env.getenv "PKG_CONFIG_ALLOW_SYSTEM_CFLAGS".toList = none then
          (registry_system_flags.heap.get ⟨0, by decide⟩).I_cflags.filter (fun t =>
            decide (t ∉ (system_include_directories example_env).map
              (fun d => "-I".toList ++ d)))
        else (registry_system_flags.heap.get ⟨0, by decide⟩).I_cflags) ∧
    registry_system_flags_verified.heap.map (fun p => p.I_cflags) =
      [["-I /usr/include".toList, "-I/opt/x".toList]] ∧
    (verify_package example_env_allow_cflags registry_system_flags 0).map
        (fun r => r.heap.map (fun p => p.I_cflags)) =
      Except.ok [["-I/usr/include".toList, "-I /usr/include".toList, "-I/opt/x".toList]] :=
  ⟨system_include_stripping example_env registry_system_flags registry_system_flags_verified 0
      (registry_system_flags.heap.get ⟨0, by decide⟩) (by rfl) (by rfl) (by decide) (by decide),
    by rfl, by rfl⟩

/-- C17, the code at the failing input: with `/usr/include` and `/usr/lib` as
system directories and no override variable set, `verify_package` takes out
`-I/usr/include`, `-L/usr/lib` and the split form `-L /usr/lib`, but keeps the
split form `-I /usr/include`: in the condition of pkg.c 882-883 the test for
`-I` succeeds first and leaves `offset` at 2, so the directory is compared with
the text after `-I`, which starts with the space. -/
theorem split_form_include_not_stripped :
    system_include_directories example_env = ["/usr/include".toList] ∧
    system_library_directories example_env = ["/usr/lib".toList] ∧
    (verify_package example_env registry_system_flags 0).map
        (fun r => r.heap.map (fun p => (p.I_cflags, p.L_libs))) =
      Except.ok [(["-I /usr/include".toList, "-I/opt/x".toList], ["-L/opt/x".toList])] ∧
    mark_system_include example_env ["/usr/include".toList] "-I /usr/include".toList =
      some "-I /usr/include".toList ∧
    mark_system_library example_env ["/usr/lib".toList] "-L /usr/lib".toList = none := by
  refine ⟨by decide, by decide, by rfl, by decide, by decide⟩

end PkgConfig


namespace PkgConfig

/-- What `conflicts_checkable` says, as a proposition. -/
theorem conflicts_checkable_spec {conflicts : List RequiredVersion} {r : Package}
    (h : conflicts_checkable conflicts r = true) :
    ∃ key, r.key = some key ∧ is_c_string key ∧
      ∀ c ∈ conflicts, is_c_string c.name ∧
        (c.name = key → (version_test c.comparison r.version c.version).isSome = true) := by
  unfold conflicts_checkable at h
  rcases Option.eq_none_or_eq_some r.key with hk | ⟨key, hk⟩
  · simp [hk] at h
  · simp only [hk, Bool.and_eq_true, decide_eq_true_eq, List.all_eq_true, Bool.or_eq_true] at h
    refine ⟨key, hk, h.1, fun c hc => ⟨(h.2 c hc).1, fun hname => ?_⟩⟩
    rcases (h.2 c hc).2 with h1 | h1
    · exact absurd hname h1
    · exact h1

/-- The inner conflict loop either finds an entry named like the package whose
comparison holds, and ends in `ConflictDetected`, or finds none and returns. -/
theorem verify_conflicts_of_spec (r : Package) (key : CString) (hk : r.key = some key)
    (hkc : is_c_string key) :
    ∀ conflicts : List RequiredVersion,
      (∀ c ∈ conflicts, is_c_string c.name ∧
        (c.name = key → (version_test c.comparison r.version c.version).isSome = true)) →
      (verify_conflicts_of r conflicts = Except.error Fatal.ConflictDetected ∧
        ∃ c ∈ conflicts, c.name = key ∧
          version_test c.comparison r.version c.version = some true) ∨
      (verify_conflicts_of r conflicts = Except.ok () ∧
        ¬ ∃ c ∈ conflicts, c.name = key ∧
          version_test c.comparison r.version c.version = some true) := by
  intro conflicts
  induction conflicts with
  | nil => intro _; right; exact ⟨rfl, by simp⟩
  | cons ver rest ih =>
    intro hall
    have hver := hall ver (List.mem_cons_self _ _)
    have hrest := ih (fun c hc => hall c (List.mem_cons_of_mem _ hc))
    have hstep : ∀ (hno : ¬ (ver.name = key ∧
        version_test ver.comparison r.version ver.version = some true)),
        verify_conflicts_of r (ver :: rest) = verify_conflicts_of r rest := by
      intro hno
      simp only [verify_conflicts_of, hk]
      by_cases hname : ver.name = key
      · have h0 : strcmp ver.name key = 0 := (strcmp_eq_zero_iff _ _ hver.1 hkc).2 hname
        rw [if_pos h0]
        obtain ⟨b, hb⟩ := Option.isSome_iff_exists.1 (hver.2 hname)
        cases b with
        | true => exact absurd ⟨hname, hb⟩ hno
        | false => rw [hb]
      · have h0 : ¬ strcmp ver.name key = 0 :=
          fun h => hname ((strcmp_eq_zero_iff _ _ hver.1 hkc).1 h)
        rw [if_neg h0]
    by_cases hhit : ver.name = key ∧
        version_test ver.comparison r.version ver.version = some true
    · left
      refine ⟨?_, ver, List.mem_cons_self _ _, hhit⟩
      simp only [verify_conflicts_of, hk]
      rw [if_pos ((strcmp_eq_zero_iff _ _ hver.1 hkc).2 hhit.1), hhit.2]
    · rw [hstep hhit]
      rcases hrest with ⟨h1, c, hc, h2⟩ | ⟨h1, h2⟩
      · left; exact ⟨h1, c, List.mem_cons_of_mem _ hc, h2⟩
      · right
        refine ⟨h1, ?_⟩
        rintro ⟨c, hc, h3⟩
        rcases List.mem_cons.1 hc with rfl | hc
        · exact hhit h3
        · exact h2 ⟨c, hc, h3⟩

/-- The outer conflict loop either finds a listed package with a matching
conflict entry, and ends in `ConflictDetected`, or finds none and returns. -/
theorem verify_conflicts_spec (heap : Heap) (conflicts : List RequiredVersion) :
    ∀ requires : List Nat,
      (∀ q ∈ requires, ∃ r, heap[q]? = some r ∧ conflicts_checkable conflicts r = true) →
      (verify_conflicts heap conflicts requires = Except.error Fatal.ConflictDetected ∧
        ∃ q ∈ requires, ∃ r, heap[q]? = some r ∧ ∃ c ∈ conflicts, r.key = some c.name ∧
          version_test c.comparison r.version c.version = some true) ∨
      (verify_conflicts heap conflicts requires = Except.ok () ∧
        ¬ ∃ q ∈ requires, ∃ r, heap[q]? = some r ∧ ∃ c ∈ conflicts, r.key = some c.name ∧
          version_test c.comparison r.version c.version = some true) := by
  intro requires
  induction requires with
  | nil => intro _; right; exact ⟨rfl, by simp⟩
  | cons q rest ih =>
    intro hall
    obtain ⟨r, hr, hchk⟩ := hall q (List.mem_cons_self _ _)
    obtain ⟨key, hk, hkc, hcs⟩ := conflicts_checkable_spec hchk
    have hrest := ih (fun x hx => hall x (List.mem_cons_of_mem _ hx))
    rcases verify_conflicts_of_spec r key hk hkc conflicts hcs with
      ⟨h1, c, hc, hname, hvt⟩ | ⟨h1, h2⟩
    · left
      refine ⟨?_, q, List.mem_cons_self _ _, r, hr, c, hc, by rw [hk, hname], hvt⟩
      simp only [verify_conflicts, hr, h1]
    · have hstep : verify_conflicts heap conflicts (q :: rest) =
          verify_conflicts heap conflicts rest := by
        simp only [verify_conflicts, hr, h1]
      rw [hstep]
      rcases hrest with ⟨h3, x, hx, h4⟩ | ⟨h3, h4⟩
      · left; exact ⟨h3, x, List.mem_cons_of_mem _ hx, h4⟩
      · right
        refine ⟨h3, ?_⟩
        rintro ⟨x, hx, r1, hr1, c, hc, hkey, hvt⟩
        rcases List.mem_cons.1 hx with rfl | hx
        · rw [hr] at hr1
          cases hr1
          rw [hk] at hkey
          exact h2 ⟨c, hc, (Option.some.inj hkey).symm, hvt⟩
        · exact h4 ⟨x, hx, r1, hr1, c, hc, hkey, hvt⟩

/-- The closure list `verify_package` builds for the package `pkg` when the
chain is empty: the traversal returns, and the list holds exactly the packages
reachable from `pkg` over `requires_private`. -/
theorem requires_private_closure (heap : Heap) (pkg : Nat) (hpkg : pkg < heap.length)
    (hv : ∀ p ∈ heap, ∀ q ∈ get_requires_private p, q < heap.length) :
    ∃ requires, recursive_fill_list heap get_requires_private (heap.length + 1) pkg ([], []) =
        some ([], requires) ∧
      ∀ x, x ∈ requires ↔ Reachable heap get_requires_private pkg x := by
  obtain ⟨requires, hreq⟩ := recursive_fill_list_total heap get_requires_private hv
    (heap.length + 1) pkg [] [] hpkg (Nat.lt_succ_of_le (unvisited_le heap []))
  refine ⟨requires, hreq, fun x => ⟨fun hx => ?_, fun hx => ?_⟩⟩
  · obtain ⟨_, new, hnew, hall⟩ := recursive_fill_list_sound heap get_requires_private _ _ _ _ hreq
    simp only [List.append_nil] at hnew
    exact (hall x (hnew ▸ hx)).2
  · exact recursive_fill_list_complete heap get_requires_private _ _ _ _ hreq x
      (ReachAvoid.of_reachable hx)

/-- A package reachable from a package of the heap is in the heap, when the
pointers of the heap are valid. -/
theorem reachable_lt (heap : Heap) (func : Package → List Nat)
    (hv : ∀ p ∈ heap, ∀ q ∈ func p, q < heap.length) {pkg x : Nat} (hpkg : pkg < heap.length)
    (h : Reachable heap func pkg x) : x < heap.length := by
  induction h with
  | refl => exact hpkg
  | tail _ hedge _ =>
    obtain ⟨r, hr, hx⟩ := hedge
    exact hv r (List.getElem?_mem hr) _ hx

/-- C15: conflict detection.  For a package `p` at `pkg` that has passed the
field check and the version check, with the pointers of the heap valid, the
static chain empty and no `NULL` read by the conflict loop, `verify_package`
ends in the fatal error `ConflictDetected` if and only if some package `q`
reachable from `pkg` over `requires_private` (the closure holds `pkg` itself)
and some entry `c` of `p.conflicts` have `c.name = q.key` and
`version_test (c.comparison, q.version, c.version)` true; and if it does not
end so, it returns. -/
theorem conflict_detection (env : Env) (reg : Registry) (pkg : Nat) (p : Package)
    (hp : reg.heap[pkg]? = some p) (hchain : reg.chain = [])
    (hvalid : ∀ q ∈ reg.heap, ∀ x ∈ q.requires_private, x < reg.heap.length)
    (hfields : verify_fields p = Except.ok ())
    (hversions : verify_versions reg.heap p p.requires_private = Except.ok ())
    (hnonull : ∀ q r, Reachable reg.heap get_requires_private pkg q → reg.heap[q]? = some r →
      conflicts_checkable p.conflicts r = true) :
    (verify_package env reg pkg = Except.error Fatal.ConflictDetected ↔
      ∃ q r c, Reachable reg.heap get_requires_private pkg q ∧ reg.heap[q]? = some r ∧
        c ∈ p.conflicts ∧ r.key = some c.name ∧
        version_test c.comparison r.version c.version = some true) ∧
    (verify_package env reg pkg ≠ Except.error Fatal.ConflictDetected →
      ∃ reg', verify_package env reg pkg = Except.ok reg') := by
  have hpkg : pkg < reg.heap.length := getElem?_pos_of_some _ _ _ hp
  obtain ⟨requires, hreq, hmem⟩ := requires_private_closure reg.heap pkg hpkg hvalid
  have hall : ∀ q ∈ requires, ∃ r, reg.heap[q]? = some r ∧
      conflicts_checkable (get_conflicts p) r = true := by
    intro q hq
    have hreach := (hmem q).1 hq
    have hlt := reachable_lt reg.heap get_requires_private hvalid hpkg hreach
    exact ⟨reg.heap[q], List.getElem?_eq_getElem hlt,
      hnonull q _ hreach (List.getElem?_eq_getElem hlt)⟩
  rcases verify_conflicts_spec reg.heap (get_conflicts p) requires hall with
    ⟨h1, q, hq, r, hr, c, hc, hkey, hvt⟩ | ⟨h1, h2⟩
  · have hres : verify_package env reg pkg = Except.error Fatal.ConflictDetected := by
      simp only [verify_package, hp, hfields, hversions, hchain, hreq, h1]
    exact ⟨⟨fun _ => ⟨q, r, c, (hmem q).1 hq, hr, hc, hkey, hvt⟩, fun _ => hres⟩,
      fun hne => absurd hres hne⟩
  · have hres : ∃ reg', verify_package env reg pkg = Except.ok reg' := by
      simp only [verify_package, hp, hfields, hversions, hchain, hreq, h1]
      exact ⟨_, rfl⟩
    obtain ⟨reg', hreg'⟩ := hres
    refine ⟨⟨fun h => ?_, fun h => ?_⟩, fun _ => ⟨reg', hreg'⟩⟩
    · rw [hreg'] at h; cases h
    · obtain ⟨q, r, c, hreach, hr, hc, hkey, hvt⟩ := h
      exact absurd ⟨q, (hmem q).2 hreach, r, hr, c, hc, hkey, hvt⟩ h2

/-- C15, a witness: on `registry_conflict` package 0 conflicts with `bar < 2.0`
and reaches `bar` 1.0 through package 1, and validation ends in
`ConflictDetected`. -/
theorem conflict_detection_witness :
    verify_package example_env registry_conflict 0 = Except.error Fatal.ConflictDetected ∧
    Reachable registry_conflict.heap get_requires_private 0 2 ∧
    ((verify_package example_env registry_conflict 0 = Except.error Fatal.ConflictDetected ↔
      ∃ q r c, Reachable registry_conflict.heap get_requires_private 0 q ∧
        registry_conflict.heap[q]? = some r ∧
        c ∈ (registry_conflict.heap.getD 0 zero_package).conflicts ∧ r.key = some c.name ∧
        version_test c.comparison r.version c.version = some true) ∧
    (verify_package example_env registry_conflict 0 ≠ Except.error Fatal.ConflictDetected →
      ∃ reg', verify_package example_env registry_conflict 0 = Except.ok reg')) :=
  ⟨by rfl,
   Relation.ReflTransGen.head (b := 1) ⟨registry_conflict.heap.getD 0 zero_package, by rfl, by decide⟩
     (Relation.ReflTransGen.head (b := 2)
       ⟨registry_conflict.heap.getD 1 zero_package, by rfl, by decide⟩
       Relation.ReflTransGen.refl),
   conflict_detection example_env registry_conflict 0
     (registry_conflict.heap.getD 0 zero_package) (by rfl) (by rfl) (by decide) (by rfl) (by rfl)
     (fun q r _ hr => by
       have hmem : r ∈ registry_conflict.heap := List.getElem?_mem hr
       have hall : ∀ r ∈ registry_conflict.heap,
           conflicts_checkable (registry_conflict.heap.getD 0 zero_package).conflicts r = true := by
         decide
       exact hall r hmem)⟩

end PkgConfig


namespace PkgConfig

theorem heap_grows_refl (heap : Heap) : heap_grows heap heap :=
  ⟨le_refl _, fun _ _ => rfl, fun i q hi hq => by
    rw [List.getElem?_eq_none hi] at hq; cases hq⟩

theorem heap_grows_trans {h1 h2 h3 : Heap} (h12 : heap_grows h1 h2) (h23 : heap_grows h2 h3) :
    heap_grows h1 h3 := by
  obtain ⟨l12, f12, n12⟩ := h12
  obtain ⟨l23, f23, n23⟩ := h23
  refine ⟨le_trans l12 l23, fun i hi => ?_, fun i q hi hq => ?_⟩
  · rw [f23 i (lt_of_lt_of_le hi l12), f12 i hi]
  · rcases Nat.lt_or_ge i h2.length with hlt | hge
    · rw [f23 i hlt] at hq
      exact n12 i q hi hq
    · exact n23 i q hge hq

/-- The record the loop writes back for the entry `ver` resolved to `req`. -/
theorem pull_in_requires_cons_ok
    (recurse : CString → Bool → Registry → Except Fatal (Option Nat × Registry))
    (warn : Bool) (pkg : Nat) (is_private : Bool) (ver : RequiredVersion)
    (entries : List RequiredVersion) (reg reg' : Registry)
    (h : pull_in_requires recurse warn pkg is_private (ver :: entries) reg = Except.ok reg') :
    ∃ req reg1 p, recurse ver.name warn reg = Except.ok (some req, reg1) ∧
      reg1.heap[pkg]? = some p ∧
      pull_in_requires recurse warn pkg is_private entries
        { reg1 with
          heap := reg1.heap.set pkg
            (if is_private then
              { p with
                required_versions :=
                  some (g_hash_table_insert (p.required_versions.getD []) ver.name ver),
                requires_private := req :: p.requires_private }
            else
              { p with
                required_versions :=
                  some (g_hash_table_insert (p.required_versions.getD []) ver.name ver),
                requires := req :: p.requires }) } = Except.ok reg' := by
  unfold pull_in_requires at h ⊢
  rw [List.foldlM_cons] at h
  rcases hrec : recurse ver.name warn reg with e | ⟨r, reg1⟩
  · rw [hrec] at h; cases h
  · rw [hrec] at h
    cases r with
    | none => cases h
    | some req =>
      rcases Option.eq_none_or_eq_some reg1.heap[pkg]? with hp | ⟨p, hp⟩
      · simp only [hp] at h; cases h
      · simp only [hp] at h
        exact ⟨req, reg1, p, rfl, hp, h⟩

/-- The loop over `ver :: entries`, when the call for `ver` returns `req` and
the record of `pkg` is `p`: the loop over `entries` from the registry with the
requirement recorded. -/
theorem pull_in_requires_cons_eq
    (recurse : CString → Bool → Registry → Except Fatal (Option Nat × Registry))
    (warn : Bool) (pkg : Nat) (is_private : Bool) (ver : RequiredVersion)
    (entries : List RequiredVersion) (reg reg1 : Registry) (req : Nat) (p : Package)
    (hcall : recurse ver.name warn reg = Except.ok (some req, reg1))
    (hp : reg1.heap[pkg]? = some p) :
    pull_in_requires recurse warn pkg is_private (ver :: entries) reg =
      pull_in_requires recurse warn pkg is_private entries
        { reg1 with
          heap := reg1.heap.set pkg
            (if is_private then
              { p with
                required_versions :=
                  some (g_hash_table_insert (p.required_versions.getD []) ver.name ver),
                requires_private := req :: p.requires_private }
            else
              { p with
                required_versions :=
                  some (g_hash_table_insert (p.required_versions.getD []) ver.name ver),
                requires := req :: p.requires }) } := by
  unfold pull_in_requires
  rw [List.foldlM_cons, hcall]
  simp only [hp]
  rfl

/-- An entry resolves to one package only. -/
theorem entry_resolves_to_unique
    {recurse : CString → Bool → Registry → Except Fatal (Option Nat × Registry)}
    {warn : Bool} {pkg : Nat} {is_private : Bool} {entries : List RequiredVersion}
    {reg : Registry} {i a b : Nat}
    (ha : entry_resolves_to recurse warn pkg is_private entries reg i a)
    (hb : entry_resolves_to recurse warn pkg is_private entries reg i b) : a = b := by
  obtain ⟨v1, r1, s1, hv1, hp1, hc1⟩ := ha
  obtain ⟨v2, r2, s2, hv2, hp2, hc2⟩ := hb
  rw [hv1] at hv2
  cases hv2
  rw [hp1] at hp2
  cases hp2
  rw [hc1] at hc2
  cases hc2
  rfl

/-- The packages a loop resolved its entries to hold the package every single
entry resolves to. -/
theorem resolves_in_order_mem
    {recurse : CString → Bool → Registry → Except Fatal (Option Nat × Registry)}
    {warn : Bool} {pkg : Nat} {is_private : Bool} {entries : List RequiredVersion}
    {reg : Registry} {rs : List Nat} {i q : Nat}
    (h : resolves_in_order recurse warn pkg is_private entries reg rs)
    (hq : entry_resolves_to recurse warn pkg is_private entries reg i q) : q ∈ rs := by
  obtain ⟨hlen, hall⟩ := h
  have hi : i < entries.length := by
    obtain ⟨v, _, _, hv, _, _⟩ := hq
    rcases Nat.lt_or_ge i entries.length with h1 | h1
    · exact h1
    · rw [List.getElem?_eq_none h1] at hv; cases hv
  have hget : rs[i]? = some rs[i] := List.getElem?_eq_getElem (hlen ▸ hi)
  have := entry_resolves_to_unique (hall i _ hget) hq
  rw [← this]
  exact List.getElem?_mem hget

theorem record_versions_cons (table : Option (GHashTable RequiredVersion))
    (ver : RequiredVersion) (entries : List RequiredVersion) :
    record_versions table (ver :: entries) =
      record_versions (some (g_hash_table_insert (table.getD []) ver.name ver)) entries := rfl

theorem record_versions_append (table : Option (GHashTable RequiredVersion))
    (xs ys : List RequiredVersion) :
    record_versions table (xs ++ ys) = record_versions (record_versions table xs) ys := by
  unfold record_versions
  rw [List.foldl_append]

/-- What one of the two loops does, for a `recurse` that lets the heap grow:
the record of `pkg` gets the resolved packages in front of its list, last
entry first, and the table built by `record_versions`; the other packages the
loop found are unchanged, and the packages added are complete. -/
theorem pull_in_requires_spec
    (recurse : CString → Bool → Registry → Except Fatal (Option Nat × Registry))
    (hrec : recurse_grows recurse) (warn : Bool) (pkg : Nat) (is_private : Bool) :
    ∀ (entries : List RequiredVersion) (reg reg' : Registry) (p : Package),
      reg.heap[pkg]? = some p →
      pull_in_requires recurse warn pkg is_private entries reg = Except.ok reg' →
      ∃ rs, resolves_in_order recurse warn pkg is_private entries reg rs ∧
        reg'.heap[pkg]? = some
          (if is_private then
            { p with
              required_versions := record_versions p.required_versions entries,
              requires_private := rs.reverse ++ p.requires_private }
          else
            { p with
              required_versions := record_versions p.required_versions entries,
              requires := rs.reverse ++ p.requires }) ∧
        reg.heap.length ≤ reg'.heap.length ∧
        (∀ i, i < reg.heap.length → i ≠ pkg → reg'.heap[i]? = reg.heap[i]?) ∧
        (∀ i q, reg.heap.length ≤ i → reg'.heap[i]? = some q →
          q.requires ⊆ q.requires_private) ∧
        (packages_in_heap reg → packages_in_heap reg' ∧ ∀ x ∈ rs, x < reg'.heap.length) := by
  intro entries
  induction entries with
  | nil =>
    intro reg reg' p hp h
    have hreg : reg' = reg := by
      unfold pull_in_requires at h
      exact (Except.ok.inj h).symm
    subst hreg
    refine ⟨[], ⟨rfl, fun i req h => (by simp at h)⟩, ?_, le_refl _, fun _ _ _ => rfl,
      fun i q hi hq => ?_,
      fun ht => ⟨ht, by simp⟩⟩
    · cases is_private <;> simpa [record_versions] using hp
    · rw [List.getElem?_eq_none hi] at hq; cases hq
  | cons ver entries ih =>
    intro reg reg' p hp h
    obtain ⟨req, reg1, p1, hcall, hp1, hrest⟩ :=
      pull_in_requires_cons_ok recurse warn pkg is_private ver entries reg reg' h
    obtain ⟨⟨hlen, hframe, hnew⟩, htab⟩ := hrec _ _ _ _ _ hcall
    have hpkg : pkg < reg.heap.length := getElem?_pos_of_some _ _ _ hp
    have hpkg1 : pkg < reg1.heap.length := lt_of_lt_of_le hpkg hlen
    have hpp : p1 = p := by
      rw [hframe pkg hpkg, hp] at hp1
      exact (Option.some.inj hp1).symm
    subst hpp
    obtain ⟨rs, hres, hrec', hlen', hframe', hnew', htab'⟩ := ih _ reg' _
      (List.getElem?_set_self hpkg1) hrest
    simp only [List.length_set] at hlen' hframe' hnew'
    have hres1 : resolves_in_order recurse warn pkg is_private (ver :: entries) reg
        (req :: rs) := by
      obtain ⟨hl, hall⟩ := hres
      refine ⟨by simp [hl], fun i q hq => ?_⟩
      cases i with
      | zero =>
        simp only [List.getElem?_cons_zero, Option.some.injEq] at hq
        subst hq
        exact ⟨ver, reg, reg1, List.getElem?_cons_zero, rfl, hcall⟩
      | succ i =>
        simp only [List.getElem?_cons_succ] at hq
        obtain ⟨v, ri, rr, hv, hpi, hci⟩ := hall i q hq
        refine ⟨v, ri, rr, by simpa using hv, ?_, hci⟩
        rw [List.take_succ_cons,
          pull_in_requires_cons_eq recurse warn pkg is_private ver _ reg reg1 req _ hcall hp1]
        exact hpi
    refine ⟨req :: rs, hres1, ?_, le_trans hlen hlen',
      fun i hi hne => ?_, fun i q hi hq => ?_, fun ht => ?_⟩
    · rw [hrec']
      cases is_private <;>
        simp [record_versions_cons, List.reverse_cons, List.append_assoc]
    · rw [hframe' i (lt_of_lt_of_le hi hlen) hne, List.getElem?_set_ne (Ne.symm hne),
        hframe i hi]
    · have hne : i ≠ pkg := by omega
      rcases Nat.lt_or_ge i reg1.heap.length with hlt | hge
      · rw [hframe' i hlt hne, List.getElem?_set_ne (Ne.symm hne)] at hq
        exact hnew i q hi hq
      · exact hnew' i q hge hq
    · obtain ⟨ht1, hreq⟩ := htab ht
      have htmid : packages_in_heap
          { reg1 with
            heap := reg1.heap.set pkg
              (if is_private then
                { p1 with
                  required_versions :=
                    some (g_hash_table_insert (p1.required_versions.getD []) ver.name ver),
                  requires_private := req :: p1.requires_private }
              else
                { p1 with
                  required_versions :=
                    some (g_hash_table_insert (p1.required_versions.getD []) ver.name ver),
                  requires := req :: p1.requires }) } := by
        intro name x hx
        simp only [List.length_set]
        exact ht1 name x hx
      obtain ⟨ht2, hrs⟩ := htab' htmid
      refine ⟨ht2, fun x hx => ?_⟩
      rcases List.mem_cons.1 hx with rfl | hx
      · exact lt_of_lt_of_le (hreq _ rfl) hlen'
      · exact hrs x hx

/-- What the third part of `internal_get_package` does to the record of `pkg`,
for a `recurse` that lets the heap grow: with `R` and `P` the packages the
`Requires` and the `Requires.private` entries resolve to, `requires` ends as the
reverse of `R.reverse ++ requires`, and `requires_private` as the reverse of
this list followed by `P.reverse ++ requires_private`. -/
theorem link_package_spec
    (recurse : CString → Bool → Registry → Except Fatal (Option Nat × Registry))
    (hrec : recurse_grows recurse) (warn : Bool) (pkg : Nat) (reg reg' : Registry)
    (p0 : Package) (hp : reg.heap[pkg]? = some p0)
    (h : link_package recurse warn pkg reg = Except.ok reg') :
    ∃ R P reg_pub,
      pull_in_requires recurse warn pkg false p0.requires_entries reg = Except.ok reg_pub ∧
      resolves_in_order recurse warn pkg false p0.requires_entries reg R ∧
      resolves_in_order recurse warn pkg true p0.requires_private_entries reg_pub P ∧
      reg'.heap[pkg]? = some
        { p0 with
          required_versions := record_versions p0.required_versions
            (p0.requires_entries ++ p0.requires_private_entries),
          requires := (R.reverse ++ p0.requires).reverse,
          requires_private :=
            ((R.reverse ++ p0.requires) ++ (P.reverse ++ p0.requires_private)).reverse } ∧
      reg.heap.length ≤ reg'.heap.length ∧
      (∀ i, i < reg.heap.length → i ≠ pkg → reg'.heap[i]? = reg.heap[i]?) ∧
      (∀ i q, reg.heap.length ≤ i → reg'.heap[i]? = some q →
        q.requires ⊆ q.requires_private) ∧
      (packages_in_heap reg → packages_in_heap reg' ∧ (∀ x ∈ R, x < reg'.heap.length) ∧
        ∀ x ∈ P, x < reg'.heap.length) := by
  unfold link_package at h
  simp only [hp] at h
  rcases h1 : pull_in_requires recurse warn pkg false p0.requires_entries reg with e | reg1
  · rw [h1] at h; cases h
  rw [h1] at h
  simp only at h
  rcases h2 : pull_in_requires recurse warn pkg true p0.requires_private_entries reg1 with
    e | reg2
  · rw [h2] at h; cases h
  rw [h2] at h
  simp only at h
  obtain ⟨R, hR, hrec1, hlen1, hframe1, hnew1, htab1⟩ :=
    pull_in_requires_spec recurse hrec warn pkg false _ reg reg1 p0 hp h1
  obtain ⟨P, hP, hrec2, hlen2, hframe2, hnew2, htab2⟩ :=
    pull_in_requires_spec recurse hrec warn pkg true _ reg1 reg2 _ hrec1 h2
  have hpkg : pkg < reg.heap.length := getElem?_pos_of_some _ _ _ hp
  have hpkg2 : pkg < reg2.heap.length := lt_of_lt_of_le hpkg (le_trans hlen1 hlen2)
  simp only [hrec2] at h
  have hreg' := (Except.ok.inj h).symm
  subst hreg'
  simp only [List.length_set]
  refine ⟨R, P, reg1, rfl, hR, hP, ?_, le_trans hlen1 hlen2, fun i hi hne => ?_,
    fun i q hi hq => ?_, fun ht => ?_⟩
  · rw [List.getElem?_set_self hpkg2]
    simp [g_slist_reverse, g_slist_concat, g_slist_copy, record_versions_append]
  · rw [List.getElem?_set_ne (Ne.symm hne), hframe2 i (lt_of_lt_of_le hi hlen1) hne,
      hframe1 i hi hne]
  · have hne : i ≠ pkg := by omega
    rw [List.getElem?_set_ne (Ne.symm hne)] at hq
    rcases Nat.lt_or_ge i reg1.heap.length with hlt | hge
    · rw [hframe2 i hlt hne] at hq
      exact hnew1 i q hi hq
    · exact hnew2 i q hge hq
  · obtain ⟨ht1, hR1⟩ := htab1 ht
    obtain ⟨ht2, hP2⟩ := htab2 ht1
    refine ⟨fun name x hx => ?_, fun x hx => lt_of_lt_of_le (hR1 x hx) hlen2, hP2⟩
    simp only [List.length_set]
    exact ht2 name x hx

/-- What a successful `load_package` has done: the file was parsed, and the
record with `uninstalled`, `key` and `path_position` set is the new last
package of the heap, entered into `packages` under its key. -/
theorem load_package_ok (env : Env) (cfg : Config) (name location : CString) (literal : Bool)
    (reg reg2 : Registry) (pkg : Nat)
    (h : load_package env cfg name location literal reg = some (pkg, reg2)) :
    ∃ raw, env.parse_package_file location cfg.ignore_requires cfg.ignore_private_libs
        cfg.ignore_requires_private = some raw ∧
      pkg = reg.heap.length ∧
      reg2 = { reg with
        heap := reg.heap ++
          [{ raw with
             uninstalled := if strstr location "uninstalled.pc".toList then true
               else raw.uninstalled,
             key := some (if literal then key_of_filename name else name),
             path_position := (g_hash_table_lookup reg.path_positions
               (if literal then key_of_filename name else name)).getD 0 }],
        packages := g_hash_table_insert reg.packages
          (if literal then key_of_filename name else name) reg.heap.length } := by
  unfold load_package at h
  rcases Option.eq_none_or_eq_some (env.parse_package_file location cfg.ignore_requires
    cfg.ignore_private_libs cfg.ignore_requires_private) with hraw | ⟨raw, hraw⟩
  · simp only [hraw] at h; cases h
  · simp only [hraw] at h
    have h1 := Option.some.inj h
    refine ⟨raw, hraw, (congrArg Prod.fst h1).symm, ?_⟩
    refine (congrArg Prod.snd h1).symm.trans ?_
    cases strstr location "uninstalled.pc".toList <;> rfl

/-- The outcome of a successful `locate_package`, for a `recurse` that lets the
heap grow. -/
theorem locate_package_grows (cfg : Config)
    (recurse : CString → Bool → Registry → Except Fatal (Option Nat × Registry))
    (hrec : recurse_grows recurse) (name : CString) (reg : Registry) (loc : Located)
    (h : locate_package cfg recurse name reg = Except.ok loc) :
    (∀ pkg reg1, loc = Located.found pkg reg1 →
      heap_grows reg.heap reg1.heap ∧
        (packages_in_heap reg → packages_in_heap reg1 ∧ pkg < reg1.heap.length)) ∧
    (∀ l lit reg1, loc = Located.location l lit reg1 →
      heap_grows reg.heap reg1.heap ∧ (packages_in_heap reg → packages_in_heap reg1)) := by
  unfold locate_package at h
  by_cases hpc : ends_in_dotpc name = true
  · simp only [hpc, if_true] at h
    have := (Except.ok.inj h).symm
    subst this
    refine ⟨fun pkg reg1 h1 => (by cases h1), fun l lit reg1 h1 => ?_⟩
    cases h1
    exact ⟨heap_grows_refl _, id⟩
  · simp only [hpc] at h
    by_cases hprobe : (!cfg.disable_uninstalled && !name_ends_in_uninstalled name) = true
    · simp only [hprobe, if_true] at h
      rcases hcall : recurse (name ++ "-uninstalled".toList) false reg with e | ⟨r, reg1⟩
      · rw [hcall] at h; cases h
      · rw [hcall] at h
        obtain ⟨hg, ht⟩ := hrec _ _ _ _ _ hcall
        cases r with
        | none =>
          have := (Except.ok.inj h).symm
          subst this
          refine ⟨fun pkg reg1 h1 => (by cases h1), fun l lit reg2 h1 => ?_⟩
          cases h1
          exact ⟨hg, fun hp => (ht hp).1⟩
        | some pkg =>
          have := (Except.ok.inj h).symm
          subst this
          refine ⟨fun pkg1 reg2 h1 => ?_, fun l lit reg2 h1 => (by cases h1)⟩
          cases h1
          exact ⟨hg, fun hp => ⟨(ht hp).1, (ht hp).2 _ rfl⟩⟩
    · simp only [hprobe] at h
      have := (Except.ok.inj h).symm
      subst this
      refine ⟨fun pkg reg1 h1 => (by cases h1), fun l lit reg1 h1 => ?_⟩
      cases h1
      exact ⟨heap_grows_refl _, id⟩

/-- The record of a freshly loaded package when `internal_get_package` returns
it (pkg.c 317-412), for a `recurse` that lets the heap grow: the parsed record
`raw` with `key`, `uninstalled` and `path_position` set, the requirements
linked, and the system directories stripped. -/
theorem fresh_package_spec (env : Env) (cfg : Config)
    (recurse : CString → Bool → Registry → Except Fatal (Option Nat × Registry))
    (hrec : recurse_grows recurse) (name location : CString) (literal warn : Bool)
    (reg1 reg2 reg3 reg4 : Registry) (pkg : Nat)
    (hload : load_package env cfg name location literal reg1 = some (pkg, reg2))
    (hlink : link_package recurse warn pkg reg2 = Except.ok reg3)
    (hverify : verify_package env reg3 pkg = Except.ok reg4) :
    ∃ raw R P reg_pub, env.parse_package_file location cfg.ignore_requires cfg.ignore_private_libs
        cfg.ignore_requires_private = some raw ∧
      pkg = reg1.heap.length ∧
      pull_in_requires recurse warn pkg false raw.requires_entries reg2 = Except.ok reg_pub ∧
      resolves_in_order recurse warn pkg false raw.requires_entries reg2 R ∧
      resolves_in_order recurse warn pkg true raw.requires_private_entries reg_pub P ∧
      reg4.heap[pkg]? = some
        { raw with
          uninstalled := if strstr location "uninstalled.pc".toList then true
            else raw.uninstalled,
          key := some (if literal then key_of_filename name else name),
          path_position := (g_hash_table_lookup reg1.path_positions
            (if literal then key_of_filename name else name)).getD 0,
          required_versions := record_versions raw.required_versions
            (raw.requires_entries ++ raw.requires_private_entries),
          requires := (R.reverse ++ raw.requires).reverse,
          requires_private :=
            ((R.reverse ++ raw.requires) ++ (P.reverse ++ raw.requires_private)).reverse,
          I_cflags := remove_marked
            (raw.I_cflags.map (mark_system_include env (system_include_directories env))),
          L_libs := remove_marked
            (raw.L_libs.map (mark_system_library env (system_library_directories env))) } ∧
      heap_grows reg1.heap reg4.heap ∧
      (packages_in_heap reg1 → packages_in_heap reg4 ∧ (∀ x ∈ R, x < reg4.heap.length) ∧
        ∀ x ∈ P, x < reg4.heap.length) := by
  obtain ⟨raw, hraw, hpkg, hreg2⟩ := load_package_ok env cfg name location literal reg1 reg2 pkg hload
  have hlen2 : reg2.heap.length = reg1.heap.length + 1 := by rw [hreg2]; simp
  have hframe2 : ∀ i, i < reg1.heap.length → reg2.heap[i]? = reg1.heap[i]? := by
    intro i hi
    rw [hreg2]
    exact List.getElem?_append_left hi
  have hp2 : reg2.heap[pkg]? = some
      { raw with
        uninstalled := if strstr location "uninstalled.pc".toList then true
          else raw.uninstalled,
        key := some (if literal then key_of_filename name else name),
        path_position := (g_hash_table_lookup reg1.path_positions
          (if literal then key_of_filename name else name)).getD 0 } := by
    rw [hreg2, hpkg]
    simp
  have htab2 : packages_in_heap reg1 → packages_in_heap reg2 := by
    intro ht key x hx
    rw [hlen2]
    rw [hreg2] at hx
    simp only [g_hash_table_insert, g_hash_table_lookup] at hx
    by_cases hk : (if literal then key_of_filename name else name) = key
    · rw [if_pos hk] at hx
      cases hx; omega
    · rw [if_neg hk] at hx
      exact Nat.lt_succ_of_lt (ht key x hx)
  obtain ⟨R, P, reg_pub, hpub, hR, hP, hp3, hlen3, hframe3, hnew3, htab3⟩ :=
    link_package_spec recurse hrec warn pkg reg2 reg3 _ hp2 hlink
  obtain ⟨p, chain1, requires, hp, _, _, _, _, hreg4⟩ := verify_package_ok env reg3 reg4 pkg hverify
  rw [hp3] at hp
  have hpp := (Option.some.inj hp).symm
  subst hpp
  have hpkg3 : pkg < reg3.heap.length := getElem?_pos_of_some _ _ _ hp3
  have hlen4 : reg4.heap.length = reg3.heap.length := by rw [hreg4]; simp
  refine ⟨raw, R, P, reg_pub, hraw, hpkg, hpub, hR, hP, ?_,
    ⟨?_, fun i hi => ?_, fun i q hi hq => ?_⟩,
    fun ht => ?_⟩
  · rw [hreg4]
    simp only [List.getElem?_set_self hpkg3]
  · rw [hlen4]; omega
  · have hne : i ≠ pkg := by omega
    rw [hreg4]
    simp only
    rw [List.getElem?_set_ne (Ne.symm hne), hframe3 i (by omega) hne, hframe2 i hi]
  · rw [hreg4] at hq
    simp only at hq
    rcases Nat.lt_or_ge pkg i with hlt | hge
    · rw [List.getElem?_set_ne (by omega)] at hq
      exact hnew3 i q (by omega) hq
    · have hi' : i = pkg := by omega
      subst hi'
      rw [List.getElem?_set_self hpkg3] at hq
      have hq' := (Option.some.inj hq).symm
      subst hq'
      simp only [List.reverse_append, List.reverse_reverse]
      intro x hx
      simp only [List.mem_append, List.mem_reverse] at hx ⊢
      tauto
  · obtain ⟨ht3, hR3, hP3⟩ := htab3 (htab2 ht)
    refine ⟨fun key x hx => ?_, fun x hx => hlen4 ▸ hR3 x hx, fun x hx => hlen4 ▸ hP3 x hx⟩
    rw [hlen4]
    rw [hreg4] at hx
    exact ht3 key x hx

/-- A call of `internal_get_package` that returns leaves a heap that continues
the one it found, keeps `packages` inside the heap and returns a package of the
heap. -/
theorem internal_get_package_grows (env : Env) (cfg : Config) :
    ∀ fuel, recurse_grows (internal_get_package env cfg fuel) := by
  intro fuel
  induction fuel with
  | zero =>
    intro name warn reg r reg' h
    simp [internal_get_package] at h
  | succ fuel ih =>
    intro name warn reg r reg' h
    unfold internal_get_package at h
    rcases Option.eq_none_or_eq_some (g_hash_table_lookup reg.packages name) with
      hmiss | ⟨pkg, hhit⟩
    · simp only [hmiss] at h
      rcases hloc : locate_package cfg (internal_get_package env cfg fuel) name reg with
        e | loc
      · rw [hloc] at h; cases h
      rw [hloc] at h
      obtain ⟨hfound, hlocation⟩ := locate_package_grows cfg _ ih name reg loc hloc
      cases loc with
      | found pkg reg1 =>
        simp only at h
        obtain ⟨hg, ht⟩ := hfound pkg reg1 rfl
        obtain ⟨rfl, rfl⟩ := Prod.mk.inj (Except.ok.inj h)
        refine ⟨hg, fun hp => ⟨(ht hp).1, fun x hx => ?_⟩⟩
        cases hx
        exact (ht hp).2
      | location l lit reg1 =>
        obtain ⟨hg, ht⟩ := hlocation l lit reg1 rfl
        cases l with
        | none =>
          simp only at h
          obtain ⟨rfl, rfl⟩ := Prod.mk.inj (Except.ok.inj h)
          exact ⟨hg, fun hp => ⟨ht hp, fun x hx => by cases hx⟩⟩
        | some location =>
          simp only at h
          rcases Option.eq_none_or_eq_some (load_package env cfg name location lit reg1) with
            hload | ⟨⟨pkg, reg2⟩, hload⟩
          · simp only [hload] at h
            obtain ⟨rfl, rfl⟩ := Prod.mk.inj (Except.ok.inj h)
            exact ⟨hg, fun hp => ⟨ht hp, fun x hx => by cases hx⟩⟩
          · simp only [hload] at h
            rcases hlink : link_package (internal_get_package env cfg fuel) warn pkg reg2 with
              e | reg3
            · rw [hlink] at h; cases h
            rw [hlink] at h
            simp only at h
            rcases hverify : verify_package env reg3 pkg with e | reg4
            · rw [hverify] at h; cases h
            rw [hverify] at h
            simp only at h
            obtain ⟨rfl, rfl⟩ := Prod.mk.inj (Except.ok.inj h)
            obtain ⟨raw, R, P, _, _, hpkg, _, _, _, hp4, hg4, ht4⟩ :=
              fresh_package_spec env cfg _ ih name location lit warn reg1 reg2 reg3 reg4 pkg
                hload hlink hverify
            refine ⟨heap_grows_trans hg hg4, fun hp => ⟨(ht4 (ht hp)).1, fun x hx => ?_⟩⟩
            cases hx
            exact getElem?_pos_of_some _ _ _ hp4
    · simp only [hhit] at h
      obtain ⟨rfl, rfl⟩ := Prod.mk.inj (Except.ok.inj h)
      refine ⟨heap_grows_refl _, fun hp => ⟨hp, fun x hx => ?_⟩⟩
      cases hx
      exact hp name pkg hhit

end PkgConfig


namespace PkgConfig

/-- When `locate_package` returns a package, the call for the uninstalled
variant returned it. -/
theorem locate_package_found (cfg : Config)
    (recurse : CString → Bool → Registry → Except Fatal (Option Nat × Registry))
    (name : CString) (reg reg1 : Registry) (pkg : Nat)
    (h : locate_package cfg recurse name reg = Except.ok (Located.found pkg reg1)) :
    recurse (name ++ "-uninstalled".toList) false reg = Except.ok (some pkg, reg1) := by
  unfold locate_package at h
  by_cases hpc : ends_in_dotpc name = true
  · simp only [hpc, if_true] at h
    cases h
  · simp only [hpc] at h
    by_cases hprobe : (!cfg.disable_uninstalled && !name_ends_in_uninstalled name) = true
    · simp only [hprobe, if_true] at h
      rcases hcall : recurse (name ++ "-uninstalled".toList) false reg with e | ⟨r, reg2⟩
      · rw [hcall] at h; cases h
      · rw [hcall] at h
        cases r with
        | none => cases h
        | some pkg2 => cases h; rfl
    · simp only [hprobe] at h
      cases h

/-- One of the two loops returns the same registry with a resolver that
returns whatever `recurse` returns. -/
theorem pull_in_requires_mono
    (recurse recurse2 : CString → Bool → Registry → Except Fatal (Option Nat × Registry))
    (hmono : ∀ name warn reg x, recurse name warn reg = Except.ok x →
      recurse2 name warn reg = Except.ok x)
    (warn : Bool) (pkg : Nat) (is_private : Bool) :
    ∀ (entries : List RequiredVersion) (reg reg' : Registry),
      pull_in_requires recurse warn pkg is_private entries reg = Except.ok reg' →
      pull_in_requires recurse2 warn pkg is_private entries reg = Except.ok reg' := by
  intro entries
  induction entries with
  | nil => intro reg reg' h; exact h
  | cons ver entries ih =>
    intro reg reg' h
    obtain ⟨req, reg1, p, hcall, hp, hrest⟩ :=
      pull_in_requires_cons_ok recurse warn pkg is_private ver entries reg reg' h
    rw [pull_in_requires_cons_eq recurse2 warn pkg is_private ver entries reg reg1 req p
      (hmono _ _ _ _ hcall) hp]
    exact ih _ _ hrest

/-- The linking step returns the same registry with a resolver that returns
whatever `recurse` returns. -/
theorem link_package_mono
    (recurse recurse2 : CString → Bool → Registry → Except Fatal (Option Nat × Registry))
    (hmono : ∀ name warn reg x, recurse name warn reg = Except.ok x →
      recurse2 name warn reg = Except.ok x)
    (warn : Bool) (pkg : Nat) (reg reg' : Registry)
    (h : link_package recurse warn pkg reg = Except.ok reg') :
    link_package recurse2 warn pkg reg = Except.ok reg' := by
  unfold link_package at h ⊢
  rcases Option.eq_none_or_eq_some (reg.heap[pkg]?) with hp | ⟨p0, hp⟩
  · simp only [hp] at h
    cases h
  simp only [hp] at h ⊢
  rcases h1 : pull_in_requires recurse warn pkg false p0.requires_entries reg with e | reg1
  · rw [h1] at h; cases h
  rw [h1] at h
  simp only at h
  rw [pull_in_requires_mono recurse recurse2 hmono warn pkg false _ _ _ h1]
  simp only
  rcases h2 : pull_in_requires recurse warn pkg true p0.requires_private_entries reg1 with
    e | reg2
  · rw [h2] at h; cases h
  rw [h2] at h
  rw [pull_in_requires_mono recurse recurse2 hmono warn pkg true _ _ _ h2]
  exact h

/-- The first part of `internal_get_package` returns the same with a resolver
that returns whatever `recurse` returns. -/
theorem locate_package_mono (cfg : Config)
    (recurse recurse2 : CString → Bool → Registry → Except Fatal (Option Nat × Registry))
    (hmono : ∀ name warn reg x, recurse name warn reg = Except.ok x →
      recurse2 name warn reg = Except.ok x)
    (name : CString) (reg : Registry) (l : Located)
    (h : locate_package cfg recurse name reg = Except.ok l) :
    locate_package cfg recurse2 name reg = Except.ok l := by
  unfold locate_package at h ⊢
  by_cases hpc : ends_in_dotpc name = true
  · simp only [hpc, if_true] at h ⊢
    exact h
  · simp only [hpc] at h ⊢
    by_cases hprobe : (!cfg.disable_uninstalled && !name_ends_in_uninstalled name) = true
    · simp only [hprobe, if_true] at h ⊢
      rcases hcall : recurse (name ++ "-uninstalled".toList) false reg with e | x
      · rw [hcall] at h; cases h
      · rw [hmono _ _ _ _ hcall]
        rw [hcall] at h
        exact h
    · simp only [hprobe] at h ⊢
      exact h

/-- What `internal_get_package` returns with some fuel it returns with more
fuel. -/
theorem internal_get_package_mono (env : Env) (cfg : Config) :
    ∀ (fuel : Nat) (name : CString) (warn : Bool) (reg : Registry)
      (x : Option Nat × Registry),
      internal_get_package env cfg fuel name warn reg = Except.ok x →
      internal_get_package env cfg (fuel + 1) name warn reg = Except.ok x := by
  intro fuel
  induction fuel with
  | zero =>
    intro name warn reg x h
    simp [internal_get_package] at h
  | succ fuel ih =>
    intro name warn reg x h
    rw [internal_get_package] at h ⊢
    rcases Option.eq_none_or_eq_some (g_hash_table_lookup reg.packages name) with
      hmiss | ⟨pkg1, hhit⟩
    · simp only [hmiss] at h ⊢
      rcases hloc : locate_package cfg (internal_get_package env cfg fuel) name reg with
        e | loc
      · rw [hloc] at h; cases h
      rw [hloc] at h
      rw [locate_package_mono cfg _ _ ih name reg loc hloc]
      cases loc with
      | found pkg1 reg1 => exact h
      | location l lit reg1 =>
        cases l with
        | none => exact h
        | some location =>
          simp only at h ⊢
          rcases Option.eq_none_or_eq_some (load_package env cfg name location lit reg1) with
            hload | ⟨⟨pkg1, reg2⟩, hload⟩
          · simp only [hload] at h ⊢
            exact h
          · simp only [hload] at h ⊢
            rcases hlink : link_package (internal_get_package env cfg fuel) warn pkg1 reg2 with
              e | reg3
            · rw [hlink] at h; cases h
            rw [hlink] at h
            rw [link_package_mono _ _ ih warn pkg1 reg2 reg3 hlink]
            exact h
    · simp only [hhit] at h ⊢
      exact h

/-- What `internal_get_package` returns with some fuel it returns with any
larger fuel. -/
theorem internal_get_package_mono_le (env : Env) (cfg : Config) (fuel fuel1 : Nat)
    (hle : fuel ≤ fuel1) (name : CString) (warn : Bool) (reg : Registry)
    (x : Option Nat × Registry)
    (h : internal_get_package env cfg fuel name warn reg = Except.ok x) :
    internal_get_package env cfg fuel1 name warn reg = Except.ok x := by
  induction hle with
  | refl => exact h
  | step _ ih => exact internal_get_package_mono env cfg _ name warn reg x ih

/-- The record of a package that a call of `internal_get_package` has created
and returned: a parsed record with the requirements linked. -/
theorem created_package_spec (env : Env) (cfg : Config) :
    ∀ (fuel : Nat) (name : CString) (warn : Bool) (reg reg' : Registry) (pkg : Nat),
      packages_in_heap reg →
      internal_get_package env cfg fuel name warn reg = Except.ok (some pkg, reg') →
      reg.heap.length ≤ pkg →
      ∃ (location : CString) (raw : Package) (R P : List Nat) (p : Package),
        env.parse_package_file location cfg.ignore_requires cfg.ignore_private_libs
          cfg.ignore_requires_private = some raw ∧
        reg'.heap[pkg]? = some p ∧
        p.requires_entries = raw.requires_entries ∧
        p.requires_private_entries = raw.requires_private_entries ∧
        p.required_versions = record_versions raw.required_versions
          (raw.requires_entries ++ raw.requires_private_entries) ∧
        p.requires = (R.reverse ++ raw.requires).reverse ∧
        p.requires_private =
          ((R.reverse ++ raw.requires) ++ (P.reverse ++ raw.requires_private)).reverse := by
  intro fuel
  induction fuel with
  | zero =>
    intro name warn reg reg' pkg _ h
    simp [internal_get_package] at h
  | succ fuel ih =>
    intro name warn reg reg' pkg htab h hnew
    unfold internal_get_package at h
    rcases Option.eq_none_or_eq_some (g_hash_table_lookup reg.packages name) with
      hmiss | ⟨pkg1, hhit⟩
    · simp only [hmiss] at h
      rcases hloc : locate_package cfg (internal_get_package env cfg fuel) name reg with
        e | loc
      · rw [hloc] at h; cases h
      rw [hloc] at h
      cases loc with
      | found pkg1 reg1 =>
        simp only at h
        obtain ⟨hpk, rfl⟩ := Prod.mk.inj (Except.ok.inj h)
        cases hpk
        exact ih _ _ _ _ _ htab (locate_package_found cfg _ name reg _ _ hloc) hnew
      | location l lit reg1 =>
        cases l with
        | none =>
          simp only at h
          cases h
        | some location =>
          simp only at h
          rcases Option.eq_none_or_eq_some (load_package env cfg name location lit reg1) with
            hload | ⟨⟨pkg1, reg2⟩, hload⟩
          · simp only [hload] at h
            cases h
          · simp only [hload] at h
            rcases hlink : link_package (internal_get_package env cfg fuel) warn pkg1 reg2 with
              e | reg3
            · rw [hlink] at h; cases h
            rw [hlink] at h
            simp only at h
            rcases hverify : verify_package env reg3 pkg1 with e | reg4
            · rw [hverify] at h; cases h
            rw [hverify] at h
            simp only at h
            obtain ⟨hpk, rfl⟩ := Prod.mk.inj (Except.ok.inj h)
            cases hpk
            obtain ⟨raw, R, P, _, hraw, _, _, _, _, hp4, _, _⟩ :=
              fresh_package_spec env cfg _ (internal_get_package_grows env cfg fuel) name
                location lit warn reg1 reg2 reg3 _ _ hload hlink hverify
            exact ⟨location, raw, R, P, _, hraw, hp4, rfl, rfl, rfl, rfl, rfl⟩
    · simp only [hhit] at h
      obtain ⟨hpk, rfl⟩ := Prod.mk.inj (Except.ok.inj h)
      cases hpk
      exact absurd (htab name _ hhit) (by omega)

/-- Lookup in the table built by `record_versions`: the last entry with the name
`key` if there is one, else what `table` held. -/
theorem record_versions_lookup (key : CString) :
    ∀ (entries : List RequiredVersion) (table : Option (GHashTable RequiredVersion)),
      (record_versions table entries).bind (fun t => g_hash_table_lookup t key) =
        match last_declared entries key with
        | some ver => some ver
        | none => table.bind (fun t => g_hash_table_lookup t key) := by
  intro entries
  induction entries with
  | nil => intro table; rfl
  | cons ver entries ih =>
    intro table
    rw [record_versions_cons, ih]
    have hlast : last_declared (ver :: entries) key =
        match last_declared entries key with
        | some v => some v
        | none => if ver.name = key then some ver else none := by
      unfold last_declared
      rw [List.reverse_cons, List.find?_append]
      rcases Option.eq_none_or_eq_some
        (List.find? (fun ver => decide (ver.name = key)) entries.reverse) with h0 | ⟨v, h0⟩
      · rw [h0]
        by_cases hk : ver.name = key <;> simp [hk]
      · rw [h0]; rfl
    rw [hlast]
    rcases Option.eq_none_or_eq_some (last_declared entries key) with h0 | ⟨v, h0⟩
    · rw [h0]
      simp only [Option.bind, g_hash_table_insert, g_hash_table_lookup]
      by_cases hk : ver.name = key
      · simp [hk]
      · simp only [hk, if_false]
        cases table <;> rfl
    · rw [h0]

theorem ends_in_dotpc_uninstalled (name : CString) :
    ends_in_dotpc (name ++ "-uninstalled".toList) = false := by
  have hlen : (name ++ "-uninstalled".toList).length = name.length + 12 := by
    rw [List.length_append]; rfl
  have hlast : char_at (name ++ "-uninstalled".toList)
      ((name ++ "-uninstalled".toList).length - 1) = 'd' := by
    unfold char_at
    rw [hlen, List.getD_eq_getElem?_getD, List.getElem?_append_right (by omega)]
    have : name.length + 12 - 1 - name.length = 11 := by omega
    rw [this]
    rfl
  unfold ends_in_dotpc
  simp only [hlast]
  simp

theorem name_ends_in_uninstalled_uninstalled (name : CString) (hne : name ≠ []) :
    name_ends_in_uninstalled (name ++ "-uninstalled".toList) = true := by
  have hlen : (name ++ "-uninstalled".toList).length = name.length + 12 := by
    rw [List.length_append]; rfl
  have hpos : 0 < name.length := List.length_pos.2 hne
  unfold name_ends_in_uninstalled
  simp only [hlen, UNINSTALLED_LEN]
  have : name.length + 12 - 12 = name.length := by omega
  rw [this, List.drop_left]
  simp
  omega

theorem strstr_uninstalled (dir name : CString) :
    strstr (dir ++ name ++ "-uninstalled.pc".toList) "uninstalled.pc".toList = true := by
  unfold strstr
  rw [List.any_eq_true]
  refine ⟨"uninstalled.pc".toList, ?_, by decide⟩
  rw [List.mem_tails]
  exact ⟨dir ++ name ++ ['-'], by simp⟩

/-- The call for the uninstalled variant `name-uninstalled`, when it is not
cached and the location index has its file `location`, which the parser
accepts: if the call returns, it returns the new package, whose record is the
parsed one with the key `name-uninstalled` and the flag `uninstalled` set. -/
theorem uninstalled_probe (env : Env) (cfg : Config) (fuel : Nat) (name dir : CString)
    (raw : Package) (reg : Registry) (r : Option Nat) (reg' : Registry) (hne : name ≠ [])
    (hc2 : g_hash_table_lookup reg.packages (name ++ "-uninstalled".toList) = none)
    (hl2 : g_hash_table_lookup reg.locations (name ++ "-uninstalled".toList) =
      some (dir ++ name ++ "-uninstalled.pc".toList))
    (hparse : env.parse_package_file (dir ++ name ++ "-uninstalled.pc".toList)
      cfg.ignore_requires cfg.ignore_private_libs cfg.ignore_requires_private = some raw)
    (hres : internal_get_package env cfg (fuel + 1) (name ++ "-uninstalled".toList) false reg =
      Except.ok (r, reg')) :
    r = some reg.heap.length ∧ ∃ p, reg'.heap[reg.heap.length]? = some p ∧
      p.key = some (name ++ "-uninstalled".toList) ∧ p.uninstalled = true ∧
      p.name = raw.name ∧ p.version = raw.version ∧ p.description = raw.description ∧
      p.url = raw.url ∧ p.vars = raw.vars ∧ p.conflicts = raw.conflicts ∧
      p.requires_entries = raw.requires_entries ∧
      p.requires_private_entries = raw.requires_private_entries ∧
      p.l_libs = raw.l_libs ∧ p.other_libs = raw.other_libs ∧
      p.other_cflags = raw.other_cflags := by
  have hloc : locate_package cfg (internal_get_package env cfg fuel)
      (name ++ "-uninstalled".toList) reg =
      Except.ok (Located.location (some (dir ++ name ++ "-uninstalled.pc".toList)) false reg) := by
    unfold locate_package
    rw [ends_in_dotpc_uninstalled, name_ends_in_uninstalled_uninstalled name hne]
    simp only [Bool.not_true, Bool.and_false, Bool.false_eq_true, if_false, hl2]
  unfold internal_get_package at hres
  simp only [hc2, hloc] at hres
  rcases Option.eq_none_or_eq_some (load_package env cfg (name ++ "-uninstalled".toList)
    (dir ++ name ++ "-uninstalled.pc".toList) false reg) with hload | ⟨⟨pkg, reg2⟩, hload⟩
  · unfold load_package at hload
    simp only [hparse] at hload
    cases hload
  simp only [hload] at hres
  rcases hlink : link_package (internal_get_package env cfg fuel) false pkg reg2 with e | reg3
  · rw [hlink] at hres; cases hres
  rw [hlink] at hres
  simp only at hres
  rcases hverify : verify_package env reg3 pkg with e | reg4
  · rw [hverify] at hres; cases hres
  rw [hverify] at hres
  simp only at hres
  obtain ⟨rfl, rfl⟩ := Prod.mk.inj (Except.ok.inj hres)
  obtain ⟨raw1, R, P, _, hraw1, hpkg, _, _, _, hp4, _, _⟩ :=
    fresh_package_spec env cfg _ (internal_get_package_grows env cfg fuel) _ _ false false
      reg reg2 reg3 reg4 pkg hload hlink hverify
  rw [hparse] at hraw1
  have hrr := (Option.some.inj hraw1).symm
  subst hrr
  subst hpkg
  exact ⟨rfl, _, hp4, rfl, by rw [if_pos (strstr_uninstalled dir name)], rfl, rfl, rfl, rfl, rfl,
    rfl, rfl, rfl, rfl, rfl, rfl⟩

/-- C14, the claim as stated fails.  First input: the location index holds
`foo` and `foo-uninstalled`, neither is cached, `disable_uninstalled` is false,
and the parser does not accept the file of `foo-uninstalled`:
`get_package ("foo")` returns the package made from `foo.pc`, with the key
`foo` and the flag `uninstalled` false.  Second input: the file of
`foo-uninstalled` has no `Name:` line, and `get_package ("foo")` ends in
`MissingRequiredField`: no package is returned. -/
theorem uninstalled_not_always_preferred :
    default_config.disable_uninstalled = false ∧
    registry_variant_rejected.packages = [] ∧
    g_hash_table_lookup registry_variant_rejected.locations "foo".toList =
      some "/t/foo.pc".toList ∧
    g_hash_table_lookup registry_variant_rejected.locations "foo-uninstalled".toList =
      some "/t/foo-uninstalled.pc".toList ∧
    (get_package example_env4 default_config 3 "foo".toList registry_variant_rejected).map
        (fun r => (r.1, r.2.heap.map (fun q => (q.key, q.uninstalled, q.version)))) =
      Except.ok (some 0, [(some "foo".toList, false, some "1.0".toList)]) ∧
    registry_variant_noname.packages = [] ∧
    g_hash_table_lookup registry_variant_noname.locations "foo".toList =
      some "/s/foo.pc".toList ∧
    g_hash_table_lookup registry_variant_noname.locations "foo-uninstalled".toList =
      some "/s/foo-uninstalled.pc".toList ∧
    get_package example_env4 default_config 3 "foo".toList registry_variant_noname =
      Except.error Fatal.MissingRequiredField := by
  refine ⟨rfl, rfl, by decide, by decide, by rfl, rfl, by decide, by decide, by rfl⟩

/-- C14 as amended: uninstalled preference.  With `disable_uninstalled` false, a
name `name` that is not empty and ends neither in `.pc` nor in `-uninstalled`,
neither `name` nor `name-uninstalled` cached, both in the location index (the
variant under a path `dir ++ name ++ "-uninstalled.pc"`, as `scan_dir` builds
it), the file of the variant accepted by the parser, and the requirements of
the variant pulled in and the variant verified without a fatal error (with the
recursion depth `fuel`): `get_package (name)` returns, at every recursion depth
from `fuel + 2` on, the new package made from the file of the variant, whose
key is `name-uninstalled` and whose flag `uninstalled` is true. -/
theorem uninstalled_preferred (env : Env) (cfg : Config) (fuel : Nat)
    (name dir installed : CString) (raw : Package) (reg reg2 reg3 reg4 : Registry) (n : Nat)
    (hcfg : cfg.disable_uninstalled = false) (hne : name ≠ [])
    (hpc : ends_in_dotpc name = false) (hun : name_ends_in_uninstalled name = false)
    (hc1 : g_hash_table_lookup reg.packages name = none)
    (hc2 : g_hash_table_lookup reg.packages (name ++ "-uninstalled".toList) = none)
    (_hl1 : g_hash_table_lookup reg.locations name = some installed)
    (hl2 : g_hash_table_lookup reg.locations (name ++ "-uninstalled".toList) =
      some (dir ++ name ++ "-uninstalled.pc".toList))
    (hparse : env.parse_package_file (dir ++ name ++ "-uninstalled.pc".toList)
      cfg.ignore_requires cfg.ignore_private_libs cfg.ignore_requires_private = some raw)
    (hload : load_package env cfg (name ++ "-uninstalled".toList)
      (dir ++ name ++ "-uninstalled.pc".toList) false reg = some (n, reg2))
    (hlink : link_package (internal_get_package env cfg fuel) false n reg2 = Except.ok reg3)
    (hverify : verify_package env reg3 n = Except.ok reg4) :
    (∀ fuel1, fuel ≤ fuel1 →
      get_package env cfg (fuel1 + 2) name reg = Except.ok (some n, reg4)) ∧
    n = reg.heap.length ∧ ∃ p, reg4.heap[n]? = some p ∧
      p.key = some (name ++ "-uninstalled".toList) ∧ p.uninstalled = true ∧
      p.name = raw.name ∧ p.version = raw.version ∧ p.description = raw.description ∧
      p.url = raw.url ∧ p.vars = raw.vars ∧ p.conflicts = raw.conflicts ∧
      p.requires_entries = raw.requires_entries ∧
      p.requires_private_entries = raw.requires_private_entries ∧
      p.l_libs = raw.l_libs ∧ p.other_libs = raw.other_libs ∧
      p.other_cflags = raw.other_cflags := by
  have hloc : ∀ fuel1, locate_package cfg (internal_get_package env cfg fuel1)
      (name ++ "-uninstalled".toList) reg =
      Except.ok (Located.location (some (dir ++ name ++ "-uninstalled.pc".toList)) false reg) := by
    intro fuel1
    unfold locate_package
    rw [ends_in_dotpc_uninstalled, name_ends_in_uninstalled_uninstalled name hne]
    simp only [Bool.not_true, Bool.and_false, Bool.false_eq_true, if_false, hl2]
  have hprobe : ∀ fuel1, fuel ≤ fuel1 →
      internal_get_package env cfg (fuel1 + 1) (name ++ "-uninstalled".toList) false reg =
        Except.ok (some n, reg4) := by
    intro fuel1 hle
    have hlink1 := link_package_mono _ (internal_get_package env cfg fuel1)
      (fun nm w r x hx => internal_get_package_mono_le env cfg fuel fuel1 hle nm w r x hx)
      false n reg2 reg3 hlink
    rw [internal_get_package]
    simp only [hc2, hloc fuel1, hload, hlink1, hverify]
  obtain ⟨hn, hp⟩ := uninstalled_probe env cfg fuel name dir raw reg (some n) reg4 hne hc2 hl2
    hparse (hprobe fuel (le_refl _))
  refine ⟨fun fuel1 hle => ?_, Option.some.inj hn, ?_⟩
  · unfold get_package
    rw [internal_get_package]
    simp only [hc1, locate_package, hpc, hcfg, hun, hprobe fuel1 hle]
    simp
  · rw [Option.some.inj hn]
    exact hp

/-- C14 as amended, a witness: the search path `registry_both` holds `foo.pc`
(version 1.0) and `foo-uninstalled.pc` (version 1.1); `get_package ("foo")`
returns the package of version 1.1 with the key `foo-uninstalled`. -/
theorem uninstalled_preferred_witness :
    get_package example_env2 default_config 7 "foo".toList registry_both =
      Except.ok (some 0,
        registry_step
          (verify_package example_env2
            (registry_loaded
              (load_package example_env2 default_config "foo-uninstalled".toList
                "/q/foo-uninstalled.pc".toList false registry_both) registry_both) 0)
          registry_both) ∧
    (returned_package
      (get_package example_env2 default_config 7 "foo".toList registry_both)).map
        (fun p => (p.key, p.uninstalled, p.version)) =
      some (some "foo-uninstalled".toList, true, some "1.1".toList) :=
  ⟨(uninstalled_preferred example_env2 default_config 0 "foo".toList "/q/".toList
     "/q/foo.pc".toList
     { zero_package with
       name := some "foo".toList, version := some "1.1".toList,
       description := some "a library in its build tree".toList }
     registry_both
     (registry_loaded
       (load_package example_env2 default_config "foo-uninstalled".toList
         "/q/foo-uninstalled.pc".toList false registry_both) registry_both)
     (registry_loaded
       (load_package example_env2 default_config "foo-uninstalled".toList
         "/q/foo-uninstalled.pc".toList false registry_both) registry_both)
     (registry_step
       (verify_package example_env2
         (registry_loaded
           (load_package example_env2 default_config "foo-uninstalled".toList
             "/q/foo-uninstalled.pc".toList false registry_both) registry_both) 0)
       registry_both)
     0 (by rfl) (by decide) (by decide) (by decide) (by decide) (by decide) (by decide)
     (by decide) (by decide) (by rfl) (by rfl) (by rfl)).1 5 (by decide),
   by decide⟩

/-- The second example parser leaves `requires` and `requires_private` empty. -/
theorem example_parse_file2_empty (location : CString) (a b c : Bool) (raw : Package)
    (h : example_env2.parse_package_file location a b c = some raw) :
    raw.requires = [] ∧ raw.requires_private = [] := by
  have h1 : example_parse_file2 location a b c = some raw := h
  unfold example_parse_file2 at h1
  split_ifs at h1 <;> cases h1 <;> exact ⟨rfl, rfl⟩

theorem registry_of_packages_in_heap (locations : GHashTable CString) :
    packages_in_heap (registry_of locations) := by
  intro name pkg h
  cases h

/-- C18, the claim as stated fails: `twice.pc` declares `Requires: foo >= 0.5` and
`Requires.private: foo <= 3.0`; after `get_package ("twice")` the table
`required_versions` maps `foo` to the entry `foo <= 3.0`, which is not the
first-declared entry `foo >= 0.5`. -/
theorem required_versions_not_first_wins :
    (returned_package
      (get_package example_env2 default_config 3 "twice".toList registry_libs)).map
        (fun p => ((p.required_versions.bind (fun t => g_hash_table_lookup t "foo".toList)),
          first_declared (p.requires_entries ++ p.requires_private_entries) "foo".toList)) =
      some
        (some ⟨"foo".toList, ComparisonType.LESS_THAN_EQUAL, some "3.0".toList⟩,
         some ⟨"foo".toList, ComparisonType.GREATER_THAN_EQUAL, some "0.5".toList⟩) ∧
    ¬ ∀ p, returned_package
        (get_package example_env2 default_config 3 "twice".toList registry_libs) = some p →
      p.required_versions.bind (fun t => g_hash_table_lookup t "foo".toList) =
        first_declared (p.requires_entries ++ p.requires_private_entries) "foo".toList := by
  refine ⟨by decide, fun h => ?_⟩
  have h1 := h _ rfl
  revert h1
  decide

/-- C18 as amended: in the record of a package that
`internal_get_package` created and returned, `required_versions` maps every
name that an entry of `Requires` or `Requires.private` carries to the
last-declared entry of this name (public entries in order, then private entries
in order): a later entry for the same name replaces the earlier one. -/
theorem required_versions_last_wins (env : Env) (cfg : Config) (fuel : Nat) (name : CString)
    (warn : Bool) (reg reg' : Registry) (pkg : Nat) (htab : packages_in_heap reg)
    (hnew : reg.heap.length ≤ pkg)
    (h : internal_get_package env cfg fuel name warn reg = Except.ok (some pkg, reg')) :
    ∃ p, reg'.heap[pkg]? = some p ∧
      ∀ key ver,
        last_declared (p.requires_entries ++ p.requires_private_entries) key = some ver →
        p.required_versions.bind (fun t => g_hash_table_lookup t key) = some ver := by
  obtain ⟨_, raw, R, P, p, _, hp, he, hpe, hrv, _, _⟩ :=
    created_package_spec env cfg fuel name warn reg reg' pkg htab h hnew
  refine ⟨p, hp, fun key ver hlast => ?_⟩
  rw [hrv, record_versions_lookup, ← he, ← hpe, hlast]

/-- C18, a witness: `get_package ("twice")` on the search path `registry_libs`
creates package 0, whose table maps `foo` to the last-declared entry. -/
theorem required_versions_last_wins_witness :
    packages_in_heap registry_libs ∧ registry_libs.heap.length ≤ 0 ∧
    internal_get_package example_env2 default_config 3 "twice".toList true registry_libs =
      Except.ok (some 0,
        registry_after
          (internal_get_package example_env2 default_config 3 "twice".toList true
            registry_libs) registry_libs) ∧
    ∃ p, (registry_after
        (internal_get_package example_env2 default_config 3 "twice".toList true registry_libs)
        registry_libs).heap[0]? = some p ∧
      ∀ key ver,
        last_declared (p.requires_entries ++ p.requires_private_entries) key = some ver →
        p.required_versions.bind (fun t => g_hash_table_lookup t key) = some ver :=
  ⟨registry_of_packages_in_heap _, by decide, by rfl,
   required_versions_last_wins example_env2 default_config 3 "twice".toList true registry_libs
     _ 0 (registry_of_packages_in_heap _) (by decide) (by rfl)⟩

/-- C19, the claim as stated fails: `app.pc` declares `Requires: a` and
`Requires.private: b`; after `get_package ("app")` package 1 is `a`, package 2
is `b`, `requires` is `[1]` and `requires_private` is `[2, 1]`, the private
requirement first, not `[1] ++ [2]`. -/
theorem requires_private_not_public_first :
    (returned_package
      (get_package example_env2 default_config 3 "app".toList registry_libs)).map
        (fun p => (p.requires, p.requires_private)) = some ([1], [2, 1]) ∧
    (registry_after (get_package example_env2 default_config 3 "app".toList registry_libs)
      registry_libs).heap.map (fun p => p.key) =
      [some "app".toList, some "a".toList, some "b".toList] ∧
    ¬ ∀ p, returned_package
        (get_package example_env2 default_config 3 "app".toList registry_libs) = some p →
      p.requires = [1] ∧ p.requires_private = [1] ++ [2] := by
  refine ⟨by decide, by decide, fun h => ?_⟩
  have h1 := (h _ rfl).2
  revert h1
  decide

/-- The packages that the entries of a loop resolve to, in the order of the
entries, are determined. -/
theorem resolves_in_order_unique
    {recurse : CString → Bool → Registry → Except Fatal (Option Nat × Registry)}
    {warn : Bool} {pkg : Nat} {is_private : Bool} {entries : List RequiredVersion}
    {reg : Registry} {rs rs2 : List Nat}
    (h : resolves_in_order recurse warn pkg is_private entries reg rs)
    (h2 : resolves_in_order recurse warn pkg is_private entries reg rs2) : rs = rs2 := by
  apply List.ext_getElem?
  intro i
  rcases Nat.lt_or_ge i entries.length with hi | hi
  · obtain ⟨a, ha⟩ : ∃ a, rs[i]? = some a := ⟨_, List.getElem?_eq_getElem (h.1 ▸ hi)⟩
    obtain ⟨b, hb⟩ : ∃ b, rs2[i]? = some b := ⟨_, List.getElem?_eq_getElem (h2.1 ▸ hi)⟩
    rw [ha, hb, entry_resolves_to_unique (h.2 i _ ha) (h2.2 i _ hb)]
  · rw [List.getElem?_eq_none (h.1 ▸ hi), List.getElem?_eq_none (h2.1 ▸ hi)]

/-- C19 as amended: let `internal_get_package` miss the cache for `name`, find
the location and load the package `pkg` with the record `p0`, whose lists
`requires` and `requires_private` the parser left empty, and let the
requirements be pulled in and the package verified without a fatal error.  Let
`R` hold, entry by entry in declaration order, the package each `Requires` entry
resolves to when the loop reaches it, and `P` the same for the
`Requires.private` entries, whose loop starts from the registry `reg_pub` that
the first loop left.  Then `internal_get_package` returns `pkg`, and in the
registry it leaves `requires = R` and `requires_private = P ++ R`: the declared
private requirements first, then the public ones, each in declaration
order. -/
theorem requires_private_order (env : Env) (cfg : Config) (fuel : Nat) (name : CString)
    (warn : Bool) (reg reg1 reg2 reg_pub reg3 reg4 : Registry) (location : CString)
    (literal : Bool) (pkg : Nat) (p0 : Package) (R P : List Nat)
    (hmiss : g_hash_table_lookup reg.packages name = none)
    (hloc : locate_package cfg (internal_get_package env cfg fuel) name reg =
      Except.ok (Located.location (some location) literal reg1))
    (hload : load_package env cfg name location literal reg1 = some (pkg, reg2))
    (hp0 : reg2.heap[pkg]? = some p0)
    (hempty : p0.requires = [] ∧ p0.requires_private = [])
    (hpub : pull_in_requires (internal_get_package env cfg fuel) warn pkg false
      p0.requires_entries reg2 = Except.ok reg_pub)
    (hR : resolves_in_order (internal_get_package env cfg fuel) warn pkg false
      p0.requires_entries reg2 R)
    (hP : resolves_in_order (internal_get_package env cfg fuel) warn pkg true
      p0.requires_private_entries reg_pub P)
    (hlink : link_package (internal_get_package env cfg fuel) warn pkg reg2 = Except.ok reg3)
    (hverify : verify_package env reg3 pkg = Except.ok reg4) :
    internal_get_package env cfg (fuel + 1) name warn reg = Except.ok (some pkg, reg4) ∧
    ∃ p, reg4.heap[pkg]? = some p ∧ p.requires = R ∧ p.requires_private = P ++ R := by
  refine ⟨?_, ?_⟩
  · rw [internal_get_package]
    simp only [hmiss, hloc, hload, hlink, hverify]
  · obtain ⟨R1, P1, reg_pub1, hpub1, hR1, hP1, hp3, _, _, _, _⟩ :=
      link_package_spec (internal_get_package env cfg fuel)
        (internal_get_package_grows env cfg fuel) warn pkg reg2 reg3 p0 hp0 hlink
    rw [hpub] at hpub1
    cases hpub1
    have hRR : R1 = R := resolves_in_order_unique hR1 hR
    have hPP : P1 = P := resolves_in_order_unique hP1 hP
    subst hRR
    subst hPP
    obtain ⟨p4, hp4, hreq, hpriv⟩ : ∃ p4, reg4.heap[pkg]? = some p4 ∧
        p4.requires = (R1.reverse ++ p0.requires).reverse ∧
        p4.requires_private =
          ((R1.reverse ++ p0.requires) ++ (P1.reverse ++ p0.requires_private)).reverse := by
      obtain ⟨p, chain1, requires, hp, _, _, _, _, hreg4⟩ :=
        verify_package_ok env reg3 reg4 pkg hverify
      rw [hp3] at hp
      have hpp := (Option.some.inj hp).symm
      subst hpp
      have hpkg3 : pkg < reg3.heap.length := getElem?_pos_of_some _ _ _ hp3
      rw [hreg4]
      simp only [List.getElem?_set_self hpkg3]
      exact ⟨_, rfl, rfl, rfl⟩
    refine ⟨p4, hp4, ?_, ?_⟩
    · rw [hreq, hempty.1]; simp
    · rw [hpriv, hempty.1, hempty.2]; simp

/-- C19 as amended, a witness: `app.pc` declares `Requires: a` and
`Requires.private: b`; `get_package ("app")` on the search path `registry_libs`
creates package 0, `a` resolves to package 1 and `b` to package 2, and the call
leaves `requires = [1]` and `requires_private = [2] ++ [1]`. -/
theorem requires_private_order_witness :
    internal_get_package example_env2 default_config 3 "app".toList true registry_libs =
      Except.ok (some 0,
        registry_after
          (internal_get_package example_env2 default_config 3 "app".toList true
            registry_libs) registry_libs) ∧
    ∃ p, (registry_after
        (internal_get_package example_env2 default_config 3 "app".toList true registry_libs)
        registry_libs).heap[0]? = some p ∧
      p.requires = [1] ∧ p.requires_private = [2] ++ [1] :=
  requires_private_order example_env2 default_config 2 "app".toList true registry_libs
    registry_libs
    (registry_loaded
      (load_package example_env2 default_config "app".toList "/q/app.pc".toList false
        registry_libs) registry_libs)
    (registry_step
      (pull_in_requires (internal_get_package example_env2 default_config 2) true 0 false
        [⟨"a".toList, ComparisonType.ALWAYS_MATCH, none⟩]
        (registry_loaded
          (load_package example_env2 default_config "app".toList "/q/app.pc".toList false
            registry_libs) registry_libs)) registry_libs)
    (registry_step
      (link_package (internal_get_package example_env2 default_config 2) true 0
        (registry_loaded
          (load_package example_env2 default_config "app".toList "/q/app.pc".toList false
            registry_libs) registry_libs)) registry_libs)
    (registry_after
      (internal_get_package example_env2 default_config 3 "app".toList true registry_libs)
      registry_libs)
    "/q/app.pc".toList false 0
    { zero_package with
      key := some "app".toList,
      name := some "app".toList, version := some "1".toList,
      description := some "an application".toList,
      requires_entries := [⟨"a".toList, ComparisonType.ALWAYS_MATCH, none⟩],
      requires_private_entries := [⟨"b".toList, ComparisonType.ALWAYS_MATCH, none⟩] }
    [1] [2]
    (by decide) (by rfl) (by rfl) (by rfl) ⟨rfl, rfl⟩ (by rfl)
    ⟨rfl, fun i req h => (by
      match i, h with
      | 0, h =>
        cases h
        exact ⟨_, _,
          registry_after
            (internal_get_package example_env2 default_config 2 "a".toList true
              (registry_loaded
                (load_package example_env2 default_config "app".toList "/q/app.pc".toList
                  false registry_libs) registry_libs))
            registry_libs, rfl, rfl, by rfl⟩)⟩
    ⟨rfl, fun i req h => (by
      match i, h with
      | 0, h =>
        cases h
        exact ⟨_, _,
          registry_after
            (internal_get_package example_env2 default_config 2 "b".toList true
              (registry_step
                (pull_in_requires (internal_get_package example_env2 default_config 2) true 0
                  false [⟨"a".toList, ComparisonType.ALWAYS_MATCH, none⟩]
                  (registry_loaded
                    (load_package example_env2 default_config "app".toList
                      "/q/app.pc".toList false registry_libs) registry_libs))
                registry_libs))
            registry_libs, rfl, rfl, by rfl⟩)⟩
    (by rfl) (by rfl)

/-- C20: invariant of the registry.  On a registry in which every package has
all of its `requires` on its `requires_private` and `packages` points into the
heap (the empty registry is one), a package that `get_package` or
`get_package_quiet` returns has every package of its `requires` on its
`requires_private`; and the registry the call leaves, whether it found a
package or not, is such a registry again. -/
theorem requires_private_superset (env : Env) (cfg : Config) (fuel : Nat) (name : CString)
    (reg reg' : Registry) (r : Option Nat)
    (hinv : ∀ p ∈ reg.heap, p.requires ⊆ p.requires_private) (htab : packages_in_heap reg)
    (h : get_package env cfg fuel name reg = Except.ok (r, reg') ∨
      get_package_quiet env cfg fuel name reg = Except.ok (r, reg')) :
    (∀ pkg, r = some pkg →
      ∃ p, reg'.heap[pkg]? = some p ∧ ∀ x ∈ p.requires, x ∈ p.requires_private) ∧
    (∀ p ∈ reg'.heap, p.requires ⊆ p.requires_private) ∧ packages_in_heap reg' := by
  have hgrow : ∀ warn, internal_get_package env cfg fuel name warn reg = Except.ok (r, reg') →
      heap_grows reg.heap reg'.heap ∧ packages_in_heap reg' ∧
        ∀ pkg, r = some pkg → pkg < reg'.heap.length := by
    intro warn hw
    obtain ⟨hg, ht⟩ := internal_get_package_grows env cfg fuel name warn reg _ _ hw
    exact ⟨hg, (ht htab).1, (ht htab).2⟩
  obtain ⟨⟨hlen, hframe, hnew⟩, htab', hpkg⟩ :
      heap_grows reg.heap reg'.heap ∧ packages_in_heap reg' ∧
        ∀ pkg, r = some pkg → pkg < reg'.heap.length := by
    rcases h with h | h
    · exact hgrow true h
    · exact hgrow false h
  have hall : ∀ p ∈ reg'.heap, p.requires ⊆ p.requires_private := by
    intro p hp
    obtain ⟨i, hi⟩ := List.mem_iff_getElem?.1 hp
    rcases Nat.lt_or_ge i reg.heap.length with hlt | hge
    · rw [hframe i hlt] at hi
      exact hinv p (List.getElem?_mem hi)
    · exact hnew i p hge hi
  refine ⟨fun pkg hr => ?_, hall, htab'⟩
  obtain ⟨p, hp⟩ : ∃ p, reg'.heap[pkg]? = some p :=
    ⟨_, List.getElem?_eq_getElem (hpkg pkg hr)⟩
  exact ⟨p, hp, hall p (List.getElem?_mem hp)⟩

/-- C20, a witness: `get_package ("app")` on the search path `registry_libs`
returns package 0, whose `requires` is `[1]` and whose `requires_private` is
`[2, 1]`. -/
theorem requires_private_superset_witness :
    (∀ p ∈ registry_libs.heap, p.requires ⊆ p.requires_private) ∧
    packages_in_heap registry_libs ∧
    get_package example_env2 default_config 3 "app".toList registry_libs =
      Except.ok (some 0,
        registry_after (get_package example_env2 default_config 3 "app".toList registry_libs)
          registry_libs) ∧
    ((∀ pkg, some 0 = some pkg → ∃ p, (registry_after
        (get_package example_env2 default_config 3 "app".toList registry_libs)
        registry_libs).heap[pkg]? = some p ∧ ∀ x ∈ p.requires, x ∈ p.requires_private) ∧
      (∀ p ∈ (registry_after
        (get_package example_env2 default_config 3 "app".toList registry_libs)
        registry_libs).heap, p.requires ⊆ p.requires_private) ∧
      packages_in_heap (registry_after
        (get_package example_env2 default_config 3 "app".toList registry_libs)
        registry_libs)) :=
  ⟨fun p hp => (by cases hp), registry_of_packages_in_heap _, by rfl,
   requires_private_superset example_env2 default_config 3 "app".toList registry_libs _
     (some 0) (fun p hp => (by cases hp)) (registry_of_packages_in_heap _) (Or.inl (by rfl))⟩

end PkgConfig


namespace PkgConfig

/-- The model of `strcmp` changes sign when its arguments are exchanged. -/
theorem strcmp_swap : ∀ a b : CString, strcmp b a = -strcmp a b := by
  intro a
  induction a with
  | nil =>
    intro b
    cases b with
    | nil => simp [strcmp]
    | cons c t => simp [strcmp]
  | cons c s ih =>
    intro b
    cases b with
    | nil => simp [strcmp]
    | cons d t =>
      simp only [strcmp]
      by_cases h : c = d
      · subst h
        simp [ih t]
      · rw [if_neg h, if_neg (Ne.symm h)]
        ring

/-- One round on two non-empty segments of the same type: exchanging the sides
negates the result, and the round goes on for both orders or for none. -/
theorem compare_segments_swap (isnum : Bool) (one two : CString) (h1 : one ≠ [])
    (h2 : two ≠ []) :
    compare_segments isnum two one = (compare_segments isnum one two).map (fun rc => -rc) := by
  unfold compare_segments
  rw [if_neg h1, if_neg h2, if_neg h2, if_neg h1]
  cases isnum with
  | false =>
    simp only [Bool.false_eq_true, false_and, if_false]
    rw [strcmp_swap one two]
    by_cases h : strcmp one two = 0
    · simp [h]
    · simp [h]
  | true =>
    simp only [if_true, true_and, gt_iff_lt]
    rcases lt_trichotomy (one.dropWhile (fun c => c == '0')).length
      (two.dropWhile (fun c => c == '0')).length with hlt | heq | hgt
    · have hn : ¬ (two.dropWhile (fun c => c == '0')).length <
          (one.dropWhile (fun c => c == '0')).length := by omega
      simp only [hlt, hn, if_true, if_false]
      rfl
    · have hn1 : ¬ (two.dropWhile (fun c => c == '0')).length <
          (one.dropWhile (fun c => c == '0')).length := by omega
      have hn2 : ¬ (one.dropWhile (fun c => c == '0')).length <
          (two.dropWhile (fun c => c == '0')).length := by omega
      simp only [hn1, hn2, if_false]
      rw [strcmp_swap (one.dropWhile (fun c => c == '0')) (two.dropWhile (fun c => c == '0'))]
      by_cases h : strcmp (one.dropWhile (fun c => c == '0'))
          (two.dropWhile (fun c => c == '0')) = 0
      · simp [h]
      · simp [h]
    · have hn : ¬ (one.dropWhile (fun c => c == '0')).length <
          (two.dropWhile (fun c => c == '0')).length := by omega
      simp only [hgt, hn, if_true, if_false]
      rfl

theorem rpmvercmp_tail_swap (one two : CString) (h : ¬ (one ≠ [] ∧ two ≠ [])) :
    rpmvercmp_tail two one = -rpmvercmp_tail one two := by
  unfold rpmvercmp_tail
  by_cases h1 : one = []
  · by_cases h2 : two = []
    · simp [h1, h2]
    · simp [h1, h2]
  · by_cases h2 : two = []
    · simp [h1, h2]
    · exact absurd ⟨h1, h2⟩ h

theorem compare_segments_nil_right (isnum : Bool) (one : CString) (h : one ≠ []) :
    compare_segments isnum one [] = some (if isnum then 1 else -1) := by
  unfold compare_segments
  rw [if_neg h, if_pos rfl]

theorem segment_true_of_not_digit (c : Char) (t : CString) (h : isdigit c = false) :
    segment true (c :: t) = [] := by
  unfold segment
  simp [List.takeWhile_cons, h]

theorem segment_false_of_not_alpha (c : Char) (t : CString) (h : isalpha c = false) :
    segment false (c :: t) = [] := by
  unfold segment
  simp [List.takeWhile_cons, h]

/-- The loop of `rpmvercmp` with the two sides exchanged returns the negated
result, with the same fuel. -/
theorem rpmvercmp_loop_swap : ∀ (fuel : Nat) (one two : CString),
    rpmvercmp_loop fuel two one = (rpmvercmp_loop fuel one two).map (fun rc => -rc) := by
  intro fuel
  induction fuel with
  | zero => intro one two; rfl
  | succ fuel ih =>
    intro one two
    rw [rpmvercmp_loop_succ, rpmvercmp_loop_succ]
    by_cases hne : one ≠ [] ∧ two ≠ []
    · rw [if_pos hne, if_pos (And.symm hne)]
      generalize ho : one.dropWhile (fun c => !isalnum c) = o
      generalize ht : two.dropWhile (fun c => !isalnum c) = t
      by_cases hne2 : o ≠ [] ∧ t ≠ []
      · rw [if_neg (not_not_intro hne2), if_neg (not_not_intro hne2.symm)]
        obtain ⟨c1, r1, rfl⟩ := List.exists_cons_of_ne_nil hne2.1
        obtain ⟨c2, r2, rfl⟩ := List.exists_cons_of_ne_nil hne2.2
        have ha1 : isalnum c1 = true := by
          have := dropWhile_head one c1 r1 ho
          simpa using this
        have ha2 : isalnum c2 = true := by
          have := dropWhile_head two c2 r2 ht
          simpa using this
        have hc1 : char_at (c1 :: r1) 0 = c1 := rfl
        have hc2 : char_at (c2 :: r2) 0 = c2 := rfl
        rw [hc1, hc2]
        have hs1 := segment_cons_ne_nil c1 r1 ha1
        have hs2 := segment_cons_ne_nil c2 r2 ha2
        cases hd1 : isdigit c1 with
        | false =>
          rw [hd1] at hs1
          cases hd2 : isdigit c2 with
          | false =>
            rw [hd2] at hs2
            rw [compare_segments_swap false _ _ hs1 hs2]
            rcases hcs : compare_segments false (segment false (c1 :: r1))
              (segment false (c2 :: r2)) with _ | rc
            · simp only [Option.map_none']
              exact ih _ _
            · simp only [Option.map_some']
          | true =>
            rw [hd2] at hs2
            rw [segment_true_of_not_digit c1 r1 hd1, compare_segments_nil_right true _ hs2,
              segment_false_of_not_alpha c2 r2 (isdigit_not_isalpha c2 hd2),
              compare_segments_nil_right false _ hs1]
            rfl
        | true =>
          rw [hd1] at hs1
          cases hd2 : isdigit c2 with
          | false =>
            rw [hd2] at hs2
            rw [segment_false_of_not_alpha c1 r1 (isdigit_not_isalpha c1 hd1),
              compare_segments_nil_right false _ hs2,
              segment_true_of_not_digit c2 r2 hd2, compare_segments_nil_right true _ hs1]
            rfl
          | true =>
            rw [hd2] at hs2
            rw [compare_segments_swap true _ _ hs1 hs2]
            rcases hcs : compare_segments true (segment true (c1 :: r1))
              (segment true (c2 :: r2)) with _ | rc
            · simp only [Option.map_none']
              exact ih _ _
            · simp only [Option.map_some']
      · rw [if_pos hne2, if_pos (fun h => hne2 h.symm)]
        simp only [Option.map_some']
        rw [rpmvercmp_tail_swap o t hne2]
    · rw [if_neg hne, if_neg (fun h => hne h.symm)]
      simp only [Option.map_some']
      rw [rpmvercmp_tail_swap one two hne]

/-- More fuel does not change a result of the loop. -/
theorem rpmvercmp_loop_mono : ∀ (fuel : Nat) (one two : CString) (r : Int),
    rpmvercmp_loop fuel one two = some r → rpmvercmp_loop (fuel + 1) one two = some r := by
  intro fuel
  induction fuel with
  | zero => intro one two r h; cases h
  | succ fuel ih =>
    intro one two r h
    rw [rpmvercmp_loop_succ] at h ⊢
    by_cases hne : one ≠ [] ∧ two ≠ []
    · rw [if_pos hne] at h ⊢
      by_cases hne2 : one.dropWhile (fun c => !isalnum c) ≠ [] ∧
          two.dropWhile (fun c => !isalnum c) ≠ []
      · rw [if_neg (not_not_intro hne2)] at h ⊢
        rcases hcs : compare_segments
          (isdigit (char_at (one.dropWhile (fun c => !isalnum c)) 0))
          (segment (isdigit (char_at (one.dropWhile (fun c => !isalnum c)) 0))
            (one.dropWhile (fun c => !isalnum c)))
          (segment (isdigit (char_at (one.dropWhile (fun c => !isalnum c)) 0))
            (two.dropWhile (fun c => !isalnum c))) with _ | rc
        · rw [hcs] at h
          simp only at h ⊢
          exact ih _ _ _ h
        · rw [hcs] at h
          exact h
      · rw [if_pos hne2] at h ⊢
        exact h
    · rw [if_neg hne] at h ⊢
      exact h

theorem rpmvercmp_loop_mono_add (fuel : Nat) (one two : CString) (r : Int)
    (h : rpmvercmp_loop fuel one two = some r) :
    ∀ k, rpmvercmp_loop (fuel + k) one two = some r := by
  intro k
  induction k with
  | zero => exact h
  | succ k ih => exact rpmvercmp_loop_mono _ _ _ _ ih

/-- In the model, where `strcmp` is the difference of the first characters that
differ, exchanging the arguments of `compare_versions` negates the result. -/
theorem compare_versions_swap (a b : CString) :
    compare_versions b a = -compare_versions a b := by
  unfold compare_versions rpmvercmp
  by_cases hab : a = b
  · subst hab
    simp
  · rw [if_neg hab, if_neg (fun h => hab h.symm)]
    obtain ⟨r, hr⟩ := rpmvercmp_loop_total (a.length + 1) a b (Nat.lt_succ_self _)
    obtain ⟨r', hr'⟩ := rpmvercmp_loop_total (b.length + 1) b a (Nat.lt_succ_self _)
    have h1 := rpmvercmp_loop_mono_add _ _ _ _ hr (b.length + 1)
    have h2 := rpmvercmp_loop_mono_add _ _ _ _ hr' (a.length + 1)
    have h3 := rpmvercmp_loop_swap (a.length + 1 + (b.length + 1)) a b
    rw [h1, show b.length + 1 + (a.length + 1) = a.length + 1 + (b.length + 1) by omega] at *
    rw [h2] at h3
    simp only [Option.map_some'] at h3
    rw [hr, hr']
    simpa using h3

/-- C28: sign antisymmetry of the version comparator: for all strings `a` and
`b`, `compare_versions (a, b)` and `compare_versions (b, a)` have opposite
signs: both are 0, or one is positive and the other negative; so for the
mixed-type round, where a numeric segment against an alphabetic one returns 1
and an alphabetic one against a numeric one returns -1. -/
theorem compare_versions_antisymmetric (a b : CString) :
    ((compare_versions a b = 0 ∧ compare_versions b a = 0) ∨
      (0 < compare_versions a b ∧ compare_versions b a < 0) ∨
      (compare_versions a b < 0 ∧ 0 < compare_versions b a)) ∧
    Int.sign (compare_versions b a) = -Int.sign (compare_versions a b) ∧
    compare_versions "1".toList "a".toList = 1 ∧
    compare_versions "a".toList "1".toList = -1 := by
  have h := compare_versions_swap a b
  refine ⟨?_, by rw [h, Int.sign_neg], by decide, by decide⟩
  rcases lt_trichotomy (compare_versions a b) 0 with h1 | h1 | h1
  · right; right; exact ⟨h1, by omega⟩
  · left; exact ⟨h1, by omega⟩
  · right; left; exact ⟨h1, by omega⟩

end PkgConfig


namespace PkgConfig

theorem lookup_insert {V : Type} (t : GHashTable V) (k k' : CString) (v : V) :
    g_hash_table_lookup (g_hash_table_insert t k v) k' =
      if k = k' then some v else g_hash_table_lookup t k' := rfl

/-- A name of the form `k.pc` with `k` not empty passes `ends_in_dotpc`, and
`k` is what `scan_dir` cuts out of it. -/
theorem ends_in_dotpc_append (k : CString) (hk : k ≠ []) :
    ends_in_dotpc (k ++ ".pc".toList) = true ∧
      (k ++ ".pc".toList).take ((k ++ ".pc".toList).length - EXT_LEN) = k := by
  have hpos : 0 < k.length := List.length_pos.2 hk
  have hlen : (k ++ ".pc".toList).length = k.length + 3 := by
    rw [List.length_append]; rfl
  constructor
  · unfold ends_in_dotpc char_at
    simp only [hlen, EXT_LEN, List.getD_eq_getElem?_getD]
    rw [List.getElem?_append_right (by omega), List.getElem?_append_right (by omega),
      List.getElem?_append_right (by omega)]
    have e1 : k.length + 3 - 3 - k.length = 0 := by omega
    have e2 : k.length + 3 - 2 - k.length = 1 := by omega
    have e3 : k.length + 3 - 1 - k.length = 2 := by omega
    rw [e1, e2, e3]
    simp
    omega
  · rw [hlen]
    simp [EXT_LEN]

/-- A name that passes `ends_in_dotpc` is the name `scan_dir` cuts out of it,
followed by `.pc`. -/
theorem ends_in_dotpc_split (d : CString) (h : ends_in_dotpc d = true) :
    d = d.take (d.length - EXT_LEN) ++ ".pc".toList := by
  unfold ends_in_dotpc at h
  simp only [Bool.and_eq_true, decide_eq_true_eq, beq_iff_eq, EXT_LEN] at h
  obtain ⟨⟨⟨hlen, h1⟩, h2⟩, h3⟩ := h
  have hsplit : d = d.take (d.length - 3) ++ d.drop (d.length - 3) :=
    (List.take_append_drop _ _).symm
  have hdl : (d.drop (d.length - 3)).length = 3 := by
    rw [List.length_drop]; omega
  have hc : ∀ i, i < 3 → char_at d (d.length - 3 + i) = (d.drop (d.length - 3)).getD i
      (Char.ofNat 0) := by
    intro i _
    unfold char_at
    simp only [List.getD_eq_getElem?_getD, List.getElem?_drop]
  have e2 : d.length - 2 = d.length - 3 + 1 := by omega
  have e3 : d.length - 1 = d.length - 3 + 2 := by omega
  rw [show d.length - 3 = d.length - 3 + 0 by omega, hc 0 (by omega)] at h1
  rw [e2, hc 1 (by omega)] at h2
  rw [e3, hc 2 (by omega)] at h3
  rcases hl : d.drop (d.length - 3) with _ | ⟨x, _ | ⟨y, _ | ⟨z, _ | ⟨w, rest⟩⟩⟩⟩
  · rw [hl] at hdl; simp at hdl
  · rw [hl] at hdl; simp at hdl
  · rw [hl] at hdl; simp at hdl
  · rw [hl] at h1 h2 h3
    simp only [List.getD_cons_zero, List.getD_cons_succ] at h1 h2 h3
    subst h1 h2 h3
    simp only [EXT_LEN]
    have hpc : ".pc".toList = ['.', 'p', 'c'] := rfl
    rw [hpc, ← hl]
    exact hsplit
  · rw [hl] at hdl; simp at hdl

theorem scan_dir_entry_count (host : Host) (dirname : CString) (n : Nat) (reg : Registry)
    (e : CString) :
    (scan_dir_entry host dirname n reg e).scanned_dir_count = reg.scanned_dir_count ∧
      (scan_dir_entry host dirname n reg e).search_dirs = reg.search_dirs := by
  unfold scan_dir_entry
  simp only
  split_ifs <;> exact ⟨rfl, rfl⟩

/-- An entry of a directory leaves a key that is already in `locations` as it
is. -/
theorem scan_dir_entry_present (host : Host) (dirname : CString) (n : Nat) (reg : Registry)
    (e k v : CString) (h : g_hash_table_lookup reg.locations k = some v) :
    g_hash_table_lookup (scan_dir_entry host dirname n reg e).locations k = some v ∧
      g_hash_table_lookup (scan_dir_entry host dirname n reg e).path_positions k =
        g_hash_table_lookup reg.path_positions k := by
  unfold scan_dir_entry
  simp only
  by_cases h1 : ends_in_dotpc e = true
  · rw [if_pos h1]
    by_cases h2 : (g_hash_table_lookup reg.locations (e.take (e.length - EXT_LEN))).isSome = true
    · rw [if_pos h2]
      exact ⟨h, rfl⟩
    · rw [if_neg h2]
      by_cases h3 : host.g_file_test_is_regular
          (dirname.take n ++ [G_DIR_SEPARATOR] ++ e) = true
      · rw [if_pos h3]
        have hne : e.take (e.length - EXT_LEN) ≠ k := by
          intro heq
          rw [heq, h] at h2
          exact h2 rfl
        simp only [lookup_insert, if_neg hne]
        exact ⟨h, trivial⟩
      · rw [if_neg h3]
        exact ⟨h, rfl⟩
  · rw [if_neg h1]
    exact ⟨h, rfl⟩

/-- An entry other than a regular file `k.pc` does not bring the key `k` into
`locations`. -/
theorem scan_dir_entry_absent (host : Host) (dirname : CString) (n : Nat) (reg : Registry)
    (e k : CString) (h : g_hash_table_lookup reg.locations k = none)
    (hno : e = k ++ ".pc".toList →
      host.g_file_test_is_regular (dirname.take n ++ [G_DIR_SEPARATOR] ++ e) = false) :
    g_hash_table_lookup (scan_dir_entry host dirname n reg e).locations k = none ∧
      g_hash_table_lookup (scan_dir_entry host dirname n reg e).path_positions k =
        g_hash_table_lookup reg.path_positions k := by
  unfold scan_dir_entry
  simp only
  by_cases h1 : ends_in_dotpc e = true
  · rw [if_pos h1]
    by_cases h2 : (g_hash_table_lookup reg.locations (e.take (e.length - EXT_LEN))).isSome = true
    · rw [if_pos h2]
      exact ⟨h, rfl⟩
    · rw [if_neg h2]
      by_cases h3 : host.g_file_test_is_regular
          (dirname.take n ++ [G_DIR_SEPARATOR] ++ e) = true
      · rw [if_pos h3]
        have hne : e.take (e.length - EXT_LEN) ≠ k := by
          intro heq
          have he := ends_in_dotpc_split e h1
          rw [heq] at he
          rw [hno he] at h3
          cases h3
        simp only [lookup_insert, if_neg hne]
        exact ⟨h, trivial⟩
      · rw [if_neg h3]
        exact ⟨h, rfl⟩
  · rw [if_neg h1]
    exact ⟨h, rfl⟩

/-- The entry `k.pc`, a regular file, brings the key `k` into `locations`
when it is not there yet, with the current scan counter as its rank. -/
theorem scan_dir_entry_insert (host : Host) (dirname : CString) (n : Nat) (reg : Registry)
    (k : CString) (hk : k ≠ []) (h : g_hash_table_lookup reg.locations k = none)
    (hreg : host.g_file_test_is_regular
      (dirname.take n ++ [G_DIR_SEPARATOR] ++ (k ++ ".pc".toList)) = true) :
    g_hash_table_lookup (scan_dir_entry host dirname n reg (k ++ ".pc".toList)).locations k =
        some (dirname.take n ++ [G_DIR_SEPARATOR] ++ (k ++ ".pc".toList)) ∧
      g_hash_table_lookup
        (scan_dir_entry host dirname n reg (k ++ ".pc".toList)).path_positions k =
        some reg.scanned_dir_count := by
  obtain ⟨h1, h2⟩ := ends_in_dotpc_append k hk
  unfold scan_dir_entry
  simp only
  rw [if_pos h1, h2, h]
  simp only [Option.isSome_none, Bool.false_eq_true, if_false]
  rw [if_pos hreg]
  simp only [lookup_insert, if_true, and_self]

theorem scan_entries_count (host : Host) (dirname : CString) (n : Nat) :
    ∀ (dir : List CString) (reg : Registry),
      (dir.foldl (scan_dir_entry host dirname n) reg).scanned_dir_count =
          reg.scanned_dir_count ∧
        (dir.foldl (scan_dir_entry host dirname n) reg).search_dirs = reg.search_dirs := by
  intro dir
  induction dir with
  | nil => intro reg; exact ⟨rfl, rfl⟩
  | cons e dir ih =>
    intro reg
    rw [List.foldl_cons]
    obtain ⟨h1, h2⟩ := ih (scan_dir_entry host dirname n reg e)
    obtain ⟨h3, h4⟩ := scan_dir_entry_count host dirname n reg e
    exact ⟨h1.trans h3, h2.trans h4⟩

theorem scan_entries_present (host : Host) (dirname : CString) (n : Nat) (k v : CString) :
    ∀ (dir : List CString) (reg : Registry),
      g_hash_table_lookup reg.locations k = some v →
      g_hash_table_lookup (dir.foldl (scan_dir_entry host dirname n) reg).locations k =
          some v ∧
        g_hash_table_lookup (dir.foldl (scan_dir_entry host dirname n) reg).path_positions k =
          g_hash_table_lookup reg.path_positions k := by
  intro dir
  induction dir with
  | nil => intro reg h; exact ⟨h, rfl⟩
  | cons e dir ih =>
    intro reg h
    rw [List.foldl_cons]
    obtain ⟨h1, h2⟩ := scan_dir_entry_present host dirname n reg e k v h
    obtain ⟨h3, h4⟩ := ih _ h1
    exact ⟨h3, h4.trans h2⟩

theorem scan_entries_absent (host : Host) (dirname : CString) (n : Nat) (k : CString)
    (hno : host.g_file_test_is_regular
      (dirname.take n ++ [G_DIR_SEPARATOR] ++ (k ++ ".pc".toList)) = false) :
    ∀ (dir : List CString) (reg : Registry),
      g_hash_table_lookup reg.locations k = none →
      g_hash_table_lookup (dir.foldl (scan_dir_entry host dirname n) reg).locations k = none ∧
        g_hash_table_lookup (dir.foldl (scan_dir_entry host dirname n) reg).path_positions k =
          g_hash_table_lookup reg.path_positions k := by
  intro dir
  induction dir with
  | nil => intro reg h; exact ⟨h, rfl⟩
  | cons e dir ih =>
    intro reg h
    rw [List.foldl_cons]
    obtain ⟨h1, h2⟩ := scan_dir_entry_absent host dirname n reg e k h
      (fun he => by rw [he]; exact hno)
    obtain ⟨h3, h4⟩ := ih _ h1
    exact ⟨h3, h4.trans h2⟩

theorem scan_entries_not_listed (host : Host) (dirname : CString) (n : Nat) (k : CString) :
    ∀ (dir : List CString) (reg : Registry), k ++ ".pc".toList ∉ dir →
      g_hash_table_lookup reg.locations k = none →
      g_hash_table_lookup (dir.foldl (scan_dir_entry host dirname n) reg).locations k = none ∧
        g_hash_table_lookup (dir.foldl (scan_dir_entry host dirname n) reg).path_positions k =
          g_hash_table_lookup reg.path_positions k := by
  intro dir
  induction dir with
  | nil => intro reg _ h; exact ⟨h, rfl⟩
  | cons e dir ih =>
    intro reg hmem h
    rw [List.foldl_cons]
    obtain ⟨h1, h2⟩ := scan_dir_entry_absent host dirname n reg e k h
      (fun he => absurd (he ▸ List.mem_cons_self _ _) hmem)
    obtain ⟨h3, h4⟩ := ih _ (fun hm => hmem (List.mem_cons_of_mem _ hm)) h1
    exact ⟨h3, h4.trans h2⟩

theorem scan_entries_insert (host : Host) (dirname : CString) (n : Nat) (k : CString)
    (hk : k ≠ [])
    (hreg : host.g_file_test_is_regular
      (dirname.take n ++ [G_DIR_SEPARATOR] ++ (k ++ ".pc".toList)) = true) :
    ∀ (dir : List CString) (reg : Registry), k ++ ".pc".toList ∈ dir →
      g_hash_table_lookup reg.locations k = none →
      g_hash_table_lookup (dir.foldl (scan_dir_entry host dirname n) reg).locations k =
          some (dirname.take n ++ [G_DIR_SEPARATOR] ++ (k ++ ".pc".toList)) ∧
        g_hash_table_lookup (dir.foldl (scan_dir_entry host dirname n) reg).path_positions k =
          some reg.scanned_dir_count := by
  intro dir
  induction dir with
  | nil => intro reg hmem _; cases hmem
  | cons e dir ih =>
    intro reg hmem h
    rw [List.foldl_cons]
    by_cases he : e = k ++ ".pc".toList
    · subst he
      obtain ⟨h1, h2⟩ := scan_dir_entry_insert host dirname n reg k hk h hreg
      obtain ⟨h3, h4⟩ := scan_entries_present host dirname n k _ dir _ h1
      exact ⟨h3, h4.trans h2⟩
    · have hmem' : k ++ ".pc".toList ∈ dir := by
        rcases List.mem_cons.1 hmem with h0 | h0
        · exact absurd h0.symm he
        · exact h0
      obtain ⟨h1, _⟩ := scan_dir_entry_absent host dirname n reg e k h
        (fun h0 => absurd h0 he)
      obtain ⟨h3, h4⟩ := ih _ hmem' h1
      rw [(scan_dir_entry_count host dirname n reg e).1] at h4
      exact ⟨h3, h4⟩

theorem scan_dir_count (host : Host) (reg : Registry) (d : CString) :
    (scan_dir host reg d).scanned_dir_count =
        reg.scanned_dir_count + (if dir_readable host d = true then 1 else 0) ∧
      (scan_dir host reg d).search_dirs = reg.search_dirs := by
  unfold scan_dir dir_readable
  simp only
  rcases Option.eq_none_or_eq_some (host.opendir (d.take (scan_dir_dirnamelen d))) with
    h | ⟨dir, h⟩
  · simp [h]
  · simp only [h, Option.isSome_some, if_true]
    obtain ⟨h1, h2⟩ := scan_entries_count host d (scan_dir_dirnamelen d) dir
      { reg with scanned_dir_count := reg.scanned_dir_count + 1 }
    exact ⟨h1, h2⟩

theorem scan_dir_present (host : Host) (reg : Registry) (d k v : CString)
    (h : g_hash_table_lookup reg.locations k = some v) :
    g_hash_table_lookup (scan_dir host reg d).locations k = some v ∧
      g_hash_table_lookup (scan_dir host reg d).path_positions k =
        g_hash_table_lookup reg.path_positions k := by
  unfold scan_dir
  simp only
  rcases Option.eq_none_or_eq_some (host.opendir (d.take (scan_dir_dirnamelen d))) with
    h0 | ⟨dir, h0⟩
  · simp only [h0]
    exact ⟨h, trivial⟩
  · simp only [h0]
    exact scan_entries_present host d (scan_dir_dirnamelen d) k v dir
      { reg with scanned_dir_count := reg.scanned_dir_count + 1 } h

theorem scan_dir_absent (host : Host) (reg : Registry) (d k : CString)
    (h : g_hash_table_lookup reg.locations k = none) (hno : dir_provides host d k = false) :
    g_hash_table_lookup (scan_dir host reg d).locations k = none ∧
      g_hash_table_lookup (scan_dir host reg d).path_positions k =
        g_hash_table_lookup reg.path_positions k := by
  unfold scan_dir
  unfold dir_provides dir_file at hno
  simp only
  rcases Option.eq_none_or_eq_some (host.opendir (d.take (scan_dir_dirnamelen d))) with
    h0 | ⟨dir, h0⟩
  · simp only [h0]
    exact ⟨h, trivial⟩
  · simp only [h0, Bool.and_eq_false_imp, decide_eq_true_eq] at hno ⊢
    by_cases hmem : k ++ ".pc".toList ∈ dir
    · exact scan_entries_absent host d (scan_dir_dirnamelen d) k (hno hmem) dir
        { reg with scanned_dir_count := reg.scanned_dir_count + 1 } h
    · exact scan_entries_not_listed host d (scan_dir_dirnamelen d) k dir
        { reg with scanned_dir_count := reg.scanned_dir_count + 1 } hmem h

theorem scan_dir_insert (host : Host) (reg : Registry) (d k : CString) (hk : k ≠ [])
    (h : g_hash_table_lookup reg.locations k = none) (hyes : dir_provides host d k = true) :
    g_hash_table_lookup (scan_dir host reg d).locations k = some (dir_file d k) ∧
      g_hash_table_lookup (scan_dir host reg d).path_positions k =
        some (reg.scanned_dir_count + 1) := by
  unfold scan_dir
  unfold dir_provides at hyes
  unfold dir_file at hyes ⊢
  simp only
  rcases Option.eq_none_or_eq_some (host.opendir (d.take (scan_dir_dirnamelen d))) with
    h0 | ⟨dir, h0⟩
  · simp [h0] at hyes
  · simp only [h0, Bool.and_eq_true, decide_eq_true_eq] at hyes ⊢
    exact scan_entries_insert host d (scan_dir_dirnamelen d) k hk hyes.2 dir
      { reg with scanned_dir_count := reg.scanned_dir_count + 1 } hyes.1 h

theorem scan_dirs_search_dirs (host : Host) :
    ∀ (dirs : List CString) (reg : Registry),
      (dirs.foldl (scan_dir host) reg).search_dirs = reg.search_dirs := by
  intro dirs
  induction dirs with
  | nil => intro reg; rfl
  | cons d dirs ih =>
    intro reg
    rw [List.foldl_cons, ih, (scan_dir_count host reg d).2]

theorem scan_dirs_present (host : Host) (k v : CString) :
    ∀ (dirs : List CString) (reg : Registry),
      g_hash_table_lookup reg.locations k = some v →
      g_hash_table_lookup (dirs.foldl (scan_dir host) reg).locations k = some v ∧
        g_hash_table_lookup (dirs.foldl (scan_dir host) reg).path_positions k =
          g_hash_table_lookup reg.path_positions k := by
  intro dirs
  induction dirs with
  | nil => intro reg h; exact ⟨h, rfl⟩
  | cons d dirs ih =>
    intro reg h
    rw [List.foldl_cons]
    obtain ⟨h1, h2⟩ := scan_dir_present host reg d k v h
    obtain ⟨h3, h4⟩ := ih _ h1
    exact ⟨h3, h4.trans h2⟩

/-- Directories that do not provide `k` leave `k` out of `locations`; the scan
counter grows by the number of them that could be opened. -/
theorem scan_dirs_absent (host : Host) (k : CString) :
    ∀ (dirs : List CString) (reg : Registry),
      (∀ d ∈ dirs, dir_provides host d k = false) →
      g_hash_table_lookup reg.locations k = none →
      g_hash_table_lookup (dirs.foldl (scan_dir host) reg).locations k = none ∧
        (dirs.foldl (scan_dir host) reg).scanned_dir_count =
          reg.scanned_dir_count + (readable_count host dirs : Nat) := by
  intro dirs
  induction dirs with
  | nil => intro reg _ h; exact ⟨h, by simp [readable_count]⟩
  | cons d dirs ih =>
    intro reg hall h
    rw [List.foldl_cons]
    obtain ⟨h1, _⟩ := scan_dir_absent host reg d k h (hall d (List.mem_cons_self _ _))
    obtain ⟨h3, h4⟩ := ih _ (fun x hx => hall x (List.mem_cons_of_mem _ hx)) h1
    refine ⟨h3, ?_⟩
    rw [h4, (scan_dir_count host reg d).1]
    unfold readable_count
    rw [List.filter_cons]
    by_cases hr : dir_readable host d = true
    · simp only [hr, if_true, List.length_cons]
      push_cast
      ring
    · simp only [hr, Bool.false_eq_true, if_false]
      ring

/-- The scan of the directories `pre ++ d :: post` from a registry that does
not know `k`, when `d` is the first directory that provides `k`. -/
theorem scan_dirs_first (host : Host) (reg0 : Registry) (k d : CString)
    (pre post : List CString) (hk : k ≠ [])
    (hloc0 : g_hash_table_lookup reg0.locations k = none)
    (hpre : ∀ d' ∈ pre, dir_provides host d' k = false)
    (hd : dir_provides host d k = true) :
    g_hash_table_lookup ((pre ++ d :: post).foldl (scan_dir host) reg0).locations k =
        some (dir_file d k) ∧
      g_hash_table_lookup ((pre ++ d :: post).foldl (scan_dir host) reg0).path_positions k =
        some (reg0.scanned_dir_count + ((readable_count host pre + 1 : Nat) : Int)) := by
  rw [List.foldl_append, List.foldl_cons]
  obtain ⟨h1, h2⟩ := scan_dirs_absent host k pre reg0 hpre hloc0
  obtain ⟨h3, h4⟩ := scan_dir_insert host (pre.foldl (scan_dir host) reg0) d k hk h1 hd
  obtain ⟨h5, h6⟩ := scan_dirs_present host k _ post _ h3
  refine ⟨h5, ?_⟩
  rw [h6, h4, h2]
  push_cast
  ring_nf

/-- C22: first directory wins in the search-path index.  Let the registered
directories be `pre ++ d :: post`, where `d` can be opened, lists `k.pc` and
has it as a regular file, and no directory of `pre` does (`post` may hold any
number of directories that do).  After `package_init` the location index maps
the non-empty key `k` to the file in `d`, and the rank stored for `k` is the
scan counter of `d`: the counter before the call plus the number of directories
up to `d` that could be opened. -/
theorem first_directory_wins (host : Host) (reg : Registry) (k d : CString)
    (pre post : List CString) (hk : k ≠ []) (hdirs : reg.search_dirs = pre ++ d :: post)
    (hpre : ∀ d' ∈ pre, dir_provides host d' k = false)
    (hd : dir_provides host d k = true) :
    g_hash_table_lookup (package_init host false reg).2.locations k = some (dir_file d k) ∧
      g_hash_table_lookup (package_init host false reg).2.path_positions k =
        some (reg.scanned_dir_count + ((readable_count host pre + 1 : Nat) : Int)) ∧
      (package_init host false reg).1 = true ∧
      (package_init host false reg).2.search_dirs = reg.search_dirs := by
  have hfold : reg.search_dirs.foldl (scan_dir host)
      (add_virtual_pkgconfig_package host
        { reg with packages := [], locations := [], path_positions := [] }).2 =
      (pre ++ d :: post).foldl (scan_dir host)
        (add_virtual_pkgconfig_package host
          { reg with packages := [], locations := [], path_positions := [] }).2 :=
    congrArg (fun l => List.foldl (scan_dir host)
      (add_virtual_pkgconfig_package host
        { reg with packages := [], locations := [], path_positions := [] }).2 l) hdirs
  obtain ⟨h1, h2⟩ := scan_dirs_first host
    (add_virtual_pkgconfig_package host
      { reg with packages := [], locations := [], path_positions := [] }).2
    k d pre post hk rfl hpre hd
  refine ⟨?_, ?_, rfl, ?_⟩
  · show g_hash_table_lookup (reg.search_dirs.foldl (scan_dir host)
      (add_virtual_pkgconfig_package host
        { reg with packages := [], locations := [], path_positions := [] }).2).locations k = _
    rw [hfold]
    exact h1
  · show g_hash_table_lookup (reg.search_dirs.foldl (scan_dir host)
      (add_virtual_pkgconfig_package host
        { reg with packages := [], locations := [], path_positions := [] }).2).path_positions
      k = _
    rw [hfold]
    exact h2
  · show (reg.search_dirs.foldl (scan_dir host)
      (add_virtual_pkgconfig_package host
        { reg with packages := [], locations := [], path_positions := [] }).2).search_dirs = _
    rw [scan_dirs_search_dirs]
    rfl

/-- C22, a witness: the search path is `/a`, `/missing`, `/b/`, `/c`; `foo.pc`
is a regular file in `/b` and in `/c`, and `/a` is the only directory before
`/b/` that can be opened.  The index maps `foo` to `/b/foo.pc` with rank 2. -/
theorem first_directory_wins_witness :
    dir_provides example_host "/c".toList "foo".toList = true ∧
    g_hash_table_lookup (package_init example_host false registry_search_path).2.locations
      "foo".toList = some "/b/foo.pc".toList ∧
    g_hash_table_lookup (package_init example_host false registry_search_path).2.path_positions
      "foo".toList = some 2 ∧
    (g_hash_table_lookup (package_init example_host false registry_search_path).2.locations
        "foo".toList = some (dir_file "/b/".toList "foo".toList) ∧
      g_hash_table_lookup
        (package_init example_host false registry_search_path).2.path_positions
        "foo".toList =
        some (registry_search_path.scanned_dir_count +
          ((readable_count example_host ["/a".toList, "/missing".toList] + 1 : Nat) : Int)) ∧
      (package_init example_host false registry_search_path).1 = true ∧
      (package_init example_host false registry_search_path).2.search_dirs =
        registry_search_path.search_dirs) :=
  ⟨by decide, by decide, by decide,
   first_directory_wins example_host registry_search_path "foo".toList "/b/".toList
     ["/a".toList, "/missing".toList] ["/c".toList] (by decide) (by decide) (by decide)
     (by decide)⟩

end PkgConfig


namespace PkgConfig

/-- The loop that looks for the start of the key stops on the separator: from
any index inside a part without separator it walks back to the index of the
separator before that part. -/
theorem key_start_stop (dir rest : CString) :
    ∀ j, j ≤ rest.length → (∀ c ∈ rest.take j, c ≠ G_DIR_SEPARATOR) →
      key_start (dir ++ G_DIR_SEPARATOR :: rest) (dir.length + j) = dir.length := by
  have hsep : char_at (dir ++ G_DIR_SEPARATOR :: rest) dir.length = G_DIR_SEPARATOR := by
    unfold char_at
    rw [List.getD_eq_getElem?_getD, List.getElem?_append_right (le_refl _)]
    simp
  intro j
  induction j with
  | zero =>
    intro _ _
    rcases hd : dir.length with _ | n
    · rfl
    · rw [hd] at hsep
      simp only [Nat.add_zero, key_start, hsep, ne_eq, not_true_eq_false, if_false]
  | succ j ih =>
    intro hj hall
    have hc : char_at (dir ++ G_DIR_SEPARATOR :: rest) (dir.length + j + 1) ∈
        rest.take (j + 1) := by
      unfold char_at
      rw [List.getD_eq_getElem?_getD, List.getElem?_append_right (by omega)]
      have e : dir.length + j + 1 - dir.length = j + 1 := by omega
      rw [e, List.getElem?_cons_succ, List.getElem?_eq_getElem (by omega)]
      simp only [Option.getD_some]
      rw [List.mem_take_iff_getElem]
      exact ⟨j, by simp; omega, rfl⟩
    have hne := hall _ hc
    rw [← Nat.add_assoc]
    simp only [key_start, hne, ne_eq, not_false_eq_true, if_true]
    exact ih (by omega) (fun c hcm => hall c (List.take_subset_take_left _ (by omega) hcm))

/-- The key cut out of `dir/base.pc` when `base` has no separator: the
separator and `base`. -/
theorem key_of_filename_path (dir base : CString) (hbase : G_DIR_SEPARATOR ∉ base) :
    key_of_filename (dir ++ "/".toList ++ base ++ ".pc".toList) = "/".toList ++ base := by
  have hname : dir ++ "/".toList ++ base ++ ".pc".toList =
      dir ++ G_DIR_SEPARATOR :: (base ++ ".pc".toList) := by
    simp [G_DIR_SEPARATOR]
  have hlen : (dir ++ G_DIR_SEPARATOR :: (base ++ ".pc".toList)).length =
      dir.length + (base.length + 1) + 3 := by
    simp only [List.length_append, List.length_cons]
    have : ".pc".toList.length = 3 := rfl
    omega
  have hstart := key_start_stop dir (base ++ ".pc".toList) (base.length + 1)
    (by simp) (by
      intro c hc
      have h1 : (base ++ ".pc".toList).take (base.length + 1) = base ++ ['.'] := by
        rw [List.take_append_eq_append_take]
        simp
      rw [h1] at hc
      rcases List.mem_append.1 hc with h2 | h2
      · exact fun h => hbase (h ▸ h2)
      · simp at h2
        subst h2
        decide)
  unfold key_of_filename
  simp only [hname, hlen, EXT_LEN, Nat.add_sub_cancel, hstart]
  rw [List.drop_left]
  have e : dir.length + (base.length + 1) - dir.length = base.length + 1 := by omega
  rw [e]
  simp [G_DIR_SEPARATOR]

/-- C21, the code at literal paths.  For a name `dir/base.pc` that is not
cached, with no separator in `base`, a call of `internal_get_package` that
returns a package returns a new one whose key is the separator followed by
`base`, not `base`: the loop that looks for the start of the key stops on the
separator and the separator is copied into the key.  For a name found through
the location index (`location != name`) the key set by `load_package` is the
name itself. -/
theorem literal_path_key (env : Env) (cfg : Config) (fuel : Nat) (dir base : CString)
    (warn : Bool) (reg reg' : Registry) (pkg : Nat) (hbase : G_DIR_SEPARATOR ∉ base)
    (hmiss : g_hash_table_lookup reg.packages (dir ++ "/".toList ++ base ++ ".pc".toList) = none)
    (hres : internal_get_package env cfg (fuel + 1) (dir ++ "/".toList ++ base ++ ".pc".toList)
      warn reg = Except.ok (some pkg, reg')) :
    (pkg = reg.heap.length ∧ ∃ p, reg'.heap[pkg]? = some p ∧ p.key = some ("/".toList ++ base) ∧
      p.key ≠ some base) ∧
    ∀ name location reg1 pkg1 reg2,
      load_package env cfg name location false reg1 = some (pkg1, reg2) →
      ∃ p, reg2.heap[pkg1]? = some p ∧ p.key = some name := by
  constructor
  · have hpc : ends_in_dotpc (dir ++ "/".toList ++ base ++ ".pc".toList) = true :=
      (ends_in_dotpc_append (dir ++ "/".toList ++ base) (by simp)).1
    have hloc : locate_package cfg (internal_get_package env cfg fuel)
        (dir ++ "/".toList ++ base ++ ".pc".toList) reg =
        Except.ok (Located.location (some (dir ++ "/".toList ++ base ++ ".pc".toList)) true
          reg) := by
      unfold locate_package
      rw [if_pos hpc]
    unfold internal_get_package at hres
    simp only [hmiss, hloc] at hres
    rcases Option.eq_none_or_eq_some (load_package env cfg
      (dir ++ "/".toList ++ base ++ ".pc".toList) (dir ++ "/".toList ++ base ++ ".pc".toList)
      true reg) with hload | ⟨⟨pkg2, reg2⟩, hload⟩
    · simp only [hload] at hres
      cases hres
    simp only [hload] at hres
    rcases hlink : link_package (internal_get_package env cfg fuel) warn pkg2 reg2 with
      e | reg3
    · rw [hlink] at hres; cases hres
    rw [hlink] at hres
    simp only at hres
    rcases hverify : verify_package env reg3 pkg2 with e | reg4
    · rw [hverify] at hres; cases hres
    rw [hverify] at hres
    simp only at hres
    obtain ⟨hpk, rfl⟩ := Prod.mk.inj (Except.ok.inj hres)
    cases hpk
    obtain ⟨raw, R, P, _, _, hpkg, _, _, _, hp4, _, _⟩ :=
      fresh_package_spec env cfg _ (internal_get_package_grows env cfg fuel) _ _ true warn
        reg reg2 reg3 reg4 pkg hload hlink hverify
    refine ⟨hpkg, _, hp4, ?_, ?_⟩
    · simp only [if_true]
      rw [key_of_filename_path dir base hbase]
    · simp only [if_true]
      rw [key_of_filename_path dir base hbase]
      intro h
      have := congrArg List.length (Option.some.inj h)
      simp at this
  · intro name location reg1 pkg1 reg2 hload
    obtain ⟨raw, _, hpkg, hreg2⟩ := load_package_ok env cfg name location false reg1 reg2 pkg1 hload
    rw [hreg2, hpkg]
    refine ⟨_, List.getElem?_concat_length _ _, ?_⟩
    simp

/-- C21, the failing input: `/usr/lib/pkgconfig/foo.pc` gives the key `/foo`,
not `foo`; asked for under the name `foo` through the location index, the same
file gives the key `foo`. -/
theorem literal_path_key_witness :
    key_of_filename "/usr/lib/pkgconfig/foo.pc".toList = "/foo".toList ∧
    (returned_package (get_package example_env3 default_config 3
      "/usr/lib/pkgconfig/foo.pc".toList (registry_of []))).map (fun p => p.key) =
      some (some "/foo".toList) ∧
    (returned_package (get_package example_env3 default_config 3 "foo".toList
      (registry_of [("foo".toList, "/usr/lib/pkgconfig/foo.pc".toList)]))).map
        (fun p => p.key) = some (some "foo".toList) ∧
    ((0 = (registry_of []).heap.length ∧
      ∃ p, (registry_after (internal_get_package example_env3 default_config 3
          ("/usr/lib/pkgconfig".toList ++ "/".toList ++ "foo".toList ++ ".pc".toList) true
          (registry_of [])) (registry_of [])).heap[0]? = some p ∧
        p.key = some ("/".toList ++ "foo".toList) ∧ p.key ≠ some "foo".toList) ∧
    ∀ name location reg1 pkg1 reg2,
      load_package example_env3 default_config name location false reg1 = some (pkg1, reg2) →
      ∃ p, reg2.heap[pkg1]? = some p ∧ p.key = some name) :=
  ⟨by decide, by decide, by decide,
   literal_path_key example_env3 default_config 2 "/usr/lib/pkgconfig".toList "foo".toList true
     (registry_of []) _ 0 (by decide) (by decide) (by rfl)⟩

end PkgConfig


namespace PkgConfig

/-- On a valid heap `fill_list` returns and leaves the static chain as it found
it, whatever the chain is. -/
theorem fill_list_chain (heap : Heap) (pkgs : List Nat) (func : Package → List CString)
    (in_path_order include_private : Bool) (chain : List Nat) (hv : ValidHeap heap)
    (hr : ∀ p ∈ pkgs, p < heap.length) :
    ∃ l, fill_list heap pkgs func [] in_path_order include_private chain = some (l, chain) := by
  obtain ⟨expanded, he, hsound, _⟩ :=
    fill_list_expand_spec heap pkgs include_private chain hv hr
  obtain ⟨recs, hd, _⟩ := deref_all_spec heap expanded (fun x hx => (hsound x hx).1)
  simp only [fill_list, he, hd]
  exact ⟨_, rfl⟩

theorem get_multi_merged_chain (cfg : Config) (heap : Heap) (pkgs : List Nat)
    (func : Package → List CString) (in_path_order include_private : Bool)
    (hv : ValidHeap heap) (hr : ∀ p ∈ pkgs, p < heap.length) (chain : List Nat) :
    ∃ s, get_multi_merged cfg heap pkgs func in_path_order include_private chain =
      some (s, chain) := by
  obtain ⟨l, hl⟩ := fill_list_chain heap pkgs func in_path_order include_private chain hv hr
  simp only [get_multi_merged, hl]
  exact ⟨_, rfl⟩

theorem get_multi_merged_from_back_chain (cfg : Config) (heap : Heap) (pkgs : List Nat)
    (func : Package → List CString) (in_path_order include_private : Bool)
    (hv : ValidHeap heap) (hr : ∀ p ∈ pkgs, p < heap.length) (chain : List Nat) :
    ∃ s, get_multi_merged_from_back cfg heap pkgs func in_path_order include_private chain =
      some (s, chain) := by
  obtain ⟨l, hl⟩ := fill_list_chain heap pkgs func in_path_order include_private chain hv hr
  simp only [get_multi_merged_from_back, hl]
  exact ⟨_, rfl⟩

theorem append_category_chain (bit : Bool) (cur : List Nat → Option (CString × List Nat))
    (hcur : ∀ chain, ∃ s, cur chain = some (s, chain)) (st : CString × List Nat) :
    ∃ s, append_category bit cur st = some (s, st.2) := by
  unfold append_category
  cases bit with
  | false => exact ⟨st.1, rfl⟩
  | true =>
    obtain ⟨s, hs⟩ := hcur st.2
    simp only [if_true, hs]
    exact ⟨_, rfl⟩

/-- On a valid heap `packages_get_flags` returns and leaves the static chain as
it found it. -/
theorem packages_get_flags_chain (cfg : Config) (heap : Heap) (pkgs : List Nat)
    (flags : FlagType) (chain : List Nat) (hv : ValidHeap heap)
    (hr : ∀ p ∈ pkgs, p < heap.length) :
    ∃ s, packages_get_flags cfg heap pkgs flags chain = some (s, chain) := by
  obtain ⟨s1, h1⟩ := append_category_chain flags.CFLAGS_OTHER
    (get_multi_merged cfg heap pkgs get_other_cflags true true)
    (get_multi_merged_chain cfg heap pkgs _ _ _ hv hr) ([], chain)
  obtain ⟨s2, h2⟩ := append_category_chain flags.CFLAGS_I
    (get_multi_merged cfg heap pkgs get_I_cflags true true)
    (get_multi_merged_chain cfg heap pkgs _ _ _ hv hr) (s1, chain)
  obtain ⟨s3, h3⟩ := append_category_chain flags.LIBS_OTHER
    (get_multi_merged cfg heap pkgs get_other_libs true (!cfg.ignore_private_libs))
    (get_multi_merged_chain cfg heap pkgs _ _ _ hv hr) (s2, chain)
  obtain ⟨s4, h4⟩ := append_category_chain flags.LIBS_L
    (get_multi_merged cfg heap pkgs get_L_libs true (!cfg.ignore_private_libs))
    (get_multi_merged_chain cfg heap pkgs _ _ _ hv hr) (s3, chain)
  obtain ⟨s5, h5⟩ := append_category_chain flags.LIBS_l
    (get_multi_merged_from_back cfg heap pkgs get_l_libs false (!cfg.ignore_private_libs))
    (get_multi_merged_from_back_chain cfg heap pkgs _ _ _ hv hr) (s4, chain)
  refine ⟨s5, ?_⟩
  unfold packages_get_flags
  simp only [bind, Option.bind, h1, h2, h3, h4, h5]

/-- C23: flag aggregation has no hidden effect.  On a registry with a valid
heap, `packages_get_flags` returns a string and leaves the static chain of
`recursive_fill_list` as it was before the call (empty when it was empty): the
registry after the call is the registry before it, and a second call with the
same roots and categories returns the same string. -/
theorem flags_no_hidden_effect (cfg : Config) (reg : Registry) (pkgs : List Nat)
    (flags : FlagType) (hv : ValidHeap reg.heap) (hr : ∀ p ∈ pkgs, p < reg.heap.length) :
    ∃ s, packages_get_flags cfg reg.heap pkgs flags reg.chain = some (s, reg.chain) ∧
      ∀ s1 chain1, packages_get_flags cfg reg.heap pkgs flags reg.chain = some (s1, chain1) →
        chain1 = reg.chain ∧ { reg with chain := chain1 } = reg ∧
        packages_get_flags cfg ({ reg with chain := chain1 } : Registry).heap pkgs flags
          ({ reg with chain := chain1 } : Registry).chain = some (s1, chain1) := by
  obtain ⟨s, hs⟩ := packages_get_flags_chain cfg reg.heap pkgs flags reg.chain hv hr
  refine ⟨s, hs, fun s1 chain1 h1 => ?_⟩
  rw [hs] at h1
  obtain ⟨rfl, rfl⟩ := Prod.mk.inj (Option.some.inj h1)
  exact ⟨rfl, rfl, hs⟩

/-- C23, a witness: on the cyclic heap `heap_cycle`, all categories for the root
2 give `-Ic -Ia -Ib -lc -la -lb ` and an empty chain. -/
theorem flags_no_hidden_effect_witness :
    ValidHeap registry_cycle.heap ∧ (∀ p ∈ [2], p < registry_cycle.heap.length) ∧
    packages_get_flags default_config registry_cycle.heap [2] all_flags registry_cycle.chain =
      some ("-Ic -Ia -Ib -lc -la -lb ".toList, []) ∧
    ∃ s, packages_get_flags default_config registry_cycle.heap [2] all_flags
        registry_cycle.chain = some (s, registry_cycle.chain) ∧
      ∀ s1 chain1, packages_get_flags default_config registry_cycle.heap [2] all_flags
          registry_cycle.chain = some (s1, chain1) →
        chain1 = registry_cycle.chain ∧ { registry_cycle with chain := chain1 } = registry_cycle ∧
        packages_get_flags default_config
          ({ registry_cycle with chain := chain1 } : Registry).heap [2] all_flags
          ({ registry_cycle with chain := chain1 } : Registry).chain = some (s1, chain1) :=
  ⟨by decide, by decide, by decide,
   flags_no_hidden_effect default_config registry_cycle [2] all_flags (by decide) (by decide)⟩

/-- C26: cycle tolerance.  On a heap whose `func` pointers are valid (cycles
allowed) the traversal from a package of the heap returns, with the chain as it
found it, for every chain and list: with the fuel `fill_list` gives, and with
any fuel above the number of packages not yet on the chain.  A package on the
chain is skipped at once, and entering a package that is not on the chain
lowers the number of packages not on the chain. -/
theorem cycle_tolerance (heap : Heap) (func : Package → List Nat)
    (hv : ∀ p ∈ heap, ∀ q ∈ func p, q < heap.length) (pkg : Nat) (chain list : List Nat)
    (hpkg : pkg < heap.length) :
    (∃ list', recursive_fill_list heap func (heap.length + 1) pkg (chain, list) =
      some (chain, list')) ∧
    (∀ fuel, unvisited heap chain < fuel →
      ∃ list', recursive_fill_list heap func fuel pkg (chain, list) = some (chain, list')) ∧
    (pkg ∈ chain → ∀ fuel,
      recursive_fill_list heap func (fuel + 1) pkg (chain, list) = some (chain, list)) ∧
    (pkg ∉ chain → unvisited heap (pkg :: chain) < unvisited heap chain) := by
  refine ⟨?_, fun fuel hf => ?_, fun hmem fuel => ?_, fun hnot => ?_⟩
  · exact recursive_fill_list_total heap func hv _ pkg chain list hpkg
      (Nat.lt_succ_of_le (unvisited_le heap chain))
  · exact recursive_fill_list_total heap func hv fuel pkg chain list hpkg hf
  · rw [recursive_fill_list_succ]
    simp [g_slist_find, hmem]
  · exact unvisited_cons_lt heap chain pkg hpkg hnot

/-- C26, a witness: on `heap_cycle`, where packages 0 and 1 require each other
and package 2 requires itself, the traversal from package 2 returns the list
`[2, 0, 1]`. -/
theorem cycle_tolerance_witness :
    (∀ p ∈ heap_cycle, ∀ q ∈ get_requires p, q < heap_cycle.length) ∧
    2 < heap_cycle.length ∧
    recursive_fill_list heap_cycle get_requires (heap_cycle.length + 1) 2 ([], []) =
      some ([], [2, 0, 1]) ∧
    ((∃ list', recursive_fill_list heap_cycle get_requires (heap_cycle.length + 1) 2 ([], []) =
      some ([], list')) ∧
    (∀ fuel, unvisited heap_cycle [] < fuel →
      ∃ list', recursive_fill_list heap_cycle get_requires fuel 2 ([], []) = some ([], list')) ∧
    (2 ∈ ([] : List Nat) → ∀ fuel,
      recursive_fill_list heap_cycle get_requires (fuel + 1) 2 ([], []) = some ([], [])) ∧
    (2 ∉ ([] : List Nat) → unvisited heap_cycle (2 :: []) < unvisited heap_cycle [])) :=
  ⟨by decide, by decide, by decide,
   cycle_tolerance heap_cycle get_requires (by decide) 2 [] [] (by decide)⟩

/-- C27: closure completeness and soundness.  On a valid heap (cycles allowed),
for every list of roots in the heap and either edge set, the closure loop of
`fill_list` returns, and a package occurs in the list it builds if and only if
it is reachable from some root by zero or more edges of that edge set. -/
theorem closure_sound_complete (heap : Heap) (pkgs : List Nat) (include_private : Bool)
    (hv : ValidHeap heap) (hr : ∀ p ∈ pkgs, p < heap.length) :
    ∃ expanded, fill_list_expand heap pkgs include_private [] = some ([], expanded) ∧
      ∀ x, x ∈ expanded ↔ ∃ root ∈ pkgs,
        Reachable heap (if include_private then get_requires_private else get_requires)
          root x := by
  obtain ⟨expanded, he, hsound, hcomplete⟩ :=
    fill_list_expand_spec heap pkgs include_private [] hv hr
  refine ⟨expanded, he, fun x => ⟨fun hx => (hsound x hx).2, ?_⟩⟩
  rintro ⟨root, hroot, hreach⟩
  exact hcomplete rfl root hroot x hreach

/-- C27, a witness: on `heap_cycle` the roots 0 and 1, which require each
other, give a list that holds 0 and 1 and not 2. -/
theorem closure_sound_complete_witness :
    ValidHeap heap_cycle ∧ (∀ p ∈ [0, 1], p < heap_cycle.length) ∧
    fill_list_expand heap_cycle [0, 1] false [] = some ([], [1, 0, 0, 1]) ∧
    ∃ expanded, fill_list_expand heap_cycle [0, 1] false [] = some ([], expanded) ∧
      ∀ x, x ∈ expanded ↔ ∃ root ∈ [0, 1],
        Reachable heap_cycle (if false = true then get_requires_private else get_requires)
          root x :=
  ⟨by decide, by decide, by decide,
   closure_sound_complete heap_cycle [0, 1] false (by decide) (by decide)⟩

end PkgConfig


namespace PkgConfig

theorem foldlM_cons_ok {f : List Nat × List Nat → Nat → Option (List Nat × List Nat)}
    (c : Nat) (cs : List Nat) (st st' : List Nat × List Nat)
    (h : (c :: cs).foldlM f st = some st') :
    ∃ s1, f st c = some s1 ∧ cs.foldlM f s1 = some st' := by
  simp only [List.foldlM_cons, Option.bind_eq_bind] at h
  cases h1 : f st c with
  | none => rw [h1] at h; simp at h
  | some s1 =>
    rw [h1] at h
    simp only [Option.some_bind] at h
    exact ⟨s1, rfl, h⟩

theorem foldlM_cons_eq {f : List Nat × List Nat → Nat → Option (List Nat × List Nat)}
    (c : Nat) (cs : List Nat) (st s1 : List Nat × List Nat) (h1 : f st c = some s1) :
    (c :: cs).foldlM f st = cs.foldlM f s1 := by
  simp only [List.foldlM_cons, Option.bind_eq_bind, h1, Option.some_bind]

/-- A successful call returns the chain it found and puts packages in front of
the list it found. -/
theorem recursive_fill_list_shape (heap : Heap) (func : Package → List Nat)
    (fuel pkg : Nat) (chain list : List Nat) (st' : List Nat × List Nat)
    (h : recursive_fill_list heap func fuel pkg (chain, list) = some st') :
    ∃ new, st' = (chain, new ++ list) := by
  obtain ⟨e, new, hl, _⟩ := recursive_fill_list_sound heap func fuel pkg _ _ h
  exact ⟨new, Prod.ext e hl⟩

theorem foldlM_shape (heap : Heap) (func : Package → List Nat) (fuel : Nat) (cs : List Nat)
    (chain list : List Nat) (st' : List Nat × List Nat)
    (h : cs.foldlM (fun st tmp => recursive_fill_list heap func fuel tmp st) (chain, list) =
      some st') :
    ∃ news, st' = (chain, news ++ list) := by
  obtain ⟨e, new, hl, _⟩ := foldlM_stepOk (P := fun _ => True) cs
    (fun c _ st st1 hst =>
      (recursive_fill_list_sound heap func fuel c st st1 hst).mono (fun _ _ => trivial))
    _ _ h
  exact ⟨new, Prod.ext e hl⟩

/-- What a successful call for a package that is not on the chain has done. -/
theorem recursive_fill_list_enter (heap : Heap) (func : Package → List Nat)
    (fuel pkg : Nat) (chain list : List Nat) (st' : List Nat × List Nat) (hnot : pkg ∉ chain)
    (h : recursive_fill_list heap func (fuel + 1) pkg (chain, list) = some st') :
    ∃ p news, heap[pkg]? = some p ∧
      (func p).foldlM (fun st tmp => recursive_fill_list heap func fuel tmp st)
        (pkg :: chain, list) = some (pkg :: chain, news ++ list) ∧
      st' = (chain, pkg :: (news ++ list)) := by
  rw [recursive_fill_list_succ] at h
  have hc : ¬ g_slist_find chain pkg = true := by simp [g_slist_find, hnot]
  rw [if_neg hc] at h
  rcases Option.eq_none_or_eq_some heap[pkg]? with hp | ⟨p, hp⟩
  · rw [hp] at h; cases h
  rw [hp] at h
  simp only at h
  rcases Option.eq_none_or_eq_some ((func p).foldlM
    (fun st tmp => recursive_fill_list heap func fuel tmp st) (g_slist_prepend chain pkg, list))
    with hf | ⟨s1, hf⟩
  · rw [hf] at h; cases h
  rw [hf] at h
  obtain ⟨news, hs1⟩ := foldlM_shape heap func fuel _ _ _ _ hf
  subst hs1
  simp only [Option.some.injEq] at h
  refine ⟨p, news, hp, hf, ?_⟩
  rw [← h]
  simp [g_slist_remove, g_slist_prepend]

/-- The call for a package that is not on the chain, from the result of the
loop over its requirements. -/
theorem recursive_fill_list_enter_eq (heap : Heap) (func : Package → List Nat)
    (fuel pkg : Nat) (chain list list1 : List Nat) (p : Package) (hnot : pkg ∉ chain)
    (hp : heap[pkg]? = some p)
    (hf : (func p).foldlM (fun st tmp => recursive_fill_list heap func fuel tmp st)
      (pkg :: chain, list) = some (pkg :: chain, list1)) :
    recursive_fill_list heap func (fuel + 1) pkg (chain, list) = some (chain, pkg :: list1) := by
  rw [recursive_fill_list_succ]
  have hc : ¬ g_slist_find chain pkg = true := by simp [g_slist_find, hnot]
  rw [if_neg hc, hp]
  simp only [g_slist_prepend]
  rw [hf]
  simp [g_slist_remove, g_slist_prepend]

/-- In a graph without cycles a requirement of a package does not reach the
package. -/
theorem Acyclic.not_back {heap : Heap} {func : Package → List Nat} (hac : Acyclic heap func)
    {pkg c : Nat} (hedge : requires_edge heap func pkg c) : ¬ Reachable heap func c pkg :=
  fun h => hac pkg (Relation.TransGen.head' hedge h)

/-- In a graph without cycles, a chain that the package does not reach, with the
package put in front, is a chain that a requirement of the package does not
reach. -/
theorem Acyclic.chain_step {heap : Heap} {func : Package → List Nat} (hac : Acyclic heap func)
    {pkg c : Nat} {chain : List Nat} (hedge : requires_edge heap func pkg c)
    (hchain : ∀ a ∈ chain, ¬ Reachable heap func pkg a) :
    ∀ a ∈ pkg :: chain, ¬ Reachable heap func c a := by
  intro a ha hreach
  rcases List.mem_cons.1 ha with rfl | ha
  · exact hac.not_back hedge hreach
  · exact hchain a ha (Relation.ReflTransGen.head hedge hreach)

theorem dependents_first_cons (heap : Heap) (func : Package → List Nat) (pkg : Nat)
    (p : Package) (list : List Nat) (hp : heap[pkg]? = some p)
    (hall : ∀ c ∈ func p, c ∈ list) (hd : dependents_first heap func list) :
    dependents_first heap func (pkg :: list) := by
  intro pre post P r Q hsplit hr hQ
  cases pre with
  | nil =>
    simp only [List.nil_append, List.cons.injEq] at hsplit
    obtain ⟨rfl, rfl⟩ := hsplit
    rw [hp] at hr
    cases hr
    exact hall Q hQ
  | cons x pre =>
    simp only [List.cons_append, List.cons.injEq] at hsplit
    exact hd pre post P r Q hsplit.2 hr hQ

/-- In a graph without cycles, a call from a chain that the package does not
reach keeps the list one in which dependents come first, and puts the package
on it. -/
theorem recursive_fill_list_dependents_first (heap : Heap) (func : Package → List Nat)
    (hac : Acyclic heap func) :
    ∀ (fuel pkg : Nat) (chain list : List Nat) (st' : List Nat × List Nat),
      (∀ a ∈ chain, ¬ Reachable heap func pkg a) →
      dependents_first heap func list →
      recursive_fill_list heap func fuel pkg (chain, list) = some st' →
      dependents_first heap func st'.2 ∧ pkg ∈ st'.2 := by
  intro fuel
  induction fuel with
  | zero => intro pkg chain list st' _ _ h; simp [recursive_fill_list] at h
  | succ fuel ih =>
    intro pkg chain list st' hchain hd h
    have hnot : pkg ∉ chain := fun hm => hchain pkg hm Relation.ReflTransGen.refl
    obtain ⟨p, news, hp, hf, rfl⟩ := recursive_fill_list_enter heap func fuel pkg chain list st'
      hnot h
    have hfold : ∀ (cs : List Nat) (l : List Nat) (st1 : List Nat × List Nat),
        (∀ c ∈ cs, requires_edge heap func pkg c) →
        dependents_first heap func l →
        cs.foldlM (fun st tmp => recursive_fill_list heap func fuel tmp st) (pkg :: chain, l) =
          some st1 →
        dependents_first heap func st1.2 ∧ (∀ c ∈ cs, c ∈ st1.2) ∧ ∀ x ∈ l, x ∈ st1.2 := by
      intro cs
      induction cs with
      | nil =>
        intro l st1 _ hdl hst
        simp only [List.foldlM_nil, Option.pure_def, Option.some.injEq] at hst
        subst hst
        exact ⟨hdl, by simp, fun x hx => hx⟩
      | cons c cs ihcs =>
        intro l st1 hedges hdl hst
        obtain ⟨s1, hc1, hrest⟩ := foldlM_cons_ok c cs _ _ hst
        obtain ⟨n1, rfl⟩ := recursive_fill_list_shape heap func fuel c _ _ _ hc1
        obtain ⟨hd1, hm1⟩ := ih c (pkg :: chain) l _
          (hac.chain_step (hedges c (List.mem_cons_self _ _)) hchain) hdl hc1
        obtain ⟨hd2, hm2, hsub⟩ := ihcs (n1 ++ l) st1
          (fun x hx => hedges x (List.mem_cons_of_mem _ hx)) hd1 hrest
        refine ⟨hd2, fun x hx => ?_, fun x hx => hsub x (List.mem_append_right _ hx)⟩
        rcases List.mem_cons.1 hx with rfl | hx
        · exact hsub _ hm1
        · exact hm2 x hx
    obtain ⟨hd1, hm1, _⟩ := hfold (func p) list _ (fun c hc => ⟨p, hp, hc⟩) hd hf
    exact ⟨dependents_first_cons heap func pkg p _ hp hm1 hd1, List.mem_cons_self _ _⟩

/-- A heap in which every requirement has a higher index than the package that
requires it has no cycle. -/
theorem acyclic_of_increasing (heap : Heap) (func : Package → List Nat)
    (h : ∀ p, p < heap.length → ∀ q ∈ func (heap.getD p zero_package), p < q) :
    Acyclic heap func := by
  have hlt : ∀ p q, Relation.TransGen (requires_edge heap func) p q → p < q := by
    intro p q hpq
    induction hpq with
    | single hedge =>
      obtain ⟨r, hr, hq⟩ := hedge
      have hp := getElem?_pos_of_some _ _ _ hr
      have : heap.getD p zero_package = r := by
        rw [List.getD_eq_getElem?_getD, hr]; rfl
      exact h p hp _ (this ▸ hq)
    | @tail b c _ hedge ih =>
      obtain ⟨r, hr, hq⟩ := hedge
      have hp := getElem?_pos_of_some _ _ _ hr
      have : heap.getD b zero_package = r := by
        rw [List.getD_eq_getElem?_getD, hr]; rfl
      exact lt_trans ih (h b hp c (this ▸ hq))
  intro p hp
  exact lt_irrefl p (hlt p p hp)

theorem foldlM_congr_some {f g : List Nat × List Nat → Nat → Option (List Nat × List Nat)}
    (cs : List Nat) :
    (∀ c ∈ cs, ∀ st st', f st c = some st' → g st c = some st') →
    ∀ st st', cs.foldlM f st = some st' → cs.foldlM g st = some st' := by
  induction cs with
  | nil => intro _ st st' h; exact h
  | cons c cs ih =>
    intro hfg st st' h
    obtain ⟨s1, h1, h2⟩ := foldlM_cons_ok c cs st st' h
    rw [foldlM_cons_eq c cs st s1 (hfg c (List.mem_cons_self _ _) st s1 h1)]
    exact ih (fun x hx => hfg x (List.mem_cons_of_mem _ hx)) s1 st' h2

/-- More fuel does not change a result of the traversal. -/
theorem recursive_fill_list_mono (heap : Heap) (func : Package → List Nat) :
    ∀ (fuel pkg : Nat) (st st' : List Nat × List Nat),
      recursive_fill_list heap func fuel pkg st = some st' →
      recursive_fill_list heap func (fuel + 1) pkg st = some st' := by
  intro fuel
  induction fuel with
  | zero => intro pkg st st' h; simp [recursive_fill_list] at h
  | succ fuel ih =>
    intro pkg st st' h
    obtain ⟨chain, list⟩ := st
    by_cases hmem : pkg ∈ chain
    · rw [recursive_fill_list_succ] at h ⊢
      have hc : g_slist_find chain pkg = true := by simp [g_slist_find, hmem]
      rw [if_pos hc] at h ⊢
      exact h
    · obtain ⟨p, news, hp, hf, rfl⟩ :=
        recursive_fill_list_enter heap func fuel pkg chain list st' hmem h
      exact recursive_fill_list_enter_eq heap func (fuel + 1) pkg chain list _ p hmem hp
        (foldlM_congr_some (func p) (fun c _ st st1 hst => ih c st st1 hst) _ _ hf)

/-- In a graph without cycles the packages a call puts on the list do not depend
on the chain and the list it starts from, as long as the package reaches
nothing on the chain. -/
theorem recursive_fill_list_frame (heap : Heap) (func : Package → List Nat)
    (hac : Acyclic heap func) :
    ∀ (fuel pkg : Nat) (chain list chain' list' new : List Nat),
      (∀ a ∈ chain, ¬ Reachable heap func pkg a) →
      (∀ a ∈ chain', ¬ Reachable heap func pkg a) →
      recursive_fill_list heap func fuel pkg (chain, list) = some (chain, new ++ list) →
      recursive_fill_list heap func fuel pkg (chain', list') = some (chain', new ++ list') := by
  intro fuel
  induction fuel with
  | zero => intro pkg chain list chain' list' new _ _ h; simp [recursive_fill_list] at h
  | succ fuel ih =>
    intro pkg chain list chain' list' new hchain hchain' h
    have hnot : pkg ∉ chain := fun hm => hchain pkg hm Relation.ReflTransGen.refl
    have hnot' : pkg ∉ chain' := fun hm => hchain' pkg hm Relation.ReflTransGen.refl
    obtain ⟨p, news, hp, hf, heq⟩ :=
      recursive_fill_list_enter heap func fuel pkg chain list _ hnot h
    have hnew : new = pkg :: news := by
      have h2 := congrArg Prod.snd heq
      simp only at h2
      exact List.append_cancel_right (h2.trans (List.cons_append _ _ _).symm)
    subst hnew
    have hfold : ∀ (cs : List Nat) (l l' ns : List Nat),
        (∀ c ∈ cs, requires_edge heap func pkg c) →
        cs.foldlM (fun st tmp => recursive_fill_list heap func fuel tmp st) (pkg :: chain, l) =
          some (pkg :: chain, ns ++ l) →
        cs.foldlM (fun st tmp => recursive_fill_list heap func fuel tmp st)
          (pkg :: chain', l') = some (pkg :: chain', ns ++ l') := by
      intro cs
      induction cs with
      | nil =>
        intro l l' ns _ hst
        simp only [List.foldlM_nil, Option.pure_def, Option.some.injEq, Prod.mk.injEq,
          true_and] at hst
        have hns : ns = [] := List.self_eq_append_left.1 hst
        subst hns
        rfl
      | cons c cs ihcs =>
        intro l l' ns hedges hst
        obtain ⟨s1, hc1, hrest⟩ := foldlM_cons_ok c cs _ _ hst
        obtain ⟨n1, rfl⟩ := recursive_fill_list_shape heap func fuel c _ _ _ hc1
        obtain ⟨n2, hn2⟩ := foldlM_shape heap func fuel cs _ _ _ hrest
        have hns : ns = n2 ++ n1 := by
          have h2 := congrArg Prod.snd hn2
          simp only at h2
          exact List.append_cancel_right (h2.trans (List.append_assoc _ _ _).symm)
        subst hns
        have hedge := hedges c (List.mem_cons_self _ _)
        have hc1' := ih c (pkg :: chain) l (pkg :: chain') l' n1
          (hac.chain_step hedge hchain) (hac.chain_step hedge hchain') hc1
        rw [foldlM_cons_eq c cs _ _ hc1', List.append_assoc]
        refine ihcs (n1 ++ l) (n1 ++ l') n2 (fun x hx => hedges x (List.mem_cons_of_mem _ hx)) ?_
        rw [hrest, List.append_assoc]
    exact recursive_fill_list_enter_eq heap func fuel pkg chain' list' _ p hnot' hp
      (hfold (func p) list list' news (fun c hc => ⟨p, hp, hc⟩) hf)

/-- On a heap with valid pointers the list behind `closure_list` is returned by
the traversal. -/
theorem closure_list_spec (heap : Heap) (func : Package → List Nat)
    (hv : ∀ p ∈ heap, ∀ q ∈ func p, q < heap.length) (root : Nat) (hroot : root < heap.length) :
    recursive_fill_list heap func (heap.length + 1) root ([], []) =
      some ([], closure_list heap func root) := by
  obtain ⟨l, hl⟩ := recursive_fill_list_total heap func hv (heap.length + 1) root [] [] hroot
    (Nat.lt_succ_of_le (unvisited_le heap []))
  unfold closure_list
  rw [hl]
  rfl

/-- In a graph without cycles the call for a requirement `c` of `pkg`, made with
`pkg` on the chain, puts the list of `c` in front of the list it finds. -/
theorem closure_list_child (heap : Heap) (func : Package → List Nat)
    (hv : ∀ p ∈ heap, ∀ q ∈ func p, q < heap.length) (hac : Acyclic heap func)
    (pkg c : Nat) (hpkg : pkg < heap.length) (hedge : requires_edge heap func pkg c)
    (acc : List Nat) :
    recursive_fill_list heap func heap.length c ([pkg], acc) =
      some ([pkg], closure_list heap func c ++ acc) := by
  have hc : c < heap.length := by
    obtain ⟨r, hr, hcr⟩ := hedge
    exact hv r (List.getElem?_mem hr) c hcr
  have hfuel : unvisited heap [pkg] < heap.length :=
    lt_of_lt_of_le (unvisited_cons_lt heap [] pkg hpkg (by simp)) (unvisited_le heap [])
  obtain ⟨l, hl⟩ := recursive_fill_list_total heap func hv heap.length c [pkg] acc hc hfuel
  obtain ⟨n, hn⟩ := recursive_fill_list_shape heap func _ c _ _ _ hl
  obtain ⟨-, rfl⟩ := Prod.mk.inj hn
  have h1 := recursive_fill_list_mono heap func _ c _ _ hl
  have h2 := recursive_fill_list_frame heap func hac _ c [pkg] acc [] [] n
    (fun a ha => by
      rw [List.mem_singleton] at ha
      subst ha
      exact hac.not_back hedge)
    (fun a ha => by cases ha) h1
  have h3 := closure_list_spec heap func hv c hc
  rw [h2] at h3
  have h4 : n = closure_list heap func c := by
    have := congrArg Prod.snd (Option.some.inj h3)
    simpa using this
  rw [hl, h4]

/-- In a graph without cycles the list of a package is the package followed by
the lists of its requirements, the last requirement first. -/
theorem closure_list_unfold (heap : Heap) (func : Package → List Nat)
    (hv : ∀ p ∈ heap, ∀ q ∈ func p, q < heap.length) (hac : Acyclic heap func)
    (root : Nat) (r : Package) (hr : heap[root]? = some r) :
    closure_list heap func root =
      root :: (func r).reverse.flatMap (closure_list heap func) := by
  have hroot : root < heap.length := getElem?_pos_of_some _ _ _ hr
  have hspec := closure_list_spec heap func hv root hroot
  obtain ⟨p, news, hp, hf, heq⟩ :=
    recursive_fill_list_enter heap func heap.length root [] [] _ (by simp) hspec
  rw [hr] at hp
  cases hp
  have hfold : ∀ (cs : List Nat) (acc : List Nat),
      (∀ c ∈ cs, requires_edge heap func root c) →
      cs.foldlM (fun st tmp => recursive_fill_list heap func heap.length tmp st) ([root], acc) =
        some ([root], cs.reverse.flatMap (closure_list heap func) ++ acc) := by
    intro cs
    induction cs with
    | nil => intro acc _; rfl
    | cons c cs ihcs =>
      intro acc hedges
      rw [foldlM_cons_eq c cs _ _
        (closure_list_child heap func hv hac root c hroot (hedges c (List.mem_cons_self _ _))
          acc),
        ihcs _ (fun x hx => hedges x (List.mem_cons_of_mem _ hx))]
      simp [List.reverse_cons, List.flatMap_append]
  rw [hfold (func r) [] (fun c hc => ⟨r, hr, hc⟩)] at hf
  have h1 := congrArg Prod.snd (Option.some.inj hf)
  have h2 := congrArg Prod.snd heq
  simp only [List.append_nil] at h1 h2
  rw [h2, ← h1]

/-- C24, the claim as stated fails: in `heap_chain`, which has no cycle, package
0 requires package 1, and the list for the root 0 is `[0, 1]`: the occurrence of
package 0 comes before the only occurrence of package 1, not after one. -/
theorem dependencies_not_first :
    Acyclic heap_chain get_requires ∧
    recursive_fill_list heap_chain get_requires (heap_chain.length + 1) 0 ([], []) =
      some ([], [0, 1]) ∧
    ¬ dependencies_first heap_chain get_requires [0, 1] := by
  refine ⟨acyclic_of_increasing _ _ (by decide), by decide, fun h => ?_⟩
  have h1 := h [] [1] 0 (heap_chain.getD 0 zero_package) 1 rfl (by rfl) (by decide)
  cases h1

/-- C24 as amended: for a graph without cycles, with valid pointers, and every
root in the heap, `recursive_fill_list` returns a list in which each package
comes before its dependencies: whenever `P` requires `Q` over the chosen edge
set, every occurrence of `P` in the list is followed, further back, by an
occurrence of `Q`. -/
theorem dependents_before_dependencies (heap : Heap) (func : Package → List Nat)
    (hv : ∀ p ∈ heap, ∀ q ∈ func p, q < heap.length) (hac : Acyclic heap func)
    (root : Nat) (hroot : root < heap.length) :
    ∃ list, recursive_fill_list heap func (heap.length + 1) root ([], []) = some ([], list) ∧
      dependents_first heap func list ∧
      ∀ pre post P r Q, list = pre ++ P :: post → heap[P]? = some r → Q ∈ func r →
        Q ∈ post := by
  have hspec := closure_list_spec heap func hv root hroot
  have hd := (recursive_fill_list_dependents_first heap func hac _ root [] [] _
    (fun a ha => by cases ha) (fun pre post P r Q hsplit => by cases pre <;> cases hsplit)
    hspec).1
  exact ⟨_, hspec, hd, hd⟩

/-- C24, a witness: the diamond `heap_diamond` gives the list `[0, 2, 3, 1, 3]`
for the root 0. -/
theorem dependents_before_dependencies_witness :
    (∀ p ∈ heap_diamond, ∀ q ∈ get_requires p, q < heap_diamond.length) ∧
    Acyclic heap_diamond get_requires ∧ 0 < heap_diamond.length ∧
    recursive_fill_list heap_diamond get_requires (heap_diamond.length + 1) 0 ([], []) =
      some ([], [0, 2, 3, 1, 3]) ∧
    ∃ list, recursive_fill_list heap_diamond get_requires (heap_diamond.length + 1) 0 ([], []) =
        some ([], list) ∧
      dependents_first heap_diamond get_requires list ∧
      ∀ pre post P r Q, list = pre ++ P :: post → heap_diamond[P]? = some r →
        Q ∈ get_requires r → Q ∈ post :=
  ⟨by decide, acyclic_of_increasing _ _ (by decide), by decide, by decide,
   dependents_before_dependencies heap_diamond get_requires (by decide)
     (acyclic_of_increasing _ _ (by decide)) 0 (by decide)⟩

/-- C25, the claim as stated fails: in the diamond `heap_diamond`, which has no
cycle, the list for the root 0 (`A`) is `[0, 2, 3, 1, 3]`: package 3 (`D`),
reachable through `B` and through `C`, occurs twice. -/
theorem diamond_visited_twice :
    Acyclic heap_diamond get_requires ∧
    recursive_fill_list heap_diamond get_requires (heap_diamond.length + 1) 0 ([], []) =
      some ([], [0, 2, 3, 1, 3]) ∧
    closure_list heap_diamond get_requires 0 = [0, 2, 3, 1, 3] ∧
    (closure_list heap_diamond get_requires 0).count 3 = 2 ∧
    ¬ (closure_list heap_diamond get_requires 0).Nodup :=
  ⟨acyclic_of_increasing _ _ (by decide), by decide, by decide, by decide, by decide⟩

/-- C25 as amended: for a graph without cycles, with valid pointers, the list
`recursive_fill_list` produces for a root is the root followed by the lists it
produces for the requirements of the root, the last requirement first.  So the
list holds exactly the packages reachable from the root, each at least once,
and a package `q` occurs in it once if it is the root, plus as often as it
occurs in the lists of the requirements: once for every path from the root to
`q`. -/
theorem closure_list_once_per_path (heap : Heap) (func : Package → List Nat)
    (hv : ∀ p ∈ heap, ∀ q ∈ func p, q < heap.length) (hac : Acyclic heap func)
    (root : Nat) (r : Package) (hr : heap[root]? = some r) :
    recursive_fill_list heap func (heap.length + 1) root ([], []) =
      some ([], closure_list heap func root) ∧
    closure_list heap func root = root :: (func r).reverse.flatMap (closure_list heap func) ∧
    (∀ q, q ∈ closure_list heap func root ↔ Reachable heap func root q) ∧
    ∀ q, (closure_list heap func root).count q =
      (if root = q then 1 else 0) +
        ((func r).map (fun c => (closure_list heap func c).count q)).sum := by
  have hroot : root < heap.length := getElem?_pos_of_some _ _ _ hr
  have hspec := closure_list_spec heap func hv root hroot
  have hunfold := closure_list_unfold heap func hv hac root r hr
  refine ⟨hspec, hunfold, fun q => ⟨fun hq => ?_, fun hq => ?_⟩, fun q => ?_⟩
  · obtain ⟨_, new, hnew, hall⟩ := recursive_fill_list_sound heap func _ _ _ _ hspec
    simp only [List.append_nil] at hnew
    exact (hall q (hnew ▸ hq)).2
  · exact recursive_fill_list_complete heap func _ _ _ _ hspec q (ReachAvoid.of_reachable hq)
  · rw [hunfold, List.count_cons, List.count_flatMap, List.map_reverse, List.sum_reverse]
    simp only [beq_iff_eq]
    rw [Nat.add_comm]
    rfl

/-- C25, a witness: in the diamond the list of `A` is `A` followed by the list
of `C` and the list of `B`, and `D` occurs once in each of these. -/
theorem closure_list_once_per_path_witness :
    (∀ p ∈ heap_diamond, ∀ q ∈ get_requires p, q < heap_diamond.length) ∧
    Acyclic heap_diamond get_requires ∧
    heap_diamond[0]? = some (heap_diamond.getD 0 zero_package) ∧
    closure_list heap_diamond get_requires 1 = [1, 3] ∧
    closure_list heap_diamond get_requires 2 = [2, 3] ∧
    (recursive_fill_list heap_diamond get_requires (heap_diamond.length + 1) 0 ([], []) =
      some ([], closure_list heap_diamond get_requires 0) ∧
    closure_list heap_diamond get_requires 0 =
      0 :: (get_requires (heap_diamond.getD 0 zero_package)).reverse.flatMap
        (closure_list heap_diamond get_requires) ∧
    (∀ q, q ∈ closure_list heap_diamond get_requires 0 ↔
      Reachable heap_diamond get_requires 0 q) ∧
    ∀ q, (closure_list heap_diamond get_requires 0).count q =
      (if 0 = q then 1 else 0) +
        ((get_requires (heap_diamond.getD 0 zero_package)).map
          (fun c => (closure_list heap_diamond get_requires c).count q)).sum) :=
  ⟨by decide, acyclic_of_increasing _ _ (by decide), by rfl, by decide, by decide,
   closure_list_once_per_path heap_diamond get_requires (by decide)
     (acyclic_of_increasing _ _ (by decide)) 0 (heap_diamond.getD 0 zero_package) (by rfl)⟩

end PkgConfig


namespace PkgConfig

/-! ## Version constraint enforcement (C1) -/

/-- The record that `load_package` puts into the heap has a key. -/
theorem load_package_key (env : Env) (cfg : Config) (name location : CString) (literal : Bool)
    (reg reg2 : Registry) (pkg : Nat) (p0 : Package)
    (h : load_package env cfg name location literal reg = some (pkg, reg2))
    (hp0 : reg2.heap[pkg]? = some p0) : p0.key ≠ none := by
  obtain ⟨raw, _, hpkg, hreg2⟩ := load_package_ok env cfg name location literal reg reg2 pkg h
  subst hpkg
  rw [hreg2] at hp0
  simp only [List.getElem?_append_right (le_refl _), Nat.sub_self, List.getElem?_cons_zero]
    at hp0
  have := (Option.some.inj hp0).symm
  subst this
  simp

/-- C1, the claim as stated fails.  First input: `noname.pc` declares
`Requires: foo >= 2.0`, `foo` has version 1.0, and resolving `noname` ends in
`MissingRequiredField`, not in `VersionMismatch`, because the file has no
`Name:` line and the fields are checked first.  Second input: `app.pc` declares
`Requires: foo >= 2.0` and the requirement resolves to `foo-uninstalled` in
version 1.0, which does not satisfy `>= 2.0`; resolving `app` returns the
package: the constraint is stored under `foo`, and none is found under the key
`foo-uninstalled` of the required package.  Third input: `shadow.pc` declares
`Requires: foo >= 2.0` and `Requires.private: foo <= 3.0`, `foo` has version
1.0; resolving `shadow` returns the package: the table holds the later entry
`foo <= 3.0` under `foo`, and the entry `foo >= 2.0` is not tested.  Fourth
input: `partial.pc` declares `Requires: foo >= 2.0, bar` and there is no `bar`;
resolving `partial` ends in `NotFound`, before any version is tested. -/
theorem version_constraint_not_always_enforced :
    get_package example_env default_config 5 "noname".toList registry_installed =
      Except.error Fatal.MissingRequiredField ∧
    (get_package example_env default_config 5 "app".toList registry_uninstalled).map
        (fun r => (r.1, r.2.heap.map (fun q => (q.key, q.version, q.requires)))) =
      Except.ok (some 0,
        [(some "app".toList, some "1".toList, [1]),
         (some "foo-uninstalled".toList, some "1.0".toList, [])]) ∧
    (get_package example_env default_config 5 "app".toList registry_uninstalled).map
        (fun r => r.2.heap[0]?.map
          (fun p => (p.required_versions.map (fun t => t.map Prod.fst),
            (constraint_for r.2.heap p 1).isSome))) =
      Except.ok (some (some ["foo".toList], false)) ∧
    version_test ComparisonType.GREATER_THAN_EQUAL (some "1.0".toList) (some "2.0".toList) =
      some false ∧
    (get_package example_env4 default_config 5 "shadow".toList registry_shadow).map
        (fun r => (r.1, r.2.heap.map (fun q => (q.key, q.version, q.requires_private)))) =
      Except.ok (some 0,
        [(some "shadow".toList, some "1".toList, [1, 1]),
         (some "foo".toList, some "1.0".toList, [])]) ∧
    (get_package example_env4 default_config 5 "shadow".toList registry_shadow).map
        (fun r => r.2.heap[0]?.map
          (fun p => (p.requires_entries, p.requires_private_entries,
            (constraint_for r.2.heap p 1).map Prod.snd))) =
      Except.ok (some
        ([⟨"foo".toList, ComparisonType.GREATER_THAN_EQUAL, some "2.0".toList⟩],
         [⟨"foo".toList, ComparisonType.LESS_THAN_EQUAL, some "3.0".toList⟩],
         some ⟨"foo".toList, ComparisonType.LESS_THAN_EQUAL, some "3.0".toList⟩)) ∧
    get_package example_env4 default_config 5 "partial".toList registry_shadow =
      Except.error Fatal.NotFound := by
  refine ⟨by rfl, by rfl, by rfl, by decide, by rfl, by rfl, by rfl⟩

/-- C1 as amended: let `internal_get_package` miss the cache for `name`, find
the location and load the package `pkg` with the parsed record `p0`, which has
name, version and description, and let all requirements of `pkg` resolve, so
that the two loops leave the registry `reg3`.  Let `ver` be an entry of
`Requires` or of `Requires.private` of the package, the last entry with its
name, that resolves to the package `Q`.  If `Q` has the name of the entry as
its key and a version that fails `ver.comparison ver.version` under
`version_test`, and no round of the version loop reads a `NULL` pointer, then
`verify_package` ends in `VersionMismatch` and so does `internal_get_package`,
at every recursion depth from `fuel + 1` on: no package is returned. -/
theorem version_constraint_enforced (env : Env) (cfg : Config) (fuel : Nat) (name : CString)
    (warn : Bool) (reg reg1 reg2 reg3 : Registry) (location : CString) (literal : Bool)
    (pkg : Nat) (p0 p : Package) (ver : RequiredVersion) (Q : Nat) (r : Package)
    (hmiss : g_hash_table_lookup reg.packages name = none)
    (hloc : locate_package cfg (internal_get_package env cfg fuel) name reg =
      Except.ok (Located.location (some location) literal reg1))
    (hload : load_package env cfg name location literal reg1 = some (pkg, reg2))
    (hp0 : reg2.heap[pkg]? = some p0)
    (hfields : p0.name ≠ none ∧ p0.version ≠ none ∧ p0.description ≠ none)
    (hentry : requirement_resolves_to (internal_get_package env cfg fuel) warn pkg p0 reg2
      ver Q)
    (hlast : last_declared (p0.requires_entries ++ p0.requires_private_entries) ver.name =
      some ver)
    (hlink : link_package (internal_get_package env cfg fuel) warn pkg reg2 = Except.ok reg3)
    (hQ : reg3.heap[Q]? = some r) (hkey : r.key = some ver.name)
    (hfail : version_test ver.comparison r.version ver.version = some false)
    (hp : reg3.heap[pkg]? = some p)
    (hcheck : ∀ req ∈ p.requires_private, constraint_checkable reg3.heap p req = true) :
    verify_package env reg3 pkg = Except.error Fatal.VersionMismatch ∧
    ∀ fuel1, fuel ≤ fuel1 →
      internal_get_package env cfg (fuel1 + 1) name warn reg =
        Except.error Fatal.VersionMismatch := by
  obtain ⟨R, P, reg_pub, hpub, hR, hP, hp3, _, _, _, _⟩ :=
    link_package_spec (internal_get_package env cfg fuel)
      (internal_get_package_grows env cfg fuel) warn pkg reg2 reg3 p0 hp0 hlink
  rw [hp] at hp3
  have hpp := Option.some.inj hp3
  have hmem : Q ∈ p.requires_private := by
    rw [hpp]
    simp only [List.reverse_append, List.reverse_reverse, List.mem_append, List.mem_reverse]
    rcases hentry with ⟨i, _, he⟩ | ⟨i, reg_pub1, _, hpub1, he⟩
    · exact Or.inr (Or.inr (resolves_in_order_mem hR he))
    · rw [hpub] at hpub1
      cases hpub1
      exact Or.inl (Or.inr (resolves_in_order_mem hP he))
  have hviol : constraint_violated reg3.heap p Q = true := by
    have hlook := record_versions_lookup ver.name
      (p0.requires_entries ++ p0.requires_private_entries) p0.required_versions
    rw [hlast] at hlook
    have hrv : p.required_versions = record_versions p0.required_versions
        (p0.requires_entries ++ p0.requires_private_entries) := by rw [hpp]
    rw [← hrv] at hlook
    unfold constraint_violated constraint_for
    rcases Option.eq_none_or_eq_some p.required_versions with ht | ⟨table, ht⟩
    · rw [ht] at hlook
      cases hlook
    · rw [ht] at hlook
      have hl : g_hash_table_lookup table ver.name = some ver := hlook
      simp only [hQ, ht, hkey, hl, Option.map_some', hfail]
      rfl
  have hf : verify_fields p = Except.ok () := by
    have hk : p.key ≠ none := by
      rw [hpp]
      exact load_package_key env cfg name location literal reg1 reg2 pkg p0 hload hp0
    have hn : p.name ≠ none := by rw [hpp]; exact hfields.1
    have hv : p.version ≠ none := by rw [hpp]; exact hfields.2.1
    have hd : p.description ≠ none := by rw [hpp]; exact hfields.2.2
    unfold verify_fields
    simp only [hk, hn, hv, hd, if_false]
  have hv : verify_package env reg3 pkg = Except.error Fatal.VersionMismatch := by
    unfold verify_package
    rw [hp]
    simp only [hf, verify_versions_mismatch reg3.heap p p.requires_private hcheck
      ⟨Q, hmem, hviol⟩]
  refine ⟨hv, fun fuel1 hle => ?_⟩
  have hmono : ∀ nm w rg x, internal_get_package env cfg fuel nm w rg = Except.ok x →
      internal_get_package env cfg fuel1 nm w rg = Except.ok x :=
    fun nm w rg x hx => internal_get_package_mono_le env cfg fuel fuel1 hle nm w rg x hx
  have hloc1 := locate_package_mono cfg _ _ hmono name reg _ hloc
  have hlink1 := link_package_mono _ _ hmono warn pkg reg2 reg3 hlink
  rw [internal_get_package]
  simp only [hmiss, hloc1, hload, hlink1, hv]

/-- C1 as amended, a witness: `app.pc` declares `Requires: foo >= 2.0`, the
entry resolves to package 1, the available `foo` in version 1.0, and resolving
`app` ends in `VersionMismatch`. -/
theorem version_constraint_enforced_witness :
    registry_app_linked.heap[1]?.map (fun q => (q.key, q.version)) =
      some (some "foo".toList, some "1.0".toList) ∧
    verify_package example_env registry_app_linked 0 = Except.error Fatal.VersionMismatch ∧
    internal_get_package example_env default_config 8 "app".toList true registry_installed =
      Except.error Fatal.VersionMismatch :=
  have h := version_constraint_enforced example_env default_config 4 "app".toList true
    registry_installed registry_installed registry_app_loaded registry_app_linked
    "/p/app.pc".toList false 0
    (registry_app_loaded.heap.get ⟨0, by decide⟩)
    (registry_app_linked.heap.get ⟨0, by decide⟩)
    ⟨"foo".toList, ComparisonType.GREATER_THAN_EQUAL, some "2.0".toList⟩ 1
    (registry_app_linked.heap.get ⟨1, by decide⟩)
    (by rfl) (by rfl) (by rfl) (by rfl) (by decide)
    (Or.inl ⟨0, by rfl,
      ⟨⟨"foo".toList, ComparisonType.GREATER_THAN_EQUAL, some "2.0".toList⟩,
        registry_app_loaded,
        registry_after
          (internal_get_package example_env default_config 4 "foo".toList true
            registry_app_loaded) registry_app_loaded,
        by rfl, by rfl, by rfl⟩⟩)
    (by decide) (by rfl) (by rfl) (by rfl) (by decide) (by rfl) (by decide)
  ⟨by rfl, h.1, h.2 7 (by decide)⟩

end PkgConfig
